import Mathlib

/-!
Infix expression evaluator (`infix_eval.cpp`).

A shallow embedding of the tokenizer (`Lexer`) and of the recursive-descent
evaluator (`Parser`) of `infix_eval.cpp`, followed by theorems about them.

Modelling conventions.

* `std::string` is a `List Char`; one `Char` stands for one `char` of the line.
* `double` is modelled by the exact rationals (`Val`): rounding, overflow,
  infinities and NaN are outside the model. The functions of `<cmath>` are not
  part of the program and are taken as a parameter (`Libm`).
* A C++ exception is an `Error`; a member function of `Parser` is a function from
  the parser object to a `Result`, which carries the object as it is when the
  function returns or throws.
* The mutually recursive member functions are first defined with a recursion
  budget (`factorN`, `termN`, ...). The budget-free functions `factor`, `term`,
  `expression`, ... call them with a budget computed from the unread input; that
  budget is shown to be always sufficient, and the budget-free functions are
  shown to satisfy the recursion equations of the source.
-/

namespace InfixEval

/-! ## Values, tokens, errors -/

/-- The type `double` of the source, modelled by exact rational numbers. -/
abbrev Val := Rat

/-- The functions of `<cmath>` called by `Parser::applyFunction`. -/
structure Libm where
  sin : Val → Val
  cos : Val → Val
  tan : Val → Val
  log : Val → Val
  sqrt : Val → Val

/-- The enumeration `Token::Type`. -/
inductive TokenType where
  | Number | Plus | Minus | Multiply | Divide
  | LeftParen | RightParen | Assign | Identifier
  | Comma | Function | End
deriving DecidableEq, Repr

/-- The class `Token`: a type tag, a numeric value and a name. -/
structure Token where
  type : TokenType
  value : Val
  name : List Char
deriving DecidableEq

/-- The constructor `Token(Type type)`: value `0`, empty name. -/
def Token.ofType (type : TokenType) : Token := ⟨type, 0, []⟩

/-- The constructor `Token(Type type, double value)`. -/
def Token.ofValue (type : TokenType) (value : Val) : Token := ⟨type, value, []⟩

/-- The constructor `Token(Type type, const std::string& name)`. -/
def Token.ofName (type : TokenType) (name : List Char) : Token := ⟨type, 0, name⟩

/-- The exceptions thrown by the program: each `std::runtime_error` message of the
source, and the `std::invalid_argument` that `std::stod` throws. -/
inductive Error where
  | unknownCharacter (c : Char)
  | stodInvalidArgument
  | unexpectedToken
  | unknownFunction (name : List Char)
  | unknownVariable (name : List Char)
  | invalidSyntax
  | divisionByZero
  | logNonPositive
  | sqrtNegative
  | trailingCharacters
deriving DecidableEq

/-- The text returned by `what()` for each exception. -/
def Error.what : Error → String
  | .unknownCharacter c => "Unknown character: " ++ String.mk [c]
  | .stodInvalidArgument => "stod"
  | .unexpectedToken => "Unexpected token"
  | .unknownFunction name => "Unknown function: " ++ String.mk name
  | .unknownVariable name => "Unknown variable: " ++ String.mk name
  | .invalidSyntax => "Invalid syntax"
  | .divisionByZero => "Division by zero"
  | .logNonPositive => "Math error: log of non-positive number"
  | .sqrtNegative => "Math error: sqrt of negative number"
  | .trailingCharacters => "Unexpected characters at end of input"

deriving instance DecidableEq for Except

/-! ## Character classes of `<cctype>` (the "C" locale) -/

/-- The function `isspace`: space, `\t`, `\n`, `\v`, `\f`, `\r`. -/
def isspace (c : Char) : Bool := c.toNat = 32 || (9 ≤ c.toNat && c.toNat ≤ 13)

/-- The function `isdigit`: `0` to `9`. -/
def isdigit (c : Char) : Bool := 48 ≤ c.toNat && c.toNat ≤ 57

/-- The function `isalpha`: `A` to `Z` and `a` to `z`. -/
def isalpha (c : Char) : Bool :=
  (65 ≤ c.toNat && c.toNat ≤ 90) || (97 ≤ c.toNat && c.toNat ≤ 122)

/-- The function `isalnum`. -/
def isalnum (c : Char) : Bool := isalpha c || isdigit c

/-! ## `std::stod` and `std::to_string` -/

/-- The value of a string of decimal digits. -/
def digitsValue (ds : List Char) : Nat :=
  ds.foldl (fun acc c => 10 * acc + (c.toNat - 48)) 0

/-- The call `std::stod(s)` for a string without leading blank, sign, exponent or
letters (all that the lexer passes): the longest prefix `digits [. digits]`
holding at least one digit is converted, the rest is ignored; without any digit
the call throws `std::invalid_argument`. -/
def stod (s : List Char) : Except Error Val :=
  let intPart := s.takeWhile isdigit
  let rest := s.dropWhile isdigit
  let fracPart := match rest with
    | '.' :: tail => tail.takeWhile isdigit
    | _ => []
  if intPart.isEmpty && fracPart.isEmpty then
    .error .stodInvalidArgument
  else
    .ok ((digitsValue intPart : Val) + (digitsValue fracPart : Val) / (10 ^ fracPart.length : Nat))

/-- Rounding of a non-negative rational to the nearest natural number, ties to
even, as `printf` rounds. -/
def roundHalfEven (q : Val) : Nat :=
  let f := q.floor.toNat
  let r := q - f
  if r < 1 / 2 then f
  else if 1 / 2 < r then f + 1
  else if f % 2 = 0 then f else f + 1

/-- Left padding of a digit string with `0` up to a width. -/
def padZeros (width : Nat) (ds : List Char) : List Char :=
  List.replicate (width - ds.length) '0' ++ ds

/-- The call `std::to_string(double)`, which prints with `"%f"`: the integer part,
a point, and six decimals. -/
def to_string (v : Val) : List Char :=
  let n := roundHalfEven (|v| * 1000000)
  (if v < 0 then ['-'] else []) ++ Nat.toDigits 10 (n / 1000000) ++ ['.'] ++
    padZeros 6 (Nat.toDigits 10 (n % 1000000))

/-! ## The class `Lexer` -/

/-- The data members of `Lexer`: the input line and the cursor. -/
structure Lexer where
  input : List Char
  pos : Nat
deriving DecidableEq

/-- The constructor `Lexer(input)`: the cursor starts at `0`. -/
def Lexer.new (input : List Char) : Lexer := ⟨input, 0⟩

/-- The loop `while (pos < input.length() && p(input[pos])) pos++`, run for at most
`n` iterations; it returns the final cursor. -/
def advanceWhile (p : Char → Bool) (input : List Char) : Nat → Nat → Nat
  | 0, pos => pos
  | n + 1, pos =>
    match input.get? pos with
    | some c => if p c then advanceWhile p input n (pos + 1) else pos
    | none => pos

/-- The call `input.substr(start, len)`. -/
def substr (input : List Char) (start len : Nat) : List Char :=
  (input.drop start).take len

/-- The names for which the lexer returns a `Function` token. -/
def isFunctionName (name : List Char) : Bool :=
  name = "sin".toList || name = "cos".toList || name = "tan".toList ||
    name = "log".toList || name = "sqrt".toList

/-- The last nine branches of `Lexer::getNextToken`: the token type of a
single-character token, or `none` for a character that starts no token. -/
def singleCharToken (current : Char) : Option TokenType :=
  if current = '+' then some .Plus
  else if current = '-' then some .Minus
  else if current = '*' then some .Multiply
  else if current = '/' then some .Divide
  else if current = '(' then some .LeftParen
  else if current = ')' then some .RightParen
  else if current = '=' then some .Assign
  else if current = ',' then some .Comma
  else none

/-- The member function `Lexer::getNextToken`: the token returned or the exception
thrown, and the lexer afterwards. -/
def Lexer.getNextToken (lx : Lexer) : Except Error Token × Lexer :=
  let input := lx.input
  let pos := advanceWhile isspace input (input.length - lx.pos) lx.pos
  match input.get? pos with
  | none => (.ok (Token.ofType .End), ⟨input, pos⟩)
  | some current =>
    if isdigit current || current = '.' then
      let start_pos := pos
      let pos := advanceWhile (fun c => isdigit c || c = '.') input (input.length - pos) pos
      match stod (substr input start_pos (pos - start_pos)) with
      | .ok value => (.ok (Token.ofValue .Number value), ⟨input, pos⟩)
      | .error e => (.error e, ⟨input, pos⟩)
    else if isalpha current then
      let start_pos := pos
      let pos := advanceWhile (fun c => isalnum c || c = '_') input (input.length - pos) pos
      let name := substr input start_pos (pos - start_pos)
      if isFunctionName name then
        (.ok (Token.ofName .Function name), ⟨input, pos⟩)
      else
        (.ok (Token.ofName .Identifier name), ⟨input, pos⟩)
    else
      match singleCharToken current with
      | some type => (.ok (Token.ofType type), ⟨input, pos + 1⟩)
      | none => (.error (.unknownCharacter current), ⟨input, pos⟩)

/-! ## The class `Parser` -/

/-- The member `variables`, a `std::map<std::string, double>`, as an association
list with at most one entry per key. -/
abbrev Env := List (List Char × Val)

/-- The call `variables.find(name)`: the value bound to `name`, if any. -/
def Env.find : Env → List Char → Option Val
  | [], _ => none
  | (k, v) :: rest, name => if k = name then some v else Env.find rest name

/-- The statement `variables[name] = value`: overwrite the entry of `name`, or
insert one when there is none. -/
def Env.set : Env → List Char → Val → Env
  | [], name, value => [(name, value)]
  | (k, v) :: rest, name, value =>
    if k = name then (k, value) :: rest else (k, v) :: Env.set rest name value

/-- The data members of `Parser`; `vars` is the member `variables` (a reserved word
here). -/
structure Parser where
  lexer : Lexer
  currentToken : Token
  vars : Env
deriving DecidableEq

/-- How a member function of `Parser` ends: it returns `a` (`ok`), or it throws `e`
(`throw`), in both cases leaving the parser object `p`; `outOfBudget` is the
answer of a budgeted function whose recursion budget is used up. -/
inductive Result (α : Type) where
  | ok (a : α) (p : Parser)
  | throw (e : Error) (p : Parser)
  | outOfBudget
deriving DecidableEq

/-- Sequencing: run `k` on the value and parser left by `r`; an exception
propagates unchanged. -/
def Result.andThen {α β : Type} (r : Result α) (k : α → Parser → Result β) : Result β :=
  match r with
  | .ok a p => k a p
  | .throw e p => .throw e p
  | .outOfBudget => .outOfBudget

/-- The member function `Parser::eat`. -/
def Parser.eat (type : TokenType) (p : Parser) : Result Unit :=
  if p.currentToken.type = type then
    match p.lexer.getNextToken with
    | (.ok t, lx) => .ok () { p with lexer := lx, currentToken := t }
    | (.error e, lx) => .throw e { p with lexer := lx }
  else
    .throw .unexpectedToken p

/-- The member function `Parser::applyFunction`. -/
def applyFunction (m : Libm) (funcName : List Char) (arg : Val) : Except Error Val :=
  if funcName = "sin".toList then .ok (m.sin arg)
  else if funcName = "cos".toList then .ok (m.cos arg)
  else if funcName = "tan".toList then .ok (m.tan arg)
  else if funcName = "log".toList then
    if arg ≤ 0 then .error .logNonPositive else .ok (m.log arg)
  else if funcName = "sqrt".toList then
    if arg < 0 then .error .sqrtNegative else .ok (m.sqrt arg)
  else .error (.unknownFunction funcName)

/-- The body of `Parser::factor`; the recursive calls are the parameters `factor`
and `expression`. -/
def factorBody (m : Libm) (factor expression : Parser → Result Val) (p : Parser) :
    Result Val :=
  let token := p.currentToken
  if token.type = .Plus then
    (p.eat .Plus).andThen fun _ p => factor p
  else if token.type = .Minus then
    (p.eat .Minus).andThen fun _ p => (factor p).andThen fun v p => .ok (-v) p
  else if token.type = .Number then
    (p.eat .Number).andThen fun _ p => .ok token.value p
  else if token.type = .Identifier then
    let name := token.name
    (p.eat .Identifier).andThen fun _ p =>
      if p.currentToken.type = .LeftParen then
        .throw (.unknownFunction name) p
      else
        match p.vars.find name with
        | some v => .ok v p
        | none => .throw (.unknownVariable name) p
  else if token.type = .Function then
    let funcName := token.name
    (p.eat .Function).andThen fun _ p =>
    (p.eat .LeftParen).andThen fun _ p =>
    (expression p).andThen fun arg p =>
    (p.eat .RightParen).andThen fun _ p =>
      match applyFunction m funcName arg with
      | .ok v => .ok v p
      | .error e => .throw e p
  else if token.type = .LeftParen then
    (p.eat .LeftParen).andThen fun _ p =>
    (expression p).andThen fun result p =>
    (p.eat .RightParen).andThen fun _ p => .ok result p
  else
    .throw .invalidSyntax p

/-- One test of the `while` condition of `Parser::term`, followed by the loop body
when the condition holds; `result` is the local variable of that name and
`termLoop` stands for the remaining iterations. -/
def termLoopBody (factor : Parser → Result Val) (termLoop : Val → Parser → Result Val)
    (result : Val) (p : Parser) : Result Val :=
  if p.currentToken.type = .Multiply ∨ p.currentToken.type = .Divide then
    let token := p.currentToken
    if token.type = .Multiply then
      (p.eat .Multiply).andThen fun _ p =>
      (factor p).andThen fun v p => termLoop (result * v) p
    else if token.type = .Divide then
      (p.eat .Divide).andThen fun _ p =>
      (factor p).andThen fun divisor p =>
        if divisor = 0 then .throw .divisionByZero p
        else termLoop (result / divisor) p
    else termLoop result p
  else
    .ok result p

/-- The body of `Parser::term`: one factor, then the loop. -/
def termBody (factor : Parser → Result Val) (termLoop : Val → Parser → Result Val)
    (p : Parser) : Result Val :=
  (factor p).andThen fun result p => termLoop result p

/-- One test of the `while` condition of `Parser::expression`, followed by the loop
body when the condition holds. -/
def exprLoopBody (term : Parser → Result Val) (exprLoop : Val → Parser → Result Val)
    (result : Val) (p : Parser) : Result Val :=
  if p.currentToken.type = .Plus ∨ p.currentToken.type = .Minus then
    let token := p.currentToken
    if token.type = .Plus then
      (p.eat .Plus).andThen fun _ p =>
      (term p).andThen fun v p => exprLoop (result + v) p
    else if token.type = .Minus then
      (p.eat .Minus).andThen fun _ p =>
      (term p).andThen fun v p => exprLoop (result - v) p
    else exprLoop result p
  else
    .ok result p

/-- The body of `Parser::expression`: one term, then the loop. -/
def expressionBody (term : Parser → Result Val) (exprLoop : Val → Parser → Result Val)
    (p : Parser) : Result Val :=
  (term p).andThen fun result p => exprLoop result p

mutual

/-- The member function `Parser::factor` with a recursion budget. -/
def factorN (m : Libm) : Nat → Parser → Result Val
  | 0, _ => .outOfBudget
  | n + 1, p => factorBody m (factorN m n) (expressionN m n) p

/-- The loop of `Parser::term` with a recursion budget. -/
def termLoopN (m : Libm) : Nat → Val → Parser → Result Val
  | 0, _, _ => .outOfBudget
  | n + 1, result, p => termLoopBody (factorN m n) (termLoopN m n) result p

/-- The member function `Parser::term` with a recursion budget. -/
def termN (m : Libm) : Nat → Parser → Result Val
  | 0, _ => .outOfBudget
  | n + 1, p => termBody (factorN m n) (termLoopN m n) p

/-- The loop of `Parser::expression` with a recursion budget. -/
def exprLoopN (m : Libm) : Nat → Val → Parser → Result Val
  | 0, _, _ => .outOfBudget
  | n + 1, result, p => exprLoopBody (termN m n) (exprLoopN m n) result p

/-- The member function `Parser::expression` with a recursion budget. -/
def expressionN (m : Libm) : Nat → Parser → Result Val
  | 0, _ => .outOfBudget
  | n + 1, p => expressionBody (termN m n) (exprLoopN m n) p

end

/-- The number of tokens still to be consumed, bounded from above: the characters
after the cursor, and one for the current token unless it is `End`. -/
def Parser.unread (p : Parser) : Nat :=
  (p.lexer.input.length - p.lexer.pos) + (if p.currentToken.type = .End then 0 else 1)

/-- The member function `Parser::factor`. -/
def factor (m : Libm) (p : Parser) : Result Val := factorN m (3 * p.unread + 1) p

/-- The loop of `Parser::term`, entered with the local `result`. -/
def termLoop (m : Libm) (result : Val) (p : Parser) : Result Val :=
  termLoopN m (3 * p.unread + 1) result p

/-- The member function `Parser::term`. -/
def term (m : Libm) (p : Parser) : Result Val := termN m (3 * p.unread + 2) p

/-- The loop of `Parser::expression`, entered with the local `result`. -/
def exprLoop (m : Libm) (result : Val) (p : Parser) : Result Val :=
  exprLoopN m (3 * p.unread + 2) result p

/-- The member function `Parser::expression`. -/
def expression (m : Libm) (p : Parser) : Result Val := expressionN m (3 * p.unread + 3) p

/-- The member function `Parser::tokenToString`. -/
def tokenToString : TokenType → List Char
  | .Plus => ['+']
  | .Minus => ['-']
  | .Multiply => ['*']
  | .Divide => ['/']
  | .LeftParen => ['(']
  | .RightParen => [')']
  | .Assign => ['=']
  | .Comma => [',']
  | _ => []

/-- The loop of `Parser::remainingInput` with an iteration budget; `rest` is the
local variable of that name. -/
def remainingInputN : Nat → List Char → Parser → Result (List Char)
  | 0, _, _ => .outOfBudget
  | n + 1, rest, p =>
    if p.currentToken.type ≠ .End then
      let rest :=
        if p.currentToken.type = .Number then rest ++ to_string p.currentToken.value
        else if p.currentToken.type = .Identifier then rest ++ p.currentToken.name
        else rest ++ tokenToString p.currentToken.type
      match p.lexer.getNextToken with
      | (.ok t, lx) => remainingInputN n rest { p with lexer := lx, currentToken := t }
      | (.error e, lx) => .throw e { p with lexer := lx }
    else
      .ok rest p

/-- The member function `Parser::remainingInput`. -/
def remainingInput (p : Parser) : Result (List Char) :=
  remainingInputN (p.unread + 1) [] p

/-- The member function `Parser::assignment`. -/
def assignment (m : Libm) (p : Parser) : Result Val :=
  if p.currentToken.type = .Identifier then
    let varName := p.currentToken.name
    (p.eat .Identifier).andThen fun _ p =>
      if p.currentToken.type = .Assign then
        (p.eat .Assign).andThen fun _ p =>
        (expression m p).andThen fun value p =>
          .ok value { p with vars := p.vars.set varName value }
      else
        (remainingInput p).andThen fun rest p =>
          let lexer := Lexer.new (varName ++ rest)
          match lexer.getNextToken with
          | (.ok t, lx) => expression m { p with lexer := lx, currentToken := t }
          | (.error e, lx) => .throw e { p with lexer := lx }
  else
    expression m p

/-- The member function `Parser::parse`. -/
def Parser.parse (m : Libm) (p : Parser) : Result Val :=
  (assignment m p).andThen fun result p =>
    if p.currentToken.type ≠ .End then .throw .trailingCharacters p
    else .ok result p

/-- The constructor `Parser(input)`, which reads the first token and may therefore
throw. In the source the member `variables` starts empty; here its initial content
is the parameter `vars`, so that properties can be stated for a parser that
holds an arbitrary environment. -/
def Parser.new (vars : Env) (input : List Char) : Except Error Parser :=
  match (Lexer.new input).getNextToken with
  | (.ok t, lx) => .ok ⟨lx, t, vars⟩
  | (.error e, _) => .error e

/-- The outcome of evaluating one line, as `main` observes it: the value returned
by `parse` or the exception thrown by the constructor or by `parse`
(`outOfBudget` mirrors `Result.outOfBudget`). -/
inductive Outcome where
  | value (v : Val)
  | error (e : Error)
  | outOfBudget
deriving DecidableEq

/-- The statements `Parser parser(input); ... parser.rule() ...` for a member function
`rule` and a parser whose variable map initially holds `vars`: the outcome, and the
variable map afterwards (the initial one when the constructor throws). -/
def runLine (rule : Parser → Result Val) (vars : Env) (input : List Char) : Outcome × Env :=
  match Parser.new vars input with
  | .error e => (.error e, vars)
  | .ok p =>
    match rule p with
    | .ok v p1 => (.value v, p1.vars)
    | .throw e p1 => (.error e, p1.vars)
    | .outOfBudget => (.outOfBudget, vars)

/-- The two statements `Parser parser(input); double result = parser.parse();` of
`main`, for a parser whose variable map initially holds `vars`. -/
def parseLine (m : Libm) (vars : Env) (input : List Char) : Outcome × Env :=
  runLine (Parser.parse m) vars input

/-- The loop of `main` on the lines read from standard input: a line `exit` ends the
loop, and every other line is evaluated by a parser object constructed for that
line (its variable map starts empty). The list holds what is printed per line. -/
def mainLoop (m : Libm) : List (List Char) → List Outcome
  | [] => []
  | input :: rest =>
    if input = "exit".toList then []
    else (parseLine m [] input).1 :: mainLoop m rest

/-- A computable stand-in for `<cmath>`, used to evaluate concrete lines: truncated
series for `sin`, `cos` and `log`, and the integer square root of the numerator
and denominator for `sqrt`. It is exact at `sin 0`, `cos 0`, `log 1` and at the
square roots of squares. -/
def Libm.approx : Libm where
  sin := fun x => x - x ^ 3 / 6 + x ^ 5 / 120
  cos := fun x => 1 - x ^ 2 / 2 + x ^ 4 / 24
  tan := fun x => (x - x ^ 3 / 6 + x ^ 5 / 120) / (1 - x ^ 2 / 2 + x ^ 4 / 24)
  log := fun x =>
    let y := (x - 1) / (x + 1)
    2 * (y + y ^ 3 / 3 + y ^ 5 / 5)
  sqrt := fun x => (Nat.sqrt x.num.toNat : Val) / (Nat.sqrt x.den : Val)

/-! ## Notions used in the statements -/

/-- A result that is not `outOfBudget` and, when it is a return, leaves less input
unread than `p` has. -/
def Shrinks (p : Parser) (r : Result Val) : Prop :=
  r ≠ .outOfBudget ∧ ∀ v p', r = .ok v p' → p'.unread < p.unread

/-- A result that is not `outOfBudget` and, when it is a return, leaves no more
input unread than `p` has. -/
def NoGrowth (p : Parser) (r : Result Val) : Prop :=
  r ≠ .outOfBudget ∧ ∀ v p', r = .ok v p' → p'.unread ≤ p.unread

/-- For the parser `q`: every budget from the default one on gives the result of the
budget-free function, and that result is not `outOfBudget`. -/
def Settled (m : Libm) (q : Parser) : Prop :=
  ((∀ n, 3 * q.unread + 1 ≤ n → factorN m n q = factor m q) ∧ Shrinks q (factor m q)) ∧
  (∀ r, (∀ n, 3 * q.unread + 1 ≤ n → termLoopN m n r q = termLoop m r q) ∧
    NoGrowth q (termLoop m r q)) ∧
  ((∀ n, 3 * q.unread + 2 ≤ n → termN m n q = term m q) ∧ Shrinks q (term m q)) ∧
  (∀ r, (∀ n, 3 * q.unread + 2 ≤ n → exprLoopN m n r q = exprLoop m r q) ∧
    NoGrowth q (exprLoop m r q)) ∧
  ((∀ n, 3 * q.unread + 3 ≤ n → expressionN m n q = expression m q) ∧
    Shrinks q (expression m q))

/-- The parser object left by `r`, whether it returns or throws, holds the same
variable map as `p`. -/
def KeepsVars {α : Type} (p : Parser) (r : Result α) : Prop :=
  match r with
  | .ok _ p' => p'.vars = p.vars
  | .throw _ p' => p'.vars = p.vars
  | .outOfBudget => True

/-- The tokens that successive calls of `getNextToken` return, from the state `lx`
of the lexer up to the first `End` (which is not listed); no call throws. -/
inductive Lexes : Lexer → List Token → Prop where
  | done (lx : Lexer) (t : Token) :
      lx.getNextToken.1 = .ok t → t.type = .End → Lexes lx []
  | step (lx : Lexer) (t : Token) (ts : List Token) :
      lx.getNextToken.1 = .ok t → t.type ≠ .End → Lexes lx.getNextToken.2 ts →
      Lexes lx (t :: ts)

/-- The list of `Lexes`, computed with at most `n` calls of `getNextToken`; `none`
when a call throws or when `End` is not reached within `n` calls. -/
def tokensN : Nat → Lexer → Option (List Token)
  | 0, _ => none
  | n + 1, lx =>
    match lx.getNextToken with
    | (.error _, _) => none
    | (.ok t, lx') =>
      if t.type = .End then some []
      else (tokensN n lx').map (fun ts => t :: ts)

/-- The tokens of a line, up to `End`. -/
def tokens (input : List Char) : Option (List Token) :=
  tokensN (input.length + 1) (Lexer.new input)

/-- The token the lexer returns for a numeric literal of value `v`. -/
abbrev num (v : Val) : Token := Token.ofValue .Number v

/-- The token the lexer returns for a name that is not a function name. -/
abbrev ident (name : String) : Token := Token.ofName .Identifier name.toList

/-- The token the lexer returns for a function name. -/
abbrev func (name : String) : Token := Token.ofName .Function name.toList

/-- The token the lexer returns for a single-character token. -/
abbrev sym (type : TokenType) : Token := Token.ofType type

/-- The tokens that the parser `p` has not consumed yet: its current token, then
the tokens its lexer will return. -/
def Pending (p : Parser) : List Token → Prop
  | [] => p.currentToken.type = .End
  | t :: ts => p.currentToken = t ∧ t.type ≠ .End ∧ Lexes p.lexer ts

/-- The three levels of the expression grammar. -/
inductive Category where
  | expression | term | factor
deriving DecidableEq

/-- The call structure of the parser: `Within m inner outer` says that the
evaluation `outer` runs the evaluation `inner`, directly (one constructor per call
site of `factor`, `term`, `expression`, `assignment` and `parse`, with the
conditions under which the call is made) or through a chain of such calls. -/
inductive Within (m : Libm) : Result Val → Result Val → Prop where
  | refl (r : Result Val) : Within m r r
  | trans (r₁ r₂ r₃ : Result Val) : Within m r₁ r₂ → Within m r₂ r₃ → Within m r₁ r₃
  | unaryPlus (p p1 : Parser) :
      p.currentToken.type = .Plus → p.eat .Plus = .ok () p1 →
      Within m (factor m p1) (factor m p)
  | unaryMinus (p p1 : Parser) :
      p.currentToken.type = .Minus → p.eat .Minus = .ok () p1 →
      Within m (factor m p1) (factor m p)
  | argument (p p1 p2 : Parser) :
      p.currentToken.type = .Function → p.eat .Function = .ok () p1 →
      p1.eat .LeftParen = .ok () p2 →
      Within m (expression m p2) (factor m p)
  | parenthesized (p p1 : Parser) :
      p.currentToken.type = .LeftParen → p.eat .LeftParen = .ok () p1 →
      Within m (expression m p1) (factor m p)
  | termFirst (p : Parser) : Within m (factor m p) (term m p)
  | termRest (p p1 : Parser) (v : Val) :
      factor m p = .ok v p1 → Within m (termLoop m v p1) (term m p)
  | timesOperand (p p1 : Parser) (result : Val) :
      p.currentToken.type = .Multiply → p.eat .Multiply = .ok () p1 →
      Within m (factor m p1) (termLoop m result p)
  | timesNext (p p1 p2 : Parser) (result v : Val) :
      p.currentToken.type = .Multiply → p.eat .Multiply = .ok () p1 →
      factor m p1 = .ok v p2 →
      Within m (termLoop m (result * v) p2) (termLoop m result p)
  | overOperand (p p1 : Parser) (result : Val) :
      p.currentToken.type = .Divide → p.eat .Divide = .ok () p1 →
      Within m (factor m p1) (termLoop m result p)
  | overNext (p p1 p2 : Parser) (result divisor : Val) :
      p.currentToken.type = .Divide → p.eat .Divide = .ok () p1 →
      factor m p1 = .ok divisor p2 → divisor ≠ 0 →
      Within m (termLoop m (result / divisor) p2) (termLoop m result p)
  | exprFirst (p : Parser) : Within m (term m p) (expression m p)
  | exprRest (p p1 : Parser) (v : Val) :
      term m p = .ok v p1 → Within m (exprLoop m v p1) (expression m p)
  | plusOperand (p p1 : Parser) (result : Val) :
      p.currentToken.type = .Plus → p.eat .Plus = .ok () p1 →
      Within m (term m p1) (exprLoop m result p)
  | plusNext (p p1 p2 : Parser) (result v : Val) :
      p.currentToken.type = .Plus → p.eat .Plus = .ok () p1 →
      term m p1 = .ok v p2 →
      Within m (exprLoop m (result + v) p2) (exprLoop m result p)
  | minusOperand (p p1 : Parser) (result : Val) :
      p.currentToken.type = .Minus → p.eat .Minus = .ok () p1 →
      Within m (term m p1) (exprLoop m result p)
  | minusNext (p p1 p2 : Parser) (result v : Val) :
      p.currentToken.type = .Minus → p.eat .Minus = .ok () p1 →
      term m p1 = .ok v p2 →
      Within m (exprLoop m (result - v) p2) (exprLoop m result p)
  | assigned (p p1 p2 : Parser) :
      p.currentToken.type = .Identifier → p.eat .Identifier = .ok () p1 →
      p1.currentToken.type = .Assign → p1.eat .Assign = .ok () p2 →
      Within m (expression m p2) (assignment m p)
  | relexed (p p1 p2 : Parser) (rest : List Char) (t : Token) (lx : Lexer) :
      p.currentToken.type = .Identifier → p.eat .Identifier = .ok () p1 →
      p1.currentToken.type ≠ .Assign → remainingInput p1 = .ok rest p2 →
      (Lexer.new (p.currentToken.name ++ rest)).getNextToken = (.ok t, lx) →
      Within m (expression m { p2 with lexer := lx, currentToken := t }) (assignment m p)
  | plain (p : Parser) :
      p.currentToken.type ≠ .Identifier → Within m (expression m p) (assignment m p)
  | statement (p : Parser) : Within m (assignment m p) (Parser.parse m p)

/-- The grammar of the specification below `statement`, on token types:
`expression := term (('+' | '-') term)*`, `term := factor (('*' | '/') factor)*`,
`factor := '+' factor | '-' factor | NUMBER | IDENTIFIER |
FUNCTION '(' expression ')' | '(' expression ')'`. -/
inductive Derivable : Category → List Token → Prop where
  | positive (ts : List Token) :
      Derivable .factor ts → Derivable .factor (sym .Plus :: ts)
  | negative (ts : List Token) :
      Derivable .factor ts → Derivable .factor (sym .Minus :: ts)
  | number (t : Token) : t.type = .Number → Derivable .factor [t]
  | identifier (t : Token) : t.type = .Identifier → Derivable .factor [t]
  | call (t : Token) (ts : List Token) :
      t.type = .Function → Derivable .expression ts →
      Derivable .factor (t :: sym .LeftParen :: (ts ++ [sym .RightParen]))
  | parens (ts : List Token) :
      Derivable .expression ts →
      Derivable .factor (sym .LeftParen :: (ts ++ [sym .RightParen]))
  | factor (ts : List Token) : Derivable .factor ts → Derivable .term ts
  | times (ts₁ ts₂ : List Token) :
      Derivable .term ts₁ → Derivable .factor ts₂ →
      Derivable .term (ts₁ ++ sym .Multiply :: ts₂)
  | over (ts₁ ts₂ : List Token) :
      Derivable .term ts₁ → Derivable .factor ts₂ →
      Derivable .term (ts₁ ++ sym .Divide :: ts₂)
  | term (ts : List Token) : Derivable .term ts → Derivable .expression ts
  | sum (ts₁ ts₂ : List Token) :
      Derivable .expression ts₁ → Derivable .term ts₂ →
      Derivable .expression (ts₁ ++ sym .Plus :: ts₂)
  | difference (ts₁ ts₂ : List Token) :
      Derivable .expression ts₁ → Derivable .term ts₂ →
      Derivable .expression (ts₁ ++ sym .Minus :: ts₂)

/-- The grammar rule `statement := assignment`, with
`assignment := IDENTIFIER '=' expression | expression`. -/
def Statement (ts : List Token) : Prop :=
  Derivable .expression ts ∨
    ∃ t rest, t.type = .Identifier ∧ ts = t :: sym .Assign :: rest ∧
      Derivable .expression rest

/-- The token types that can follow a leading identifier inside an expression. -/
def isBinaryOperator (type : TokenType) : Prop :=
  type = .Plus ∨ type = .Minus ∨ type = .Multiply ∨ type = .Divide

/-! ## The lexer on the unread part of the input -/

/-- What `Lexer::getNextToken` does, as a function of the characters from the
cursor on: the token returned or the exception thrown, and the number of
characters the cursor advances. (`getNextToken_eq_lexAt` proves the agreement.) -/
def lexAt (s : List Char) : Except Error Token × Nat :=
  let blanks := s.takeWhile isspace
  match s.dropWhile isspace with
  | [] => (.ok (Token.ofType .End), blanks.length)
  | current :: rest =>
    if isdigit current || current = '.' then
      let text := (current :: rest).takeWhile (fun c => isdigit c || c = '.')
      match stod text with
      | .ok value => (.ok (Token.ofValue .Number value), blanks.length + text.length)
      | .error e => (.error e, blanks.length + text.length)
    else if isalpha current then
      let name := (current :: rest).takeWhile (fun c => isalnum c || c = '_')
      if isFunctionName name then
        (.ok (Token.ofName .Function name), blanks.length + name.length)
      else
        (.ok (Token.ofName .Identifier name), blanks.length + name.length)
    else
      match singleCharToken current with
      | some type => (.ok (Token.ofType type), blanks.length + 1)
      | none => (.error (.unknownCharacter current), blanks.length)

/-! ## Parentheses -/

/-- The parentheses of a text, in order. -/
def parenChars (s : List Char) : List Char :=
  s.filter (fun c => c = '(' || c = ')')

/-- The parenthesis that a token stands for, if any. -/
def parenOf (t : Token) : List Char :=
  if t.type = .LeftParen then ['('] else if t.type = .RightParen then [')'] else []

/-- The parentheses of a token sequence, in order. -/
def parenTokens : List Token → List Char
  | [] => []
  | t :: ts => parenOf t ++ parenTokens ts

/-- A text with balanced parentheses: it has as many `(` as `)`, and no prefix of
it has more `)` than `(`. -/
def Balanced (s : List Char) : Prop :=
  s.count '(' = s.count ')' ∧ ∀ k, (s.take k).count ')' ≤ (s.take k).count '('

/-- The text that `remainingInput` appends for a token. -/
def tokenText (t : Token) : List Char :=
  if t.type = .Number then to_string t.value
  else if t.type = .Identifier then t.name
  else tokenToString t.type

/-- The text that `remainingInput` builds for a token sequence. -/
def serialize : List Token → List Char
  | [] => []
  | t :: ts => tokenText t ++ serialize ts

/-- The names the lexer gives to `Identifier` tokens: a letter followed by letters,
digits and underscores, other than the five function names. -/
def IsIdentifierName (name : List Char) : Prop :=
  (∃ c rest, name = c :: rest ∧ isalpha c = true) ∧
    (∀ x ∈ name, isalnum x = true ∨ x = '_') ∧ isFunctionName name = false

/-- A rule of the parser consumes a token sequence with balanced parentheses: when
it returns, the tokens pending before the call are such a sequence followed by the
tokens pending after it. -/
def ConsumesBalanced (f : Parser → Result Val) : Prop :=
  ∀ p v q rest, f p = .ok v q → Pending q rest →
    ∃ ts, Pending p (ts ++ rest) ∧ Balanced (parenTokens ts)

/-! # Theorems -/

/-! ## The cursor of the lexer -/

theorem advanceWhile_ge (p : Char → Bool) (input : List Char) (n pos : Nat) :
    pos ≤ advanceWhile p input n pos := by
  induction n generalizing pos with
  | zero => simp [advanceWhile]
  | succ n ih =>
    unfold advanceWhile
    split
    · split
      · exact Nat.le_trans (Nat.le_succ pos) (ih (pos + 1))
      · exact Nat.le_refl pos
    · exact Nat.le_refl pos

theorem advanceWhile_le (p : Char → Bool) (input : List Char) (n pos : Nat)
    (h : pos ≤ input.length) : advanceWhile p input n pos ≤ input.length := by
  induction n generalizing pos with
  | zero => simpa [advanceWhile] using h
  | succ n ih =>
    unfold advanceWhile
    split
    · rename_i c hc
      split
      · apply ih
        have := List.get?_eq_some.mp hc
        obtain ⟨hlt, _⟩ := this
        exact hlt
      · exact h
    · exact h

theorem advanceWhile_lt (p : Char → Bool) (input : List Char) (n pos : Nat) (c : Char)
    (hc : input.get? pos = some c) (hp : p c = true) :
    pos < advanceWhile p input (n + 1) pos := by
  unfold advanceWhile
  simp only [hc, hp, if_true]
  exact Nat.lt_of_lt_of_le (Nat.lt_succ_self pos) (advanceWhile_ge p input n (pos + 1))

theorem getNextToken_cursor_aux (lx : Lexer) (r : Except Error Token × Lexer)
    (h : lx.getNextToken = r) :
    r.2.input = lx.input ∧ lx.pos ≤ r.2.pos ∧
      ∀ t, r.1 = .ok t → t.type ≠ .End → lx.pos < r.2.pos ∧ r.2.pos ≤ lx.input.length := by
  have hws := advanceWhile_ge isspace lx.input (lx.input.length - lx.pos) lx.pos
  unfold Lexer.getNextToken at h
  simp only at h
  split at h
  · subst h
    refine ⟨rfl, hws, ?_⟩
    intro t ht hne
    simp only [Except.ok.injEq] at ht
    subst ht
    exact absurd rfl hne
  · rename_i current hcur
    have hlt : advanceWhile isspace lx.input (lx.input.length - lx.pos) lx.pos
        < lx.input.length := (List.get?_eq_some.mp hcur).1
    have hpos : 0 < lx.input.length -
        advanceWhile isspace lx.input (lx.input.length - lx.pos) lx.pos := by omega
    obtain ⟨k, hk⟩ : ∃ k, lx.input.length -
        advanceWhile isspace lx.input (lx.input.length - lx.pos) lx.pos = k + 1 :=
      ⟨_, (Nat.succ_pred_eq_of_pos hpos).symm⟩
    split at h
    · rename_i hd
      have h1 := advanceWhile_lt (fun c => isdigit c || c = '.') lx.input k _ current hcur
        (by simpa using hd)
      have h2 := advanceWhile_le (fun c => isdigit c || c = '.') lx.input (k + 1) _
        (Nat.le_of_lt hlt)
      rw [hk] at h
      split at h
      · subst h
        refine ⟨rfl, by simp only; omega, ?_⟩
        intro t _ _
        simp only
        omega
      · subst h
        refine ⟨rfl, by simp only; omega, ?_⟩
        intro t ht
        simp at ht
    · split at h
      · rename_i ha
        have h1 := advanceWhile_lt (fun c => isalnum c || c = '_') lx.input k _ current hcur
          (by simp [isalnum, ha])
        have h2 := advanceWhile_le (fun c => isalnum c || c = '_') lx.input (k + 1) _
          (Nat.le_of_lt hlt)
        rw [hk] at h
        split at h
        · subst h
          refine ⟨rfl, by simp only; omega, ?_⟩
          intro t _ _
          simp only
          omega
        · subst h
          refine ⟨rfl, by simp only; omega, ?_⟩
          intro t _ _
          simp only
          omega
      · split at h
        · subst h
          refine ⟨rfl, by simp only; omega, ?_⟩
          intro t _ _
          simp only
          omega
        · subst h
          refine ⟨rfl, by simp only; omega, ?_⟩
          intro t ht
          simp at ht

/-- What one call of `getNextToken` does to the lexer: the input is kept, the cursor
does not move back, and a token other than `End` moves it forward, within the
input. -/
theorem getNextToken_cursor (lx : Lexer) :
    lx.getNextToken.2.input = lx.input ∧ lx.pos ≤ lx.getNextToken.2.pos ∧
      ∀ t, lx.getNextToken.1 = .ok t → t.type ≠ .End →
        lx.pos < lx.getNextToken.2.pos ∧ lx.getNextToken.2.pos ≤ lx.input.length :=
  getNextToken_cursor_aux lx _ rfl
/-! ## Consuming a token -/

/-- The two ways `eat` ends: it throws and keeps the variables, or it returns, the
current token had the requested type, the variables are kept, and (unless `End`
was requested) less input is left unread. -/
theorem eat_result (type : TokenType) (p : Parser) :
    (∃ e p', p.eat type = .throw e p' ∧ p'.vars = p.vars) ∨
    (∃ p', p.eat type = .ok () p' ∧ p.currentToken.type = type ∧ p'.vars = p.vars ∧
      (type ≠ .End → p'.unread < p.unread)) := by
  unfold Parser.eat
  by_cases h : p.currentToken.type = type
  · simp only [h, if_true]
    have hc := getNextToken_cursor p.lexer
    rcases hg : p.lexer.getNextToken with ⟨r, lx⟩
    rw [hg] at hc
    cases r with
    | error e => exact Or.inl ⟨e, _, rfl, rfl⟩
    | ok t =>
      refine Or.inr ⟨_, rfl, trivial, rfl, ?_⟩
      intro hne
      obtain ⟨hin, hle, hfw⟩ := hc
      simp only at hin hle hfw
      have hcur : p.currentToken.type ≠ .End := by rw [h]; exact hne
      unfold Parser.unread
      simp only [hin, hcur, if_false]
      by_cases hE : t.type = .End
      · simp only [hE, if_true]
        omega
      · simp only [hE, if_false]
        have := hfw t rfl hE
        omega
  · simp only [h, if_false]
    exact Or.inl ⟨_, _, rfl, rfl⟩

theorem factorBody_agree (m : Libm) (p : Parser) (f f' g g' : Parser → Result Val)
    (hf : ∀ q, q.unread < p.unread → f q = f' q ∧ Shrinks q (f' q))
    (hg : ∀ q, q.unread < p.unread → g q = g' q ∧ Shrinks q (g' q)) :
    factorBody m f g p = factorBody m f' g' p ∧ Shrinks p (factorBody m f' g' p) := by
  unfold factorBody Shrinks
  simp only
  split_ifs with h1 h2 h3 h4 h5 h6
  · rcases eat_result .Plus p with ⟨e, p1, he, -⟩ | ⟨p1, he, -, -, hlt⟩
    · simp [he, Result.andThen]
    · have hlt := hlt (by decide)
      obtain ⟨e1, e2, e3⟩ := hf p1 hlt
      simp only [he, Result.andThen, e1, true_and]
      exact ⟨e2, fun v p' h => Nat.lt_trans (e3 v p' h) hlt⟩
  · rcases eat_result .Minus p with ⟨e, p1, he, -⟩ | ⟨p1, he, -, -, hlt⟩
    · simp [he, Result.andThen]
    · have hlt := hlt (by decide)
      obtain ⟨e1, e2, e3⟩ := hf p1 hlt
      simp only [he, Result.andThen, e1, true_and]
      cases hq : f' p1 with
      | outOfBudget => exact absurd hq e2
      | throw e q => simp
      | ok v q =>
        simp only [ne_eq, not_false_eq_true, Result.ok.injEq, and_imp, true_and, reduceCtorEq]
        intro v' p' _ hp
        subst hp
        exact Nat.lt_trans (e3 v q hq) hlt
  · rcases eat_result .Number p with ⟨e, p1, he, -⟩ | ⟨p1, he, -, -, hlt⟩
    · simp [he, Result.andThen]
    · have hlt := hlt (by decide)
      simp only [he, Result.andThen, true_and, ne_eq, not_false_eq_true, Result.ok.injEq,
        and_imp, reduceCtorEq]
      intro v' p' _ hp
      subst hp
      exact hlt
  · rcases eat_result .Identifier p with ⟨e, p1, he, -⟩ | ⟨p1, he, -, -, hlt⟩
    · simp [he, Result.andThen]
    · have hlt := hlt (by decide)
      simp only [he, Result.andThen, true_and]
      split_ifs
      · simp
      · split
        · simp only [ne_eq, not_false_eq_true, Result.ok.injEq, and_imp, true_and, reduceCtorEq]
          intro v' p' _ hp
          subst hp
          exact hlt
        · simp
  · rcases eat_result .Function p with ⟨e, p1, he, -⟩ | ⟨p1, he, -, -, hlt⟩
    · simp [he, Result.andThen]
    · have hlt := hlt (by decide)
      simp only [he, Result.andThen]
      rcases eat_result .LeftParen p1 with ⟨e, p2, he2, -⟩ | ⟨p2, he2, -, -, hlt2⟩
      · simp [he2]
      · have hlt2 := Nat.lt_trans (hlt2 (by decide)) hlt
        obtain ⟨e1, e2, e3⟩ := hg p2 hlt2
        simp only [he2, e1, true_and]
        cases hq : g' p2 with
        | outOfBudget => exact absurd hq e2
        | throw e q => simp
        | ok v q =>
          simp only
          have hq3 := Nat.lt_trans (e3 v q hq) hlt2
          rcases eat_result .RightParen q with ⟨e, p3, he3, -⟩ | ⟨p3, he3, -, -, hlt3⟩
          · simp [he3]
          · simp only [he3]
            have hlt3 := Nat.lt_trans (hlt3 (by decide)) hq3
            split
            · simp only [ne_eq, not_false_eq_true, Result.ok.injEq, and_imp, true_and,
                reduceCtorEq]
              intro v' p' _ hp
              subst hp
              exact hlt3
            · simp
  · rcases eat_result .LeftParen p with ⟨e, p2, he2, -⟩ | ⟨p2, he2, -, -, hlt2⟩
    · simp [he2, Result.andThen]
    · have hlt2 := hlt2 (by decide)
      obtain ⟨e1, e2, e3⟩ := hg p2 hlt2
      simp only [he2, Result.andThen, e1, true_and]
      cases hq : g' p2 with
      | outOfBudget => exact absurd hq e2
      | throw e q => simp
      | ok v q =>
        simp only
        have hq3 := Nat.lt_trans (e3 v q hq) hlt2
        rcases eat_result .RightParen q with ⟨e, p3, he3, -⟩ | ⟨p3, he3, -, -, hlt3⟩
        · simp [he3]
        · simp only [he3, ne_eq, not_false_eq_true, Result.ok.injEq, and_imp, true_and,
            reduceCtorEq]
          have hlt3 := Nat.lt_trans (hlt3 (by decide)) hq3
          intro v' p' _ hp
          subst hp
          exact hlt3
  · simp

theorem loop_step_agree (p p1 : Parser) (f f' : Parser → Result Val)
    (l l' : Val → Parser → Result Val) (op : Val → Val → Val) (result : Val)
    (hlt : p1.unread < p.unread)
    (hf : ∀ q, q.unread < p.unread → f q = f' q ∧ Shrinks q (f' q))
    (hl : ∀ r q, q.unread < p.unread → l r q = l' r q ∧ NoGrowth q (l' r q)) :
    ((f p1).andThen fun v q => l (op result v) q) =
        ((f' p1).andThen fun v q => l' (op result v) q) ∧
      NoGrowth p ((f' p1).andThen fun v q => l' (op result v) q) := by
  obtain ⟨e1, e2, e3⟩ := hf p1 hlt
  rw [e1]
  cases hq : f' p1 with
  | outOfBudget => exact absurd hq e2
  | throw e q => simp [Result.andThen, NoGrowth]
  | ok v q =>
    have hq3 := Nat.lt_trans (e3 v q hq) hlt
    obtain ⟨a1, a2, a3⟩ := hl (op result v) q hq3
    simp only [Result.andThen, a1, true_and]
    exact ⟨a2, fun v' p' h => Nat.le_trans (a3 v' p' h) (Nat.le_of_lt hq3)⟩

theorem termLoopBody_agree (p : Parser) (f f' : Parser → Result Val)
    (l l' : Val → Parser → Result Val) (result : Val)
    (hf : ∀ q, q.unread < p.unread → f q = f' q ∧ Shrinks q (f' q))
    (hl : ∀ r q, q.unread < p.unread → l r q = l' r q ∧ NoGrowth q (l' r q)) :
    termLoopBody f l result p = termLoopBody f' l' result p ∧
      NoGrowth p (termLoopBody f' l' result p) := by
  unfold termLoopBody
  simp only
  split_ifs with h1 h2 h3
  · rcases eat_result .Multiply p with ⟨e, p1, he, -⟩ | ⟨p1, he, -, -, hlt⟩
    · simp [he, Result.andThen, NoGrowth]
    · simp only [he, Result.andThen]
      exact loop_step_agree p p1 f f' l l' (fun a b => a * b) result (hlt (by decide)) hf hl
  · rcases eat_result .Divide p with ⟨e, p1, he, -⟩ | ⟨p1, he, -, -, hlt⟩
    · simp [he, Result.andThen, NoGrowth]
    · have hlt := hlt (by decide)
      simp only [he, Result.andThen]
      obtain ⟨e1, e2, e3⟩ := hf p1 hlt
      rw [e1]
      cases hq : f' p1 with
      | outOfBudget => exact absurd hq e2
      | throw e q => simp [NoGrowth]
      | ok v q =>
        have hq3 := Nat.lt_trans (e3 v q hq) hlt
        obtain ⟨a1, a2, a3⟩ := hl (result / v) q hq3
        simp only
        split_ifs
        · simp [NoGrowth]
        · simp only [a1, true_and]
          exact ⟨a2, fun v' p' h => Nat.le_trans (a3 v' p' h) (Nat.le_of_lt hq3)⟩
  · rcases h1 with h1 | h1
    · exact absurd h1 h2
    · exact absurd h1 h3
  · simp [NoGrowth]

theorem exprLoopBody_agree (p : Parser) (f f' : Parser → Result Val)
    (l l' : Val → Parser → Result Val) (result : Val)
    (hf : ∀ q, q.unread < p.unread → f q = f' q ∧ Shrinks q (f' q))
    (hl : ∀ r q, q.unread < p.unread → l r q = l' r q ∧ NoGrowth q (l' r q)) :
    exprLoopBody f l result p = exprLoopBody f' l' result p ∧
      NoGrowth p (exprLoopBody f' l' result p) := by
  unfold exprLoopBody
  simp only
  split_ifs with h1 h2 h3
  · rcases eat_result .Plus p with ⟨e, p1, he, -⟩ | ⟨p1, he, -, -, hlt⟩
    · simp [he, Result.andThen, NoGrowth]
    · simp only [he, Result.andThen]
      exact loop_step_agree p p1 f f' l l' (fun a b => a + b) result (hlt (by decide)) hf hl
  · rcases eat_result .Minus p with ⟨e, p1, he, -⟩ | ⟨p1, he, -, -, hlt⟩
    · simp [he, Result.andThen, NoGrowth]
    · simp only [he, Result.andThen]
      exact loop_step_agree p p1 f f' l l' (fun a b => a - b) result (hlt (by decide)) hf hl
  · rcases h1 with h1 | h1
    · exact absurd h1 h2
    · exact absurd h1 h3
  · simp [NoGrowth]

theorem ruleBody_agree (p : Parser) (f f' : Parser → Result Val)
    (l l' : Val → Parser → Result Val)
    (hf : f p = f' p ∧ Shrinks p (f' p))
    (hl : ∀ r q, q.unread < p.unread → l r q = l' r q ∧ NoGrowth q (l' r q)) :
    ((f p).andThen fun result q => l result q) = ((f' p).andThen fun result q => l' result q) ∧
      Shrinks p ((f' p).andThen fun result q => l' result q) := by
  obtain ⟨e1, e2, e3⟩ := hf
  rw [e1]
  cases hq : f' p with
  | outOfBudget => exact absurd hq e2
  | throw e q => simp [Result.andThen, Shrinks]
  | ok v q =>
    have hq3 := e3 v q hq
    obtain ⟨a1, a2, a3⟩ := hl v q hq3
    simp only [Result.andThen, a1, true_and]
    exact ⟨a2, fun v' p' h => Nat.lt_of_le_of_lt (a3 v' p' h) hq3⟩

/-! ## The recursion budget is always sufficient -/

theorem factorN_body (m : Libm) (p : Parser)
    (ih : ∀ q : Parser, q.unread < p.unread → Settled m q) (n : Nat)
    (hn : 3 * p.unread + 1 ≤ n) :
    factorN m n p = factorBody m (factor m) (expression m) p ∧
      Shrinks p (factorBody m (factor m) (expression m) p) := by
  obtain ⟨k, rfl⟩ : ∃ k, n = k + 1 := ⟨n - 1, by omega⟩
  rw [factorN]
  apply factorBody_agree
  · intro q hq
    exact ⟨(ih q hq).1.1 k (by omega), (ih q hq).1.2⟩
  · intro q hq
    exact ⟨(ih q hq).2.2.2.2.1 k (by omega), (ih q hq).2.2.2.2.2⟩

theorem termLoopN_body (m : Libm) (p : Parser)
    (ih : ∀ q : Parser, q.unread < p.unread → Settled m q) (n : Nat) (r : Val)
    (hn : 3 * p.unread + 1 ≤ n) :
    termLoopN m n r p = termLoopBody (factor m) (termLoop m) r p ∧
      NoGrowth p (termLoopBody (factor m) (termLoop m) r p) := by
  obtain ⟨k, rfl⟩ : ∃ k, n = k + 1 := ⟨n - 1, by omega⟩
  rw [termLoopN]
  apply termLoopBody_agree
  · intro q hq
    exact ⟨(ih q hq).1.1 k (by omega), (ih q hq).1.2⟩
  · intro r' q hq
    exact ⟨((ih q hq).2.1 r').1 k (by omega), ((ih q hq).2.1 r').2⟩

theorem termN_body (m : Libm) (p : Parser)
    (ih : ∀ q : Parser, q.unread < p.unread → Settled m q)
    (hf : (∀ n, 3 * p.unread + 1 ≤ n → factorN m n p = factor m p) ∧ Shrinks p (factor m p))
    (n : Nat) (hn : 3 * p.unread + 2 ≤ n) :
    termN m n p = termBody (factor m) (termLoop m) p ∧
      Shrinks p (termBody (factor m) (termLoop m) p) := by
  obtain ⟨k, rfl⟩ : ∃ k, n = k + 1 := ⟨n - 1, by omega⟩
  rw [termN]
  unfold termBody
  apply ruleBody_agree
  · exact ⟨hf.1 k (by omega), hf.2⟩
  · intro r' q hq
    exact ⟨((ih q hq).2.1 r').1 k (by omega), ((ih q hq).2.1 r').2⟩

theorem exprLoopN_body (m : Libm) (p : Parser)
    (ih : ∀ q : Parser, q.unread < p.unread → Settled m q) (n : Nat) (r : Val)
    (hn : 3 * p.unread + 2 ≤ n) :
    exprLoopN m n r p = exprLoopBody (term m) (exprLoop m) r p ∧
      NoGrowth p (exprLoopBody (term m) (exprLoop m) r p) := by
  obtain ⟨k, rfl⟩ : ∃ k, n = k + 1 := ⟨n - 1, by omega⟩
  rw [exprLoopN]
  apply exprLoopBody_agree
  · intro q hq
    exact ⟨(ih q hq).2.2.1.1 k (by omega), (ih q hq).2.2.1.2⟩
  · intro r' q hq
    exact ⟨((ih q hq).2.2.2.1 r').1 k (by omega), ((ih q hq).2.2.2.1 r').2⟩

theorem expressionN_body (m : Libm) (p : Parser)
    (ih : ∀ q : Parser, q.unread < p.unread → Settled m q)
    (hf : (∀ n, 3 * p.unread + 2 ≤ n → termN m n p = term m p) ∧ Shrinks p (term m p))
    (n : Nat) (hn : 3 * p.unread + 3 ≤ n) :
    expressionN m n p = expressionBody (term m) (exprLoop m) p ∧
      Shrinks p (expressionBody (term m) (exprLoop m) p) := by
  obtain ⟨k, rfl⟩ : ∃ k, n = k + 1 := ⟨n - 1, by omega⟩
  rw [expressionN]
  unfold expressionBody
  apply ruleBody_agree
  · exact ⟨hf.1 k (by omega), hf.2⟩
  · intro r' q hq
    exact ⟨((ih q hq).2.2.2.1 r').1 k (by omega), ((ih q hq).2.2.2.1 r').2⟩

theorem settled_step (m : Libm) (p : Parser)
    (ih : ∀ q : Parser, q.unread < p.unread → Settled m q) : Settled m p := by
  have hF : (∀ n, 3 * p.unread + 1 ≤ n → factorN m n p = factor m p) ∧
      Shrinks p (factor m p) := by
    have h0 := factorN_body m p ih (3 * p.unread + 1) (Nat.le_refl _)
    refine ⟨fun n hn => ?_, ?_⟩
    · rw [(factorN_body m p ih n hn).1]
      exact h0.1.symm
    · unfold factor
      rw [h0.1]
      exact h0.2
  have hTL : ∀ r, (∀ n, 3 * p.unread + 1 ≤ n → termLoopN m n r p = termLoop m r p) ∧
      NoGrowth p (termLoop m r p) := by
    intro r
    have h0 := termLoopN_body m p ih (3 * p.unread + 1) r (Nat.le_refl _)
    refine ⟨fun n hn => ?_, ?_⟩
    · rw [(termLoopN_body m p ih n r hn).1]
      exact h0.1.symm
    · unfold termLoop
      rw [h0.1]
      exact h0.2
  have hT : (∀ n, 3 * p.unread + 2 ≤ n → termN m n p = term m p) ∧
      Shrinks p (term m p) := by
    have h0 := termN_body m p ih hF (3 * p.unread + 2) (Nat.le_refl _)
    refine ⟨fun n hn => ?_, ?_⟩
    · rw [(termN_body m p ih hF n hn).1]
      exact h0.1.symm
    · unfold term
      rw [h0.1]
      exact h0.2
  have hEL : ∀ r, (∀ n, 3 * p.unread + 2 ≤ n → exprLoopN m n r p = exprLoop m r p) ∧
      NoGrowth p (exprLoop m r p) := by
    intro r
    have h0 := exprLoopN_body m p ih (3 * p.unread + 2) r (Nat.le_refl _)
    refine ⟨fun n hn => ?_, ?_⟩
    · rw [(exprLoopN_body m p ih n r hn).1]
      exact h0.1.symm
    · unfold exprLoop
      rw [h0.1]
      exact h0.2
  have hE : (∀ n, 3 * p.unread + 3 ≤ n → expressionN m n p = expression m p) ∧
      Shrinks p (expression m p) := by
    have h0 := expressionN_body m p ih hT (3 * p.unread + 3) (Nat.le_refl _)
    refine ⟨fun n hn => ?_, ?_⟩
    · rw [(expressionN_body m p ih hT n hn).1]
      exact h0.1.symm
    · unfold expression
      rw [h0.1]
      exact h0.2
  exact ⟨hF, hTL, hT, hEL, hE⟩

/-- Every parser state is settled: the default budgets are sufficient. -/
theorem settled (m : Libm) (p : Parser) : Settled m p := by
  have h : ∀ k, ∀ q : Parser, q.unread = k → Settled m q := by
    intro k
    induction k using Nat.strong_induction_on with
    | _ k ih =>
      intro q hq
      apply settled_step
      intro q' hq'
      exact ih q'.unread (hq ▸ hq') q' rfl
  exact h p.unread p rfl

/-! ## The recursion equations of the source -/

/-- The function `factor` satisfies the equation of `Parser::factor`. -/
theorem factor_eq (m : Libm) (p : Parser) :
    factor m p = factorBody m (factor m) (expression m) p :=
  (factorN_body m p (fun q _ => settled m q) _ (Nat.le_refl _)).1

/-- The loop of `Parser::term` unfolds by one test of its condition. -/
theorem termLoop_eq (m : Libm) (result : Val) (p : Parser) :
    termLoop m result p = termLoopBody (factor m) (termLoop m) result p :=
  (termLoopN_body m p (fun q _ => settled m q) _ result (Nat.le_refl _)).1

/-- The function `term` satisfies the equation of `Parser::term`. -/
theorem term_eq (m : Libm) (p : Parser) :
    term m p = termBody (factor m) (termLoop m) p :=
  (termN_body m p (fun q _ => settled m q) (settled m p).1 _ (Nat.le_refl _)).1

/-- The loop of `Parser::expression` unfolds by one test of its condition. -/
theorem exprLoop_eq (m : Libm) (result : Val) (p : Parser) :
    exprLoop m result p = exprLoopBody (term m) (exprLoop m) result p :=
  (exprLoopN_body m p (fun q _ => settled m q) _ result (Nat.le_refl _)).1

/-- The function `expression` satisfies the equation of `Parser::expression`. -/
theorem expression_eq (m : Libm) (p : Parser) :
    expression m p = expressionBody (term m) (exprLoop m) p :=
  (expressionN_body m p (fun q _ => settled m q) (settled m p).2.2.1 _ (Nat.le_refl _)).1

theorem factor_shrinks (m : Libm) (p : Parser) : Shrinks p (factor m p) := (settled m p).1.2

theorem termLoop_noGrowth (m : Libm) (r : Val) (p : Parser) : NoGrowth p (termLoop m r p) :=
  ((settled m p).2.1 r).2

theorem term_shrinks (m : Libm) (p : Parser) : Shrinks p (term m p) := (settled m p).2.2.1.2

theorem exprLoop_noGrowth (m : Libm) (r : Val) (p : Parser) : NoGrowth p (exprLoop m r p) :=
  ((settled m p).2.2.2.1 r).2

theorem expression_shrinks (m : Libm) (p : Parser) : Shrinks p (expression m p) :=
  (settled m p).2.2.2.2.2

/-! ## Expression evaluation does not touch the variables -/

theorem keepsVars_andThen {α β : Type} (p : Parser) (r : Result α)
    (k : α → Parser → Result β) (hr : KeepsVars p r) (hk : ∀ a q, KeepsVars q (k a q)) :
    KeepsVars p (r.andThen k) := by
  cases r with
  | outOfBudget => trivial
  | throw e q => exact hr
  | ok a q =>
    have h := hk a q
    simp only [Result.andThen]
    simp only [KeepsVars] at hr
    cases hq : k a q with
    | outOfBudget => trivial
    | throw e q' =>
      rw [hq] at h
      simp only [KeepsVars] at h ⊢
      rw [h, hr]
    | ok b q' =>
      rw [hq] at h
      simp only [KeepsVars] at h ⊢
      rw [h, hr]

theorem keepsVars_eat (type : TokenType) (p : Parser) : KeepsVars p (p.eat type) := by
  rcases eat_result type p with ⟨e, p', he, hv⟩ | ⟨p', he, -, hv, -⟩
  · rw [he]
    exact hv
  · rw [he]
    exact hv

theorem factorBody_keepsVars (m : Libm) (f g : Parser → Result Val)
    (hf : ∀ q, KeepsVars q (f q)) (hg : ∀ q, KeepsVars q (g q)) (p : Parser) :
    KeepsVars p (factorBody m f g p) := by
  unfold factorBody
  simp only
  split_ifs
  · exact keepsVars_andThen _ _ _ (keepsVars_eat _ _) fun _ q => hf q
  · refine keepsVars_andThen _ _ _ (keepsVars_eat _ _) fun _ q => ?_
    exact keepsVars_andThen _ _ _ (hf q) fun _ _ => rfl
  · exact keepsVars_andThen _ _ _ (keepsVars_eat _ _) fun _ _ => rfl
  · refine keepsVars_andThen _ _ _ (keepsVars_eat _ _) fun _ q => ?_
    split_ifs
    · rfl
    · split <;> rfl
  · refine keepsVars_andThen _ _ _ (keepsVars_eat _ _) fun _ q => ?_
    refine keepsVars_andThen _ _ _ (keepsVars_eat _ _) fun _ q => ?_
    refine keepsVars_andThen _ _ _ (hg q) fun _ q => ?_
    refine keepsVars_andThen _ _ _ (keepsVars_eat _ _) fun _ q => ?_
    split <;> rfl
  · refine keepsVars_andThen _ _ _ (keepsVars_eat _ _) fun _ q => ?_
    refine keepsVars_andThen _ _ _ (hg q) fun _ q => ?_
    exact keepsVars_andThen _ _ _ (keepsVars_eat _ _) fun _ _ => rfl
  · rfl

theorem termLoopBody_keepsVars (f : Parser → Result Val) (l : Val → Parser → Result Val)
    (hf : ∀ q, KeepsVars q (f q)) (hl : ∀ r q, KeepsVars q (l r q)) (r : Val) (p : Parser) :
    KeepsVars p (termLoopBody f l r p) := by
  unfold termLoopBody
  simp only
  split_ifs
  · refine keepsVars_andThen _ _ _ (keepsVars_eat _ _) fun _ q => ?_
    exact keepsVars_andThen _ _ _ (hf q) fun _ q => hl _ q
  · refine keepsVars_andThen _ _ _ (keepsVars_eat _ _) fun _ q => ?_
    refine keepsVars_andThen _ _ _ (hf q) fun _ q => ?_
    split_ifs
    · rfl
    · exact hl _ q
  · exact hl _ p
  · rfl

theorem exprLoopBody_keepsVars (f : Parser → Result Val) (l : Val → Parser → Result Val)
    (hf : ∀ q, KeepsVars q (f q)) (hl : ∀ r q, KeepsVars q (l r q)) (r : Val) (p : Parser) :
    KeepsVars p (exprLoopBody f l r p) := by
  unfold exprLoopBody
  simp only
  split_ifs
  · refine keepsVars_andThen _ _ _ (keepsVars_eat _ _) fun _ q => ?_
    exact keepsVars_andThen _ _ _ (hf q) fun _ q => hl _ q
  · refine keepsVars_andThen _ _ _ (keepsVars_eat _ _) fun _ q => ?_
    exact keepsVars_andThen _ _ _ (hf q) fun _ q => hl _ q
  · exact hl _ p
  · rfl

theorem rulesN_keepsVars (m : Libm) (n : Nat) :
    (∀ q, KeepsVars q (factorN m n q)) ∧ (∀ r q, KeepsVars q (termLoopN m n r q)) ∧
    (∀ q, KeepsVars q (termN m n q)) ∧ (∀ r q, KeepsVars q (exprLoopN m n r q)) ∧
    (∀ q, KeepsVars q (expressionN m n q)) := by
  induction n with
  | zero =>
    refine ⟨fun q => ?_, fun r q => ?_, fun q => ?_, fun r q => ?_, fun q => ?_⟩
    · rw [factorN]; trivial
    · rw [termLoopN]; trivial
    · rw [termN]; trivial
    · rw [exprLoopN]; trivial
    · rw [expressionN]; trivial
  | succ n ih =>
    obtain ⟨h1, h2, h3, h4, h5⟩ := ih
    refine ⟨fun q => ?_, fun r q => ?_, fun q => ?_, fun r q => ?_, fun q => ?_⟩
    · rw [factorN]
      exact factorBody_keepsVars m _ _ h1 h5 q
    · rw [termLoopN]
      exact termLoopBody_keepsVars _ _ h1 h2 r q
    · rw [termN]
      exact keepsVars_andThen _ _ _ (h1 q) fun _ q => h2 _ q
    · rw [exprLoopN]
      exact exprLoopBody_keepsVars _ _ h3 h4 r q
    · rw [expressionN]
      exact keepsVars_andThen _ _ _ (h3 q) fun _ q => h4 _ q

/-- The function `factor` leaves the variable map as it is, return or throw. -/
theorem factor_keepsVars (m : Libm) (p : Parser) : KeepsVars p (factor m p) :=
  (rulesN_keepsVars m _).1 p

/-- The function `term` leaves the variable map as it is, return or throw. -/
theorem term_keepsVars (m : Libm) (p : Parser) : KeepsVars p (term m p) :=
  (rulesN_keepsVars m _).2.2.1 p

/-- The function `expression` leaves the variable map as it is, return or throw. -/
theorem expression_keepsVars (m : Libm) (p : Parser) : KeepsVars p (expression m p) :=
  (rulesN_keepsVars m _).2.2.2.2 p

/-! ## The parser on a token stream -/

theorem eat_pending (p : Parser) (t : Token) (ts : List Token) (h : Pending p (t :: ts)) :
    ∃ p', p.eat t.type = .ok () p' ∧ Pending p' ts ∧ p'.vars = p.vars := by
  obtain ⟨hcur, _, hlex⟩ := h
  unfold Parser.eat
  rw [hcur]
  simp only [if_true]
  cases hlex with
  | done _ t' h1 h2 =>
    rcases hg : p.lexer.getNextToken with ⟨r, lx⟩
    rw [hg] at h1
    simp only at h1
    subst h1
    exact ⟨_, rfl, h2, rfl⟩
  | step _ t' ts' h1 h2 h3 =>
    rcases hg : p.lexer.getNextToken with ⟨r, lx⟩
    rw [hg] at h1 h3
    simp only at h1 h3
    subst h1
    exact ⟨_, rfl, ⟨rfl, h2, h3⟩, rfl⟩

/-- The constructor leaves a parser whose pending tokens are the tokens of the line. -/
theorem new_pending (vars : Env) (input : List Char) (ts : List Token)
    (h : Lexes (Lexer.new input) ts) :
    ∃ p, Parser.new vars input = .ok p ∧ Pending p ts ∧ p.vars = vars := by
  unfold Parser.new
  cases h with
  | done _ t h1 h2 =>
    rcases hg : (Lexer.new input).getNextToken with ⟨r, lx⟩
    rw [hg] at h1
    simp only at h1
    subst h1
    exact ⟨_, rfl, h2, rfl⟩
  | step _ t ts' h1 h2 h3 =>
    rcases hg : (Lexer.new input).getNextToken with ⟨r, lx⟩
    rw [hg] at h1 h3
    simp only at h1 h3
    subst h1
    exact ⟨_, rfl, ⟨rfl, h2, h3⟩, rfl⟩

/-- C2 (evaluated on the code): with `x` bound to 2, the line `x + sqrt(4)` starts with
an identifier that is not followed by `=`; `expression` on the tokens of the line
gives 4, but `assignment`, which rebuilds the text `x+(4.000000)` without the
function name and lexes it again, gives 6, and so does `parse`. With no variable
bound, the line `si n(0)` is an unknown-variable error for `expression` on its
tokens, and `assignment` returns the value of `sin(0)`. -/
theorem relex_drops_function_name :
    tokens "x + sqrt(4)".toList =
        some [ident "x", sym .Plus, func "sqrt", sym .LeftParen, num 4, sym .RightParen] ∧
      runLine (expression Libm.approx) [("x".toList, 2)] "x + sqrt(4)".toList =
        (.value 4, [("x".toList, 2)]) ∧
      runLine (assignment Libm.approx) [("x".toList, 2)] "x + sqrt(4)".toList =
        (.value 6, [("x".toList, 2)]) ∧
      parseLine Libm.approx [("x".toList, 2)] "x + sqrt(4)".toList =
        (.value 6, [("x".toList, 2)]) ∧
      runLine (expression Libm.approx) [] "si n(0)".toList =
        (.error (.unknownVariable "si".toList), []) ∧
      runLine (assignment Libm.approx) [] "si n(0)".toList = (.value 0, []) := by
  refine ⟨?_, ?_, ?_, ?_, ?_, ?_⟩ <;> decide!

/-! ## C3 -/

theorem find_set_same (env : Env) (name : List Char) (value : Val) :
    (env.set name value).find name = some value := by
  induction env with
  | nil => simp [Env.set, Env.find]
  | cons kv rest ih =>
    obtain ⟨k, w⟩ := kv
    unfold Env.set
    split_ifs with h
    · simp [Env.find, h]
    · simp [Env.find, h, ih]

theorem find_set_other (env : Env) (name other : List Char) (value : Val)
    (h : other ≠ name) : (env.set name value).find other = env.find other := by
  induction env with
  | nil =>
    simp only [Env.set, Env.find]
    rw [if_neg (fun h' => h h'.symm)]
  | cons kv rest ih =>
    obtain ⟨k, w⟩ := kv
    unfold Env.set
    split_ifs with hk
    · subst hk
      simp only [Env.find]
      rw [if_neg (fun h' => h h'.symm), if_neg (fun h' => h h'.symm)]
    · simp only [Env.find, ih]

/-- C3: when the line starts with the identifier `n` followed by `=`, and the code's
`expression` on the rest returns `v` with the whole line consumed, `parse` returns
`v` and leaves the variable map `vars.set n v`: in it `n` is bound to `v`, whatever
it was bound to before, and every other name is bound as in `vars`. -/
theorem assignment_binds (m : Libm) (vars : Env) (line : List Char)
    (p0 p1 p2 p3 : Parser) (v : Val)
    (hnew : Parser.new vars line = .ok p0)
    (hid : p0.currentToken.type = .Identifier)
    (heat1 : p0.eat .Identifier = .ok () p1)
    (hassign : p1.currentToken.type = .Assign)
    (heat2 : p1.eat .Assign = .ok () p2)
    (hexpr : expression m p2 = .ok v p3)
    (hend : p3.currentToken.type = .End) :
    parseLine m vars line = (.value v, vars.set p0.currentToken.name v) ∧
      (vars.set p0.currentToken.name v).find p0.currentToken.name = some v ∧
      ∀ other, other ≠ p0.currentToken.name →
        (vars.set p0.currentToken.name v).find other = vars.find other := by
  refine ⟨?_, find_set_same _ _ _, fun other h => find_set_other _ _ _ _ h⟩
  have h0 : p0.vars = vars := by
    unfold Parser.new at hnew
    split at hnew
    · simp only [Except.ok.injEq] at hnew
      subst hnew
      rfl
    · simp at hnew
  have h1 : p1.vars = p0.vars := by
    have := keepsVars_eat .Identifier p0
    rw [heat1] at this
    exact this
  have h2 : p2.vars = p1.vars := by
    have := keepsVars_eat .Assign p1
    rw [heat2] at this
    exact this
  have h3 : p3.vars = p2.vars := by
    have := expression_keepsVars m p2
    rw [hexpr] at this
    exact this
  unfold parseLine runLine
  rw [hnew]
  simp only
  unfold Parser.parse assignment
  simp [hid, heat1, hassign, heat2, hexpr, Result.andThen, hend, h3, h2, h1, h0]

/-- C3, instances: `x = 5` on an empty map returns 5 and binds `x` to 5; then
`x = 10` returns 10, rebinds `x` to 10 and leaves `y` as it was. -/
theorem assignment_binds_witness :
    parseLine Libm.approx [] "x = 5".toList = (.value 5, [("x".toList, 5)]) ∧
    parseLine Libm.approx [("x".toList, 5), ("y".toList, 1)] "x = 10".toList =
      (.value 10, [("x".toList, 10), ("y".toList, 1)]) ∧
    Env.find [("x".toList, 10), ("y".toList, 1)] "x".toList = some 10 := by
  have h1 := assignment_binds Libm.approx [] "x = 5".toList
    ⟨⟨"x = 5".toList, 1⟩, ident "x", []⟩ ⟨⟨"x = 5".toList, 3⟩, sym .Assign, []⟩
    ⟨⟨"x = 5".toList, 5⟩, num 5, []⟩ ⟨⟨"x = 5".toList, 5⟩, sym .End, []⟩ 5
    (by decide!) (by decide!) (by decide!) (by decide!) (by decide!) (by decide!) (by decide!)
  have h2 := assignment_binds Libm.approx [("x".toList, 5), ("y".toList, 1)] "x = 10".toList
    ⟨⟨"x = 10".toList, 1⟩, ident "x", [("x".toList, 5), ("y".toList, 1)]⟩
    ⟨⟨"x = 10".toList, 3⟩, sym .Assign, [("x".toList, 5), ("y".toList, 1)]⟩
    ⟨⟨"x = 10".toList, 6⟩, num 10, [("x".toList, 5), ("y".toList, 1)]⟩
    ⟨⟨"x = 10".toList, 6⟩, sym .End, [("x".toList, 5), ("y".toList, 1)]⟩ 10
    (by decide!) (by decide!) (by decide!) (by decide!) (by decide!) (by decide!) (by decide!)
  exact ⟨h1.1, h2.1, h2.2.1⟩

/-! ## C4 -/

/-- C4 (evaluated on the code): in one session the line `x = 5` prints `5`, and the
following line `x + 1` prints the unknown-variable error for `x`, not `6`: each
line is evaluated by a new parser object, whose variable map starts empty. -/
theorem session_forgets_binding :
    mainLoop Libm.approx ["x = 5".toList, "x + 1".toList] =
      [.value 5, .error (.unknownVariable "x".toList)] := by
  decide!

/-! ## C5 -/

/-- C5 (evaluated on the code): the line `x = 5 )` raises the trailing-input error,
and the variable map afterwards binds `x` to 5 although it was empty before: the
assignment is committed before `parse` checks that the line is consumed. The
failing line `2 + 2 abc`, which assigns nothing, leaves the map as it was. -/
theorem failing_line_commits_assignment :
    parseLine Libm.approx [] "x = 5 )".toList =
        (.error .trailingCharacters, [("x".toList, 5)]) ∧
      parseLine Libm.approx [("x".toList, 1)] "x = 5 abc".toList =
        (.error .trailingCharacters, [("x".toList, 5)]) ∧
      parseLine Libm.approx [("x".toList, 1)] "2 + 2 abc".toList =
        (.error .trailingCharacters, [("x".toList, 1)]) := by
  refine ⟨?_, ?_, ?_⟩ <;> decide!

/-! ## C6 -/

theorem derivable_ne_nil (c : Category) (ts : List Token) (h : Derivable c ts) : ts ≠ [] := by
  induction h with
  | positive ts _ _ => simp
  | negative ts _ _ => simp
  | number t _ => simp
  | identifier t _ => simp
  | call t ts _ _ _ => simp
  | parens ts _ _ => simp
  | factor ts _ ih => exact ih
  | term ts _ ih => exact ih
  | times ts₁ ts₂ _ _ _ _ => simp
  | over ts₁ ts₂ _ _ _ _ => simp
  | sum ts₁ ts₂ _ _ _ _ => simp
  | difference ts₁ ts₂ _ _ _ _ => simp

theorem second_of_append (ts₁ ts₂ : List Token) (op t₁ t₂ : Token) (rest : List Token)
    (hne : ts₁ ≠ [])
    (ih : ∀ t₁ t₂ rest, ts₁ = t₁ :: t₂ :: rest → t₁.type = .Identifier →
      isBinaryOperator t₂.type)
    (hop : isBinaryOperator op.type)
    (h : ts₁ ++ op :: ts₂ = t₁ :: t₂ :: rest) (hid : t₁.type = .Identifier) :
    isBinaryOperator t₂.type := by
  match ts₁, hne with
  | [a], _ =>
    simp only [List.singleton_append, List.cons.injEq] at h
    rw [← h.2.1]
    exact hop
  | a :: b :: more, _ =>
    simp only [List.cons_append, List.cons.injEq] at h
    exact ih a b more rfl (h.1 ▸ hid) |> fun r => h.2.1 ▸ r

/-- In a derivable token sequence, a leading identifier is followed, if at all, by a
binary operator. -/
theorem derivable_after_identifier (c : Category) (ts : List Token) (h : Derivable c ts) :
    ∀ t₁ t₂ rest, ts = t₁ :: t₂ :: rest → t₁.type = .Identifier →
      isBinaryOperator t₂.type := by
  induction h with
  | positive ts _ _ =>
    intro t₁ t₂ rest h hid
    simp only [List.cons.injEq] at h
    rw [← h.1] at hid
    exact absurd hid (by decide)
  | negative ts _ _ =>
    intro t₁ t₂ rest h hid
    simp only [List.cons.injEq] at h
    rw [← h.1] at hid
    exact absurd hid (by decide)
  | number t _ =>
    intro t₁ t₂ rest h
    simp at h
  | identifier t _ =>
    intro t₁ t₂ rest h
    simp at h
  | call t ts ht _ _ =>
    intro t₁ t₂ rest h hid
    simp only [List.cons.injEq] at h
    rw [← h.1, ht] at hid
    exact absurd hid (by decide)
  | parens ts _ _ =>
    intro t₁ t₂ rest h hid
    simp only [List.cons.injEq] at h
    rw [← h.1] at hid
    exact absurd hid (by decide)
  | factor ts _ ih => exact ih
  | term ts _ ih => exact ih
  | times ts₁ ts₂ h₁ _ ih _ =>
    intro t₁ t₂ rest h hid
    exact second_of_append ts₁ ts₂ _ t₁ t₂ rest (derivable_ne_nil _ _ h₁) ih
      (Or.inr (Or.inr (Or.inl rfl))) h hid
  | over ts₁ ts₂ h₁ _ ih _ =>
    intro t₁ t₂ rest h hid
    exact second_of_append ts₁ ts₂ _ t₁ t₂ rest (derivable_ne_nil _ _ h₁) ih
      (Or.inr (Or.inr (Or.inr rfl))) h hid
  | sum ts₁ ts₂ h₁ _ ih _ =>
    intro t₁ t₂ rest h hid
    exact second_of_append ts₁ ts₂ _ t₁ t₂ rest (derivable_ne_nil _ _ h₁) ih
      (Or.inl rfl) h hid
  | difference ts₁ ts₂ h₁ _ ih _ =>
    intro t₁ t₂ rest h hid
    exact second_of_append ts₁ ts₂ _ t₁ t₂ rest (derivable_ne_nil _ _ h₁) ih
      (Or.inr (Or.inl rfl)) h hid

/-- No statement starts with an identifier followed by a token that is neither `=`
nor a binary operator. -/
theorem not_statement_of_identifier (t₁ t₂ : Token) (rest : List Token)
    (hid : t₁.type = .Identifier) (hop : ¬ isBinaryOperator t₂.type)
    (hassign : t₂.type ≠ .Assign) : ¬ Statement (t₁ :: t₂ :: rest) := by
  rintro (h | ⟨t, rest', _, h, _⟩)
  · exact hop (derivable_after_identifier _ _ h t₁ t₂ rest rfl hid)
  · simp only [List.cons.injEq] at h
    rw [h.2.1] at hassign
    exact hassign rfl

/-- C6 (evaluated on the code): the tokens of the line `si n(0)` are an identifier
followed by another identifier and a parenthesized number, which is a complete
statement (`si`) followed by further tokens and is not derived by `statement`;
`parse` returns a value, that of `sin(0)`, because the text is rebuilt as
`sin(0.000000)` and lexed again. With `xy` bound to 7, the line `x y` returns 7, and
with `x` bound to 2 the line `x sin` returns 2. -/
theorem relex_accepts_trailing_tokens :
    tokens "si n(0)".toList =
        some [ident "si", ident "n", sym .LeftParen, num 0, sym .RightParen] ∧
      ¬ Statement [ident "si", ident "n", sym .LeftParen, num 0, sym .RightParen] ∧
      Statement [ident "si"] ∧
      parseLine Libm.approx [] "si n(0)".toList = (.value 0, []) ∧
      tokens "x y".toList = some [ident "x", ident "y"] ∧
      ¬ Statement [ident "x", ident "y"] ∧
      parseLine Libm.approx [("xy".toList, 7)] "x y".toList = (.value 7, [("xy".toList, 7)]) ∧
      tokens "x sin".toList = some [ident "x", func "sin"] ∧
      ¬ Statement [ident "x", func "sin"] ∧
      parseLine Libm.approx [("x".toList, 2)] "x sin".toList = (.value 2, [("x".toList, 2)]) := by
  have hop : ∀ ty : TokenType, ty = .Identifier ∨ ty = .Function → ¬ isBinaryOperator ty := by
    intro ty h hb
    rcases h with h | h <;> subst h <;> revert hb <;> unfold isBinaryOperator <;> decide
  refine ⟨by decide!, ?_, ?_, by decide!, by decide!, ?_, by decide!, by decide!, ?_,
    by decide!⟩
  · exact not_statement_of_identifier _ _ _ rfl (hop _ (Or.inl rfl)) (by decide)
  · exact Or.inl (Derivable.term _ (Derivable.factor _ (Derivable.identifier _ rfl)))
  · exact not_statement_of_identifier _ _ _ rfl (hop _ (Or.inl rfl)) (by decide)
  · exact not_statement_of_identifier _ _ _ rfl (hop _ (Or.inr rfl)) (by decide)

/-! ## Exceptions propagate to the caller -/

/-- An exception thrown by an evaluation is thrown, unchanged, by every evaluation
that runs it: no function of the parser catches. -/
theorem throw_propagates (m : Libm) (inner outer : Result Val) (e : Error) (q : Parser)
    (h : Within m inner outer) (hthrow : inner = .throw e q) : outer = .throw e q := by
  induction h with
  | refl r => exact hthrow
  | trans r₁ r₂ r₃ _ _ ih₁ ih₂ => exact ih₂ (ih₁ hthrow)
  | unaryPlus p p1 hc he =>
    rw [factor_eq]
    unfold factorBody
    simp [hc, he, Result.andThen, hthrow]
  | unaryMinus p p1 hc he =>
    rw [factor_eq]
    unfold factorBody
    simp [hc, he, Result.andThen, hthrow]
  | argument p p1 p2 hc he he2 =>
    rw [factor_eq]
    unfold factorBody
    simp [hc, he, he2, Result.andThen, hthrow]
  | parenthesized p p1 hc he =>
    rw [factor_eq]
    unfold factorBody
    simp [hc, he, Result.andThen, hthrow]
  | termFirst p =>
    rw [term_eq]
    unfold termBody
    simp [Result.andThen, hthrow]
  | termRest p p1 v hf =>
    rw [term_eq]
    unfold termBody
    simp [Result.andThen, hf, hthrow]
  | timesOperand p p1 result hc he =>
    rw [termLoop_eq]
    unfold termLoopBody
    simp [hc, he, Result.andThen, hthrow]
  | timesNext p p1 p2 result v hc he hf =>
    rw [termLoop_eq]
    unfold termLoopBody
    simp [hc, he, hf, Result.andThen, hthrow]
  | overOperand p p1 result hc he =>
    rw [termLoop_eq]
    unfold termLoopBody
    simp [hc, he, Result.andThen, hthrow]
  | overNext p p1 p2 result divisor hc he hf hne =>
    rw [termLoop_eq]
    unfold termLoopBody
    simp [hc, he, hf, hne, Result.andThen, hthrow]
  | exprFirst p =>
    rw [expression_eq]
    unfold expressionBody
    simp [Result.andThen, hthrow]
  | exprRest p p1 v hf =>
    rw [expression_eq]
    unfold expressionBody
    simp [Result.andThen, hf, hthrow]
  | plusOperand p p1 result hc he =>
    rw [exprLoop_eq]
    unfold exprLoopBody
    simp [hc, he, Result.andThen, hthrow]
  | plusNext p p1 p2 result v hc he hf =>
    rw [exprLoop_eq]
    unfold exprLoopBody
    simp [hc, he, hf, Result.andThen, hthrow]
  | minusOperand p p1 result hc he =>
    rw [exprLoop_eq]
    unfold exprLoopBody
    simp [hc, he, Result.andThen, hthrow]
  | minusNext p p1 p2 result v hc he hf =>
    rw [exprLoop_eq]
    unfold exprLoopBody
    simp [hc, he, hf, Result.andThen, hthrow]
  | assigned p p1 p2 hc he hc1 he1 =>
    unfold assignment
    simp [hc, he, hc1, he1, Result.andThen, hthrow]
  | relexed p p1 p2 rest t lx hc he hc1 hr hg =>
    unfold assignment
    simp [hc, he, hc1, hr, hg, Result.andThen, hthrow]
  | plain p hc =>
    unfold assignment
    simp [hc, hthrow]
  | statement p =>
    unfold Parser.parse
    simp [Result.andThen, hthrow]

/-! ## C7 -/

/-- C7: when the loop of `term` is at a `/` and the factor that follows evaluates to
`divisor`: if `divisor` is zero the loop throws 'Division by zero', and so does
every evaluation that runs this loop, up to `parse`, at any nesting depth; if
`divisor` is not zero this division does not throw, and the loop goes on with the
quotient. -/
theorem division_by_zero (m : Libm) (p p1 p2 : Parser) (result divisor : Val)
    (hdiv : p.currentToken.type = .Divide) (heat : p.eat .Divide = .ok () p1)
    (hfactor : factor m p1 = .ok divisor p2) :
    (divisor = 0 →
      termLoop m result p = .throw .divisionByZero p2 ∧
      ∀ outer, Within m (termLoop m result p) outer → outer = .throw .divisionByZero p2) ∧
    (divisor ≠ 0 → termLoop m result p = termLoop m (result / divisor) p2) := by
  have hstep : termLoop m result p =
      if divisor = 0 then .throw .divisionByZero p2
      else termLoop m (result / divisor) p2 := by
    rw [termLoop_eq]
    unfold termLoopBody
    simp [hdiv, heat, hfactor, Result.andThen]
  constructor
  · intro h0
    have hthrow : termLoop m result p = .throw .divisionByZero p2 := by
      rw [hstep, if_pos h0]
    exact ⟨hthrow, fun outer hw => throw_propagates m _ outer _ _ hw hthrow⟩
  · intro hne
    rw [hstep, if_neg hne]

/-- C7, instances: on the line `1 / (2 - 2)` the loop of `term`, at the `/`, finds
the divisor 0 and throws, and `parse` throws 'Division by zero'; so it does when
the division stands inside parentheses and a function argument; on `1 / (2 - 1)`
the divisor is 1 and the line has the value 1. -/
theorem division_by_zero_witness :
    termLoop Libm.approx 1 ⟨⟨"1 / (2 - 2)".toList, 3⟩, sym .Divide, []⟩ =
        .throw .divisionByZero ⟨⟨"1 / (2 - 2)".toList, 11⟩, sym .End, []⟩ ∧
      parseLine Libm.approx [] "1 / (2 - 2)".toList = (.error .divisionByZero, []) ∧
      parseLine Libm.approx [] "sqrt((3 + 1 / (2 - 2)) * 2)".toList =
        (.error .divisionByZero, []) ∧
      parseLine Libm.approx [] "1 / (2 - 1)".toList = (.value 1, []) := by
  refine ⟨?_, by decide!, by decide!, by decide!⟩
  exact ((division_by_zero Libm.approx ⟨⟨"1 / (2 - 2)".toList, 3⟩, sym .Divide, []⟩
    ⟨⟨"1 / (2 - 2)".toList, 5⟩, sym .LeftParen, []⟩
    ⟨⟨"1 / (2 - 2)".toList, 11⟩, sym .End, []⟩ 1 0
    (by decide!) (by decide!) (by decide!)).1 rfl).1

/-! ## C8 -/

/-- C8: `applyFunction` throws the `log` domain error exactly for `log` with an
argument `≤ 0`, and the `sqrt` domain error exactly for `sqrt` with an argument
`< 0`; each message names its function; `sin`, `cos` and `tan` return for every
argument, `log` returns for every argument `> 0` and `sqrt` for every argument `≥ 0`.
On lines: `sqrt(-1)`, `log(0)` and `log(-5)` are domain errors, `sqrt(4)` is 2 and
`sin(0)` is 0. -/
theorem applyFunction_domain (m : Libm) (funcName : List Char) (arg : Val) :
    (applyFunction m funcName arg = .error .logNonPositive ↔
      funcName = "log".toList ∧ arg ≤ 0) ∧
    (applyFunction m funcName arg = .error .sqrtNegative ↔
      funcName = "sqrt".toList ∧ arg < 0) ∧
    applyFunction m "sin".toList arg = .ok (m.sin arg) ∧
    applyFunction m "cos".toList arg = .ok (m.cos arg) ∧
    applyFunction m "tan".toList arg = .ok (m.tan arg) ∧
    applyFunction m "log".toList arg =
      (if arg ≤ 0 then .error .logNonPositive else .ok (m.log arg)) ∧
    applyFunction m "sqrt".toList arg =
      (if arg < 0 then .error .sqrtNegative else .ok (m.sqrt arg)) ∧
    Error.what .logNonPositive = "Math error: log of non-positive number" ∧
    Error.what .sqrtNegative = "Math error: sqrt of negative number" ∧
    parseLine Libm.approx [] "sqrt(-1)".toList = (.error .sqrtNegative, []) ∧
    parseLine Libm.approx [] "log(0)".toList = (.error .logNonPositive, []) ∧
    parseLine Libm.approx [] "log(-5)".toList = (.error .logNonPositive, []) ∧
    parseLine Libm.approx [] "sqrt(4)".toList = (.value 2, []) ∧
    parseLine Libm.approx [] "sin(0)".toList = (.value 0, []) := by
  refine ⟨?_, ?_, ?_, ?_, ?_, ?_, ?_, rfl, rfl, by decide!, by decide!, by decide!,
    by decide!, by decide!⟩
  · unfold applyFunction
    constructor
    · intro h
      split_ifs at h with h1 h2 h3 h4 h5 h6 h7 <;> first | exact ⟨h4, h5⟩ | simp at h
    · rintro ⟨h1, h2⟩
      subst h1
      simp [h2]
  · unfold applyFunction
    constructor
    · intro h
      split_ifs at h with h1 h2 h3 h4 h5 h6 h7 <;> first | exact ⟨h6, h7⟩ | simp at h
    · rintro ⟨h1, h2⟩
      subst h1
      simp [h2]
  · simp [applyFunction]
  · simp [applyFunction]
  · simp [applyFunction]
  · simp [applyFunction]
  · simp [applyFunction]

/-! ## C9 -/

/-- C9 (counterexample): on the line `foo(1)`, with no variable bound, the identifier
`foo` is the first token, is not followed by `=`, is not bound and is reached, and
`parse` raises 'Unknown function: foo', which is not 'Unknown variable: foo'; the
same holds for `2 * foo(1)`. -/
theorem unbound_identifier_before_paren :
    tokens "foo(1)".toList = some [ident "foo", sym .LeftParen, num 1, sym .RightParen] ∧
      Env.find [] "foo".toList = none ∧
      parseLine Libm.approx [] "foo(1)".toList = (.error (.unknownFunction "foo".toList), []) ∧
      parseLine Libm.approx [] "2 * foo(1)".toList =
        (.error (.unknownFunction "foo".toList), []) ∧
      Error.unknownFunction "foo".toList ≠ Error.unknownVariable "foo".toList := by
  refine ⟨?_, ?_, ?_, ?_, ?_⟩ <;> decide!

/-- C9 (amended): when `factor` is entered at an identifier that is not bound, and
the next token is read without error: if that token is not `(`, `factor` throws
'Unknown variable' with the name of the identifier, returns no value, and every
evaluation that runs it, up to `parse`, throws the same; if that token is `(`,
`factor` throws 'Unknown function' with that name instead. -/
theorem unbound_identifier (m : Libm) (p p1 : Parser)
    (hid : p.currentToken.type = .Identifier) (heat : p.eat .Identifier = .ok () p1)
    (hfree : p.vars.find p.currentToken.name = none) :
    (p1.currentToken.type ≠ .LeftParen →
      factor m p = .throw (.unknownVariable p.currentToken.name) p1 ∧
      ∀ outer, Within m (factor m p) outer →
        outer = .throw (.unknownVariable p.currentToken.name) p1) ∧
    (p1.currentToken.type = .LeftParen →
      factor m p = .throw (.unknownFunction p.currentToken.name) p1) := by
  have hvars : p1.vars = p.vars := by
    have := keepsVars_eat .Identifier p
    rw [heat] at this
    exact this
  constructor
  · intro hnp
    have hthrow : factor m p = .throw (.unknownVariable p.currentToken.name) p1 := by
      rw [factor_eq]
      unfold factorBody
      simp [hid, heat, Result.andThen, hnp, hvars, hfree]
    exact ⟨hthrow, fun outer hw => throw_propagates m _ outer _ _ hw hthrow⟩
  · intro hp
    rw [factor_eq]
    unfold factorBody
    simp [hid, heat, Result.andThen, hp]

/-- C9 (amended), instances: with no variable bound, `factor` at the identifier of
the line `y` throws 'Unknown variable: y', and so does `parse` on the lines `y` and
`2 * y`. -/
theorem unbound_identifier_witness :
    factor Libm.approx ⟨⟨"y".toList, 1⟩, ident "y", []⟩ =
        .throw (.unknownVariable "y".toList) ⟨⟨"y".toList, 1⟩, sym .End, []⟩ ∧
      parseLine Libm.approx [] "y".toList = (.error (.unknownVariable "y".toList), []) ∧
      parseLine Libm.approx [] "2 * y".toList = (.error (.unknownVariable "y".toList), []) := by
  refine ⟨?_, by decide!, by decide!⟩
  exact ((unbound_identifier Libm.approx ⟨⟨"y".toList, 1⟩, ident "y", []⟩
    ⟨⟨"y".toList, 1⟩, sym .End, []⟩ (by decide!) (by decide!) (by decide!)).1
      (by decide!)).1

/-! ## C10 -/

/-- C10 (counterexample): on the lines `sin`, `sqrt + 1` and `2 * log` a function name
is reached in value position and is not followed by `(`; `parse` raises the generic
'Unexpected token' error, not 'Unknown function: <name>'. -/
theorem bare_function_name_unexpected_token :
    parseLine Libm.approx [] "sin".toList = (.error .unexpectedToken, []) ∧
      parseLine Libm.approx [] "sqrt + 1".toList = (.error .unexpectedToken, []) ∧
      parseLine Libm.approx [] "2 * log".toList = (.error .unexpectedToken, []) ∧
      Error.unexpectedToken ≠ Error.unknownFunction "sin".toList := by
  refine ⟨?_, ?_, ?_, ?_⟩ <;> decide!

/-- C10 (amended): when `factor` is entered at a function name and the next token is
read without error and is not `(`, `factor` throws the generic 'Unexpected token'
error, and every evaluation that runs it, up to `parse`, throws the same; this
error differs from every 'Unknown function' and every 'Unknown variable' error. -/
theorem bare_function_name (m : Libm) (p p1 : Parser)
    (hfn : p.currentToken.type = .Function) (heat : p.eat .Function = .ok () p1)
    (hnp : p1.currentToken.type ≠ .LeftParen) :
    factor m p = .throw .unexpectedToken p1 ∧
      (∀ outer, Within m (factor m p) outer → outer = .throw .unexpectedToken p1) ∧
      (∀ name, Error.unexpectedToken ≠ Error.unknownFunction name ∧
        Error.unexpectedToken ≠ Error.unknownVariable name ∧
        Error.what .unexpectedToken ≠ Error.what (.unknownFunction name) ∧
        Error.what .unexpectedToken ≠ Error.what (.unknownVariable name)) := by
  have hthrow : factor m p = .throw .unexpectedToken p1 := by
    rw [factor_eq]
    unfold factorBody Parser.eat
    unfold Parser.eat at heat
    simp only [hfn, if_true] at heat
    simp [hfn, heat, Result.andThen, hnp]
  refine ⟨hthrow, fun outer hw => throw_propagates m _ outer _ _ hw hthrow, fun name => ?_⟩
  refine ⟨by simp, by simp, ?_, ?_⟩
  · intro h
    have := congrArg (fun s => s.data.get? 2) h
    simp [Error.what] at this
  · intro h
    have := congrArg (fun s => s.data.get? 2) h
    simp [Error.what] at this

/-- C10 (amended), instances: `factor` at the function name of the lines `sin` and
`sqrt + 1` throws 'Unexpected token'. -/
theorem bare_function_name_witness :
    factor Libm.approx ⟨⟨"sin".toList, 3⟩, func "sin", []⟩ =
        .throw .unexpectedToken ⟨⟨"sin".toList, 3⟩, sym .End, []⟩ ∧
      factor Libm.approx ⟨⟨"sqrt + 1".toList, 4⟩, func "sqrt", []⟩ =
        .throw .unexpectedToken ⟨⟨"sqrt + 1".toList, 6⟩, sym .Plus, []⟩ := by
  constructor
  · exact (bare_function_name Libm.approx ⟨⟨"sin".toList, 3⟩, func "sin", []⟩
      ⟨⟨"sin".toList, 3⟩, sym .End, []⟩ (by decide!) (by decide!) (by decide!)).1
  · exact (bare_function_name Libm.approx ⟨⟨"sqrt + 1".toList, 4⟩, func "sqrt", []⟩
      ⟨⟨"sqrt + 1".toList, 6⟩, sym .Plus, []⟩ (by decide!) (by decide!) (by decide!)).1

/-! ## The lexer on the unread part of the input -/

theorem advanceWhile_eq_aux (p : Char → Bool) (input : List Char) (n pos : Nat)
    (h : input.length - pos ≤ n) :
    advanceWhile p input n pos = pos + ((input.drop pos).takeWhile p).length := by
  induction n generalizing pos with
  | zero =>
    have hle : input.length ≤ pos := by omega
    simp [advanceWhile, List.drop_eq_nil_of_le hle]
  | succ n ih =>
    unfold advanceWhile
    cases hc : input.get? pos with
    | none =>
      have hle : input.length ≤ pos := List.get?_eq_none.mp hc
      simp [List.drop_eq_nil_of_le hle]
    | some c =>
      have hlt : pos < input.length := (List.get?_eq_some.mp hc).1
      have hget : input[pos] = c := by
        have := (List.get?_eq_some.mp hc).2
        simpa using this
      have hdrop : input.drop pos = c :: input.drop (pos + 1) := by
        rw [← hget]
        exact List.drop_eq_getElem_cons hlt
      simp only
      by_cases hp : p c = true
      · simp only [hp, if_true]
        rw [ih (pos + 1) (by omega), hdrop, List.takeWhile_cons_of_pos hp]
        simp only [List.length_cons]
        omega
      · simp only [hp]
        rw [hdrop, List.takeWhile_cons_of_neg hp]
        simp

/-- The loop `while (pos < input.length() && p(input[pos])) pos++` stops right after
the longest run of characters satisfying `p` that starts at the cursor. -/
theorem advanceWhile_eq (p : Char → Bool) (input : List Char) (pos : Nat) :
    advanceWhile p input (input.length - pos) pos =
      pos + ((input.drop pos).takeWhile p).length :=
  advanceWhile_eq_aux p input _ pos (Nat.le_refl _)

theorem drop_length_takeWhile (p : Char → Bool) (l : List Char) :
    l.drop (l.takeWhile p).length = l.dropWhile p := by
  induction l with
  | nil => rfl
  | cons a l ih =>
    by_cases h : p a = true
    · simp [List.takeWhile_cons_of_pos h, List.dropWhile_cons_of_pos h, ih]
    · simp [List.takeWhile_cons_of_neg h, List.dropWhile_cons_of_neg h]

theorem take_length_takeWhile (p : Char → Bool) (l : List Char) :
    l.take (l.takeWhile p).length = l.takeWhile p := by
  induction l with
  | nil => rfl
  | cons a l ih =>
    by_cases h : p a = true
    · simp [List.takeWhile_cons_of_pos h, ih]
    · simp [List.takeWhile_cons_of_neg h]

theorem drop_add_takeWhile (p : Char → Bool) (input : List Char) (pos : Nat) :
    input.drop (pos + ((input.drop pos).takeWhile p).length) =
      (input.drop pos).dropWhile p := by
  rw [← List.drop_drop]
  exact drop_length_takeWhile p _

theorem get?_eq_head?_drop (input : List Char) (pos : Nat) :
    input.get? pos = (input.drop pos).head? := by
  simp [List.head?_drop]

/-- The member function `getNextToken` depends only on the characters from the
cursor on, and is computed by `lexAt`. -/
theorem getNextToken_eq_lexAt (lx : Lexer) :
    lx.getNextToken =
      ((lexAt (lx.input.drop lx.pos)).1, ⟨lx.input, lx.pos + (lexAt (lx.input.drop lx.pos)).2⟩) := by
  unfold Lexer.getNextToken lexAt
  simp only
  rw [advanceWhile_eq, get?_eq_head?_drop, drop_add_takeWhile]
  cases hs : (lx.input.drop lx.pos).dropWhile isspace with
  | nil => simp
  | cons current rest =>
    simp only [List.head?_cons]
    have hdrop : lx.input.drop (lx.pos + ((lx.input.drop lx.pos).takeWhile isspace).length) =
        current :: rest := by
      rw [drop_add_takeWhile, hs]
    simp only [advanceWhile_eq, hdrop, substr, Nat.add_sub_cancel_left, take_length_takeWhile]
    split_ifs with h1 h2 h3
    · cases hst : stod ((current :: rest).takeWhile (fun c => isdigit c || c = '.')) <;>
        simp [Nat.add_assoc]
    · simp [Nat.add_assoc]
    · simp [Nat.add_assoc]
    · cases hsc : singleCharToken current <;> simp [Nat.add_assoc]

theorem lexAt_blank (s : List Char) (h : ∀ c ∈ s, isspace c = true) :
    lexAt s = (.ok (Token.ofType .End), s.length) := by
  unfold lexAt
  have h1 : s.dropWhile isspace = [] := List.dropWhile_eq_nil_iff.mpr h
  have h2 : s.takeWhile isspace = s := List.takeWhile_eq_self_iff.mpr h
  simp only [h1, h2]

/-- At the token `End`, `factor` throws 'Invalid syntax'. -/
theorem factor_at_end (m : Libm) (p : Parser) (h : p.currentToken.type = .End) :
    factor m p = .throw .invalidSyntax p := by
  rw [factor_eq]
  unfold factorBody
  simp [h]

/-! ## C12 -/

/-- C12: for every line made of whitespace only (the empty line included) and every
initial variable map, the first token the lexer returns is `End`, and `parse`
throws 'Invalid syntax': no value is returned and the variable map is unchanged. -/
theorem blank_line_rejected (m : Libm) (vars : Env) (line : List Char)
    (hblank : ∀ c ∈ line, isspace c = true) :
    (Lexer.new line).getNextToken.1 = .ok (Token.ofType .End) ∧
      parseLine m vars line = (.error .invalidSyntax, vars) := by
  have hlex : (Lexer.new line).getNextToken =
      (.ok (Token.ofType .End), ⟨line, line.length⟩) := by
    rw [getNextToken_eq_lexAt]
    simp [Lexer.new, lexAt_blank line hblank]
  refine ⟨by rw [hlex], ?_⟩
  have hf := factor_at_end m ⟨⟨line, line.length⟩, ⟨.End, 0, []⟩, vars⟩ rfl
  unfold parseLine runLine Parser.new
  rw [hlex]
  simp only
  unfold Parser.parse assignment
  rw [expression_eq]
  unfold expressionBody
  rw [term_eq]
  unfold termBody
  simp [hf, Result.andThen, Token.ofType]

/-- C12, instances: the empty line and a line of blanks and a tab. -/
theorem blank_line_rejected_witness :
    parseLine Libm.approx [("x".toList, 1)] [] = (.error .invalidSyntax, [("x".toList, 1)]) ∧
      parseLine Libm.approx [("x".toList, 1)] "  \t ".toList =
        (.error .invalidSyntax, [("x".toList, 1)]) :=
  ⟨(blank_line_rejected Libm.approx _ [] (by decide)).2,
    (blank_line_rejected Libm.approx _ "  \t ".toList (by decide)).2⟩

theorem singleCharToken_ne_end (c : Char) (type : TokenType)
    (h : singleCharToken c = some type) : type ≠ .End := by
  unfold singleCharToken at h
  split_ifs at h <;> simp at h <;> subst h <;> decide

/-- When `lexAt` returns `End`, only whitespace was left. -/
theorem lexAt_end (s : List Char) (t : Token) (h : (lexAt s).1 = .ok t)
    (hend : t.type = .End) : s.dropWhile isspace = [] := by
  unfold lexAt at h
  simp only at h
  cases hs : s.dropWhile isspace with
  | nil => rfl
  | cons current rest =>
    rw [hs] at h
    simp only at h
    split_ifs at h with h1 h2 h3
    · cases hst : stod ((current :: rest).takeWhile (fun c => isdigit c || c = '.')) with
      | ok v =>
        rw [hst] at h
        simp only [Except.ok.injEq] at h
        subst h
        simp [Token.ofValue] at hend
      | error e =>
        rw [hst] at h
        simp at h
    · simp only [Except.ok.injEq] at h
      subst h
      simp [Token.ofName] at hend
    · simp only [Except.ok.injEq] at h
      subst h
      simp [Token.ofName] at hend
    · cases hsc : singleCharToken current with
      | none =>
        rw [hsc] at h
        simp at h
      | some type =>
        rw [hsc] at h
        simp only [Except.ok.injEq] at h
        subst h
        exact absurd hend (singleCharToken_ne_end _ _ hsc)

theorem length_takeWhile_le_length (q : Char → Bool) (l : List Char) :
    (l.takeWhile q).length ≤ l.length := by
  have h := List.takeWhile_append_dropWhile q (l := l)
  have h2 : (l.takeWhile q).length + (l.dropWhile q).length = l.length := by
    rw [← List.length_append, h]
  omega

/-- The number of characters `lexAt` consumes: at least the leading whitespace, at
most the whole input, and more than the leading whitespace for a token other than
`End`. -/
theorem lexAt_consumed (s : List Char) :
    (s.takeWhile isspace).length ≤ (lexAt s).2 ∧ (lexAt s).2 ≤ s.length ∧
      ∀ t, (lexAt s).1 = .ok t → t.type ≠ .End →
        (s.takeWhile isspace).length < (lexAt s).2 := by
  have hsplit := List.takeWhile_append_dropWhile isspace (l := s)
  have hlen : (s.takeWhile isspace).length + (s.dropWhile isspace).length = s.length := by
    rw [← List.length_append, hsplit]
  unfold lexAt
  simp only
  cases hs : s.dropWhile isspace with
  | nil =>
    rw [hs] at hlen
    simp only
    refine ⟨Nat.le_refl _, by simp at hlen; omega, ?_⟩
    intro t ht hne
    simp only [Except.ok.injEq] at ht
    subst ht
    exact absurd rfl hne
  | cons current rest =>
    rw [hs] at hlen
    simp only [List.length_cons] at hlen
    have hrun : ∀ q : Char → Bool, ((current :: rest).takeWhile q).length ≤ rest.length + 1 := by
      intro q
      have := length_takeWhile_le_length q (current :: rest)
      simpa using this
    simp only
    split_ifs with h1 h2 h3
    · have hpos : 0 < ((current :: rest).takeWhile (fun c => isdigit c || c = '.')).length := by
        rw [List.takeWhile_cons_of_pos (by simpa using h1)]
        simp
      have hr := hrun (fun c => isdigit c || c = '.')
      cases hst : stod ((current :: rest).takeWhile (fun c => isdigit c || c = '.')) <;>
        exact ⟨by simp only; omega, by simp only; omega, fun _ _ _ => by simp only; omega⟩
    · have hpos : 0 < ((current :: rest).takeWhile (fun c => isalnum c || c = '_')).length := by
        rw [List.takeWhile_cons_of_pos (by simp [isalnum, h2])]
        simp
      have hr := hrun (fun c => isalnum c || c = '_')
      exact ⟨by simp only; omega, by simp only; omega, fun _ _ _ => by simp only; omega⟩
    · have hpos : 0 < ((current :: rest).takeWhile (fun c => isalnum c || c = '_')).length := by
        rw [List.takeWhile_cons_of_pos (by simp [isalnum, h2])]
        simp
      have hr := hrun (fun c => isalnum c || c = '_')
      exact ⟨by simp only; omega, by simp only; omega, fun _ _ _ => by simp only; omega⟩
    · cases hsc : singleCharToken current with
      | none =>
        refine ⟨by simp only; omega, by simp only; omega, ?_⟩
        intro t ht
        simp at ht
      | some type =>
        exact ⟨by simp only; omega, by simp only; omega, fun _ _ _ => by simp only; omega⟩

/-- Leading whitespace is skipped: it adds to the characters consumed and changes
nothing else. -/
theorem lexAt_skip (ws s : List Char) (h : ∀ c ∈ ws, isspace c = true) :
    lexAt (ws ++ s) = ((lexAt s).1, ws.length + (lexAt s).2) := by
  unfold lexAt
  simp only [List.takeWhile_append_of_pos h, List.dropWhile_append_of_pos h, List.length_append]
  cases hs : s.dropWhile isspace with
  | nil => simp
  | cons current rest =>
    simp only
    split_ifs with h1 h2 h3
    · cases hst : stod ((current :: rest).takeWhile (fun c => isdigit c || c = '.')) <;>
        simp [Nat.add_assoc]
    · simp [Nat.add_assoc]
    · simp [Nat.add_assoc]
    · cases hsc : singleCharToken current <;> simp [Nat.add_assoc]

/-! ## C13 -/

/-- At a digit or `.`, `getNextToken` consumes the longest run of digits and `.`
that starts at the cursor, and returns what `std::stod` gives for that run. -/
theorem getNextToken_at_digit (lx : Lexer) (c : Char)
    (hc : lx.input.get? lx.pos = some c) (hd : (isdigit c || c = '.') = true) :
    lx.getNextToken =
      (match stod ((lx.input.drop lx.pos).takeWhile (fun x => isdigit x || x = '.')) with
        | .ok value => .ok (Token.ofValue .Number value)
        | .error e => .error e,
        ⟨lx.input, lx.pos +
          ((lx.input.drop lx.pos).takeWhile (fun x => isdigit x || x = '.')).length⟩) := by
  have hlt : lx.pos < lx.input.length := (List.get?_eq_some.mp hc).1
  have hget : lx.input[lx.pos] = c := by
    have := (List.get?_eq_some.mp hc).2
    simpa using this
  have hdrop : lx.input.drop lx.pos = c :: lx.input.drop (lx.pos + 1) := by
    rw [← hget]
    exact List.drop_eq_getElem_cons hlt
  have hsp : isspace c = false := by
    by_contra hs
    simp only [Bool.not_eq_false] at hs
    unfold isspace at hs
    unfold isdigit at hd
    simp only [Bool.or_eq_true, Bool.and_eq_true, decide_eq_true_eq] at hs hd
    rcases hd with hd | hd
    · omega
    · subst hd
      revert hs
      decide
  rw [getNextToken_eq_lexAt, hdrop]
  unfold lexAt
  have h1 : (c :: lx.input.drop (lx.pos + 1)).dropWhile isspace =
      c :: lx.input.drop (lx.pos + 1) := List.dropWhile_cons_of_neg (by simp [hsp])
  have h2 : (c :: lx.input.drop (lx.pos + 1)).takeWhile isspace = [] :=
    List.takeWhile_cons_of_neg (by simp [hsp])
  simp only [h1, h2]
  rw [if_pos hd]
  cases hst : stod ((c :: lx.input.drop (lx.pos + 1)).takeWhile
    (fun x => isdigit x || x = '.')) <;> simp

/-- C13 (evaluated on the code): at the start of `1.2.3` the lexer consumes the whole
run of five characters and returns the number 1.2 (6/5), and at the start of `1..2`
it consumes four characters and returns the number 1; no error is raised, and the
line `1.2.3 + 1` has the value 2.2 (11/5). The lone `.` does raise an error. -/
theorem malformed_number_accepted :
    (Lexer.new "1.2.3".toList).getNextToken = (.ok (num (6 / 5)), ⟨"1.2.3".toList, 5⟩) ∧
      (Lexer.new "1..2".toList).getNextToken = (.ok (num 1), ⟨"1..2".toList, 4⟩) ∧
      parseLine Libm.approx [] "1.2.3 + 1".toList = (.value (11 / 5), []) ∧
      (Lexer.new ".".toList).getNextToken =
        (.error .stodInvalidArgument, ⟨".".toList, 1⟩) := by
  refine ⟨?_, ?_, ?_, ?_⟩ <;> decide!

/-! ## C14 -/

theorem alpha_not_other (c : Char) (h : isalpha c = true) :
    isspace c = false ∧ isdigit c = false ∧ c ≠ '.' := by
  have hne : c ≠ '.' := by
    intro hc
    subst hc
    revert h
    decide
  unfold isalpha at h
  unfold isspace isdigit
  simp only [Bool.or_eq_true, Bool.and_eq_true, decide_eq_true_eq] at h
  refine ⟨?_, ?_, hne⟩
  · simp only [Bool.or_eq_false_iff, Bool.and_eq_false_iff, decide_eq_false_iff_not]
    omega
  · simp only [Bool.and_eq_false_iff, decide_eq_false_iff_not]
    omega

theorem isFunctionName_iff (name : List Char) :
    isFunctionName name = true ↔
      name = "sin".toList ∨ name = "cos".toList ∨ name = "tan".toList ∨
        name = "log".toList ∨ name = "sqrt".toList := by
  unfold isFunctionName
  simp only [Bool.or_eq_true, decide_eq_true_eq]
  tauto

/-- The result of `lexAt` on input that starts with a letter. -/
theorem lexAt_letter (c : Char) (rest : List Char) (h : isalpha c = true) :
    lexAt (c :: rest) =
      (.ok (Token.ofName
          (if isFunctionName ((c :: rest).takeWhile (fun x => isalnum x || x = '_')) = true
            then .Function else .Identifier)
          ((c :: rest).takeWhile (fun x => isalnum x || x = '_'))),
        ((c :: rest).takeWhile (fun x => isalnum x || x = '_')).length) := by
  obtain ⟨h1, h2, h3⟩ := alpha_not_other c h
  unfold lexAt
  have hd : (c :: rest).dropWhile isspace = c :: rest :=
    List.dropWhile_cons_of_neg (by simp [h1])
  have ht : (c :: rest).takeWhile isspace = [] :=
    List.takeWhile_cons_of_neg (by simp [h1])
  have hcond : ¬ ((isdigit c || decide (c = '.')) = true) := by simp [h2, h3]
  simp only [hd, ht]
  rw [if_neg hcond, if_pos h]
  split_ifs <;> simp

/-- C14: when the cursor is at a letter, `getNextToken` consumes the run of letters,
digits and underscores that starts at the cursor and cannot be extended (the next
character, if any, is none of these), and returns a `Function` token with that
name when the name is one of `sin`, `cos`, `tan`, `log`, `sqrt`, and an
`Identifier` token with that name otherwise. -/
theorem getNextToken_at_letter (lx : Lexer) (c : Char)
    (hc : lx.input.get? lx.pos = some c) (ha : isalpha c = true) :
    ∃ name rest, name = c :: rest ∧ name = substr lx.input lx.pos name.length ∧
      (∀ x ∈ name, isalnum x = true ∨ x = '_') ∧
      (∀ d, lx.input.get? (lx.pos + name.length) = some d →
        ¬ (isalnum d = true ∨ d = '_')) ∧
      lx.getNextToken.2 = ⟨lx.input, lx.pos + name.length⟩ ∧
      (isFunctionName name = true ↔
        name = "sin".toList ∨ name = "cos".toList ∨ name = "tan".toList ∨
          name = "log".toList ∨ name = "sqrt".toList) ∧
      (isFunctionName name = true →
        lx.getNextToken.1 = .ok (Token.ofName .Function name)) ∧
      (isFunctionName name = false →
        lx.getNextToken.1 = .ok (Token.ofName .Identifier name)) := by
  have hlt : lx.pos < lx.input.length := (List.get?_eq_some.mp hc).1
  have hget : lx.input[lx.pos] = c := by
    have := (List.get?_eq_some.mp hc).2
    simpa using this
  have hdrop : lx.input.drop lx.pos = c :: lx.input.drop (lx.pos + 1) := by
    rw [← hget]
    exact List.drop_eq_getElem_cons hlt
  have hlex := getNextToken_eq_lexAt lx
  rw [hdrop, lexAt_letter c _ ha] at hlex
  simp only at hlex
  have hrun : (c :: lx.input.drop (lx.pos + 1)).takeWhile (fun x => isalnum x || x = '_') =
      c :: (lx.input.drop (lx.pos + 1)).takeWhile (fun x => isalnum x || x = '_') :=
    List.takeWhile_cons_of_pos (by simp [isalnum, ha])
  refine ⟨(c :: lx.input.drop (lx.pos + 1)).takeWhile (fun x => isalnum x || x = '_'), _,
    hrun, ?_, ?_, ?_, ?_, isFunctionName_iff _, ?_, ?_⟩
  · unfold substr
    rw [hdrop, take_length_takeWhile]
  · intro x hx
    have := List.mem_takeWhile_imp hx
    simpa using this
  · intro d hd
    rw [get?_eq_head?_drop, ← hdrop, drop_add_takeWhile] at hd
    have := List.head?_dropWhile_not (fun x => isalnum x || x = '_') (lx.input.drop lx.pos)
    rw [hd] at this
    simpa using this
  · rw [hlex]
  · intro hf
    rw [hlex]
    simp [hf]
  · intro hf
    rw [hlex]
    simp [hf]

/-- C14, instances: `sine`, `sqrt2`, `Sin` and `log_` are identifiers, and `sqrt`
before `(` is a function name. -/
theorem getNextToken_at_letter_witness :
    (Lexer.new "sine".toList).getNextToken = (.ok (ident "sine"), ⟨"sine".toList, 4⟩) ∧
      (Lexer.new "sqrt2".toList).getNextToken = (.ok (ident "sqrt2"), ⟨"sqrt2".toList, 5⟩) ∧
      (Lexer.new "Sin".toList).getNextToken = (.ok (ident "Sin"), ⟨"Sin".toList, 3⟩) ∧
      (Lexer.new "log_".toList).getNextToken = (.ok (ident "log_"), ⟨"log_".toList, 4⟩) ∧
      (Lexer.new "sqrt(4)".toList).getNextToken = (.ok (func "sqrt"), ⟨"sqrt(4)".toList, 4⟩) ∧
      ∃ name rest, name = 's' :: rest ∧
        name = substr "sqrt2+1".toList 0 name.length ∧
        (∀ x ∈ name, isalnum x = true ∨ x = '_') ∧
        (∀ d, "sqrt2+1".toList.get? (0 + name.length) = some d →
          ¬ (isalnum d = true ∨ d = '_')) ∧
        (Lexer.new "sqrt2+1".toList).getNextToken.2 = ⟨"sqrt2+1".toList, 0 + name.length⟩ ∧
        (isFunctionName name = true ↔
          name = "sin".toList ∨ name = "cos".toList ∨ name = "tan".toList ∨
            name = "log".toList ∨ name = "sqrt".toList) ∧
        (isFunctionName name = true →
          (Lexer.new "sqrt2+1".toList).getNextToken.1 = .ok (Token.ofName .Function name)) ∧
        (isFunctionName name = false →
          (Lexer.new "sqrt2+1".toList).getNextToken.1 = .ok (Token.ofName .Identifier name)) :=
  ⟨by decide, by decide, by decide, by decide, by decide,
    getNextToken_at_letter (Lexer.new "sqrt2+1".toList) 's' (by decide) (by decide)⟩

/-! ## C15 -/

/-- After `End`, the lexer is at a fixed point: the next call returns `End` and
leaves the lexer as it is. -/
theorem getNextToken_after_end (lx : Lexer) (t : Token) (h : lx.getNextToken.1 = .ok t)
    (hend : t.type = .End) :
    lx.getNextToken.2.getNextToken = (.ok (Token.ofType .End), lx.getNextToken.2) := by
  have hlex := getNextToken_eq_lexAt lx
  rw [hlex] at h
  simp only at h
  have hnil := lexAt_end _ t h hend
  have hcons : (lexAt (lx.input.drop lx.pos)).2 =
      ((lx.input.drop lx.pos).takeWhile isspace).length := by
    unfold lexAt
    simp [hnil]
  rw [hlex, getNextToken_eq_lexAt]
  simp only [hcons, drop_add_takeWhile, hnil]
  simp [lexAt]

theorem iterate_fixed (f : Lexer → Lexer) (lx : Lexer) (h : f lx = lx) (n : Nat) :
    f^[n] lx = lx := by
  induction n with
  | zero => rfl
  | succ n ih => rw [Function.iterate_succ_apply, h, ih]

/-- C15: once `getNextToken` has returned `End`, every later call on the same lexer
returns `End`, throws nothing and leaves the cursor where it is; `End` was returned
because only whitespace was left, and conversely whitespace up to the end of the
input gives `End`; whitespace before a token is skipped without producing a token:
the call returns what it returns when started after the whitespace. -/
theorem end_idempotent (lx : Lexer) (t : Token) (h : lx.getNextToken.1 = .ok t)
    (hend : t.type = .End) :
    (∀ n, ((fun l : Lexer => l.getNextToken.2)^[n] lx.getNextToken.2).getNextToken =
      (.ok (Token.ofType .End), lx.getNextToken.2)) ∧
    (∀ c ∈ lx.input.drop lx.pos, isspace c = true) ∧
    (∀ (input : List Char) (pos : Nat), (∀ c ∈ input.drop pos, isspace c = true) →
      (Lexer.getNextToken ⟨input, pos⟩).1 = .ok (Token.ofType .End)) ∧
    (∀ (input : List Char) (pos k : Nat), pos + k ≤ input.length →
      (∀ c ∈ (input.drop pos).take k, isspace c = true) →
      Lexer.getNextToken ⟨input, pos⟩ = Lexer.getNextToken ⟨input, pos + k⟩) := by
  have hfix := getNextToken_after_end lx t h hend
  refine ⟨?_, ?_, ?_, ?_⟩
  · intro n
    rw [iterate_fixed _ _ (by rw [hfix]) n]
    exact hfix
  · have h' := h
    rw [getNextToken_eq_lexAt] at h'
    exact List.dropWhile_eq_nil_iff.mp (lexAt_end _ t h' hend)
  · intro input pos hall
    rw [getNextToken_eq_lexAt]
    simp only
    rw [lexAt_blank _ hall]
  · intro input pos k hk hall
    rw [getNextToken_eq_lexAt, getNextToken_eq_lexAt]
    simp only
    have hsplit : input.drop pos = (input.drop pos).take k ++ input.drop (pos + k) := by
      rw [← List.drop_drop, List.take_append_drop]
    have hlen : ((input.drop pos).take k).length = k := by
      rw [List.length_take, List.length_drop]
      omega
    rw [hsplit, lexAt_skip _ _ hall, hlen]
    simp [Nat.add_assoc]

/-- C15, instances: on `1 + 2  ` the fourth call returns `End` and so do the fifth
and the sixth; the leading blanks of `  7` produce no token. -/
theorem end_idempotent_witness :
    (Lexer.getNextToken ⟨"1 + 2  ".toList, 5⟩) =
        (.ok (Token.ofType .End), ⟨"1 + 2  ".toList, 7⟩) ∧
      (∀ n, ((fun l : Lexer => l.getNextToken.2)^[n]
          (Lexer.getNextToken ⟨"1 + 2  ".toList, 5⟩).2).getNextToken =
        (.ok (Token.ofType .End), (Lexer.getNextToken ⟨"1 + 2  ".toList, 5⟩).2)) ∧
      Lexer.getNextToken ⟨"  7".toList, 0⟩ = Lexer.getNextToken ⟨"  7".toList, 0 + 2⟩ :=
  ⟨by decide,
    (end_idempotent ⟨"1 + 2  ".toList, 5⟩ (Token.ofType .End) (by decide) rfl).1,
    (end_idempotent ⟨"1 + 2  ".toList, 5⟩ (Token.ofType .End) (by decide) rfl).2.2.2
      "  7".toList 0 2 (by decide) (by decide)⟩

/-! ## C17 -/

/-- C17: a call of `getNextToken` keeps the input, never moves the cursor backwards
and never moves it past the end of the input; a call that returns a token other
than `End` moves the cursor forward; and the token read starts at a position
`start` such that every character from the old cursor up to `start` is whitespace,
while the character at `start`, the first of the token, is not. -/
theorem getNextToken_cursor_moves (lx : Lexer) :
    lx.getNextToken.2.input = lx.input ∧
    lx.pos ≤ lx.getNextToken.2.pos ∧
    lx.getNextToken.2.pos ≤ max lx.pos lx.input.length ∧
    (∀ t, lx.getNextToken.1 = .ok t → t.type ≠ .End → lx.pos < lx.getNextToken.2.pos) ∧
    ∃ start, lx.pos ≤ start ∧ start ≤ lx.getNextToken.2.pos ∧
      (∀ i, lx.pos ≤ i → i < start → ∃ c, lx.input.get? i = some c ∧ isspace c = true) ∧
      (∀ t, lx.getNextToken.1 = .ok t → t.type ≠ .End →
        start < lx.getNextToken.2.pos ∧
        ∃ c, lx.input.get? start = some c ∧ isspace c = false) := by
  have hlex := getNextToken_eq_lexAt lx
  obtain ⟨h1, h2, h3⟩ := lexAt_consumed (lx.input.drop lx.pos)
  have hlen : (lx.input.drop lx.pos).length = lx.input.length - lx.pos := List.length_drop _ _
  rw [hlex]
  simp only
  refine ⟨trivial, Nat.le_add_right _ _, by omega, ?_, ?_⟩
  · intro t ht hne
    have := h3 t ht hne
    omega
  · refine ⟨lx.pos + ((lx.input.drop lx.pos).takeWhile isspace).length, Nat.le_add_right _ _,
      by omega, ?_, ?_⟩
    · intro i hi1 hi2
      have hi : i - lx.pos < ((lx.input.drop lx.pos).takeWhile isspace).length := by omega
      have hget : lx.input.get? i =
          ((lx.input.drop lx.pos).takeWhile isspace).get? (i - lx.pos) := by
        have e1 : lx.input.get? i = (lx.input.drop lx.pos).get? (i - lx.pos) := by
          simp only [List.get?_eq_getElem?, List.getElem?_drop]
          congr 1
          omega
        rw [e1]
        conv_lhs => rw [← List.takeWhile_append_dropWhile isspace (l := lx.input.drop lx.pos)]
        simp only [List.get?_eq_getElem?]
        exact List.getElem?_append_left hi
      obtain ⟨c, hc⟩ : ∃ c, ((lx.input.drop lx.pos).takeWhile isspace).get? (i - lx.pos) =
          some c := by
        cases hq : ((lx.input.drop lx.pos).takeWhile isspace).get? (i - lx.pos) with
        | none =>
          have := List.get?_eq_none.mp hq
          omega
        | some c => exact ⟨c, rfl⟩
      refine ⟨c, by rw [hget, hc], ?_⟩
      exact List.mem_takeWhile_imp (List.get?_mem hc)
    · intro t ht hne
      refine ⟨by have := h3 t ht hne; omega, ?_⟩
      rw [get?_eq_head?_drop, drop_add_takeWhile]
      cases hs : (lx.input.drop lx.pos).dropWhile isspace with
      | nil =>
        exfalso
        have hE : (lexAt (lx.input.drop lx.pos)).1 = .ok (Token.ofType .End) := by
          unfold lexAt
          simp [hs]
        rw [hE] at ht
        simp only [Except.ok.injEq] at ht
        subst ht
        exact hne rfl
      | cons current rest =>
        have := List.head?_dropWhile_not isspace (lx.input.drop lx.pos)
        rw [hs] at this
        exact ⟨current, rfl, by simpa using this⟩

/-! ## The loop of `remainingInput` -/

/-- One iteration of the loop of `remainingInput`, with the call of `getNextToken`
written as the `eat` of the current token. -/
theorem remainingInputN_succ (n : Nat) (rest : List Char) (p : Parser) :
    remainingInputN (n + 1) rest p =
      if p.currentToken.type ≠ .End then
        (p.eat p.currentToken.type).andThen fun _ q =>
          remainingInputN n
            (if p.currentToken.type = .Number then rest ++ to_string p.currentToken.value
              else if p.currentToken.type = .Identifier then rest ++ p.currentToken.name
              else rest ++ tokenToString p.currentToken.type) q
      else .ok rest p := by
  rw [remainingInputN]
  unfold Parser.eat
  simp only [if_true]
  by_cases h : p.currentToken.type ≠ .End
  · rw [if_pos h, if_pos h]
    rcases hg : p.lexer.getNextToken with ⟨r, lx⟩
    cases r <;> simp [Result.andThen]
  · rw [if_neg h, if_neg h]

theorem remainingInputN_keepsVars (n : Nat) (rest : List Char) (p : Parser) :
    KeepsVars p (remainingInputN n rest p) := by
  induction n generalizing rest p with
  | zero =>
    rw [remainingInputN]
    trivial
  | succ n ih =>
    rw [remainingInputN_succ]
    by_cases hE : p.currentToken.type ≠ .End
    · rw [if_pos hE]
      exact keepsVars_andThen _ _ _ (keepsVars_eat _ _) fun _ q => ih _ q
    · rw [if_neg hE]
      rfl

/-- With a budget above the unread input, the loop of `remainingInput` does not run
out of budget, and a larger budget gives the same result. -/
theorem remainingInputN_stable (n : Nat) (rest : List Char) (p : Parser)
    (h : p.unread < n) :
    remainingInputN n rest p ≠ .outOfBudget ∧
      ∀ k, remainingInputN (n + k) rest p = remainingInputN n rest p := by
  induction n generalizing rest p with
  | zero => omega
  | succ n ih =>
    constructor
    · rw [remainingInputN_succ]
      by_cases hE : p.currentToken.type ≠ .End
      · rw [if_pos hE]
        rcases eat_result p.currentToken.type p with ⟨e, q, he, -⟩ | ⟨q, he, -, -, hlt⟩
        · simp [he, Result.andThen]
        · simp only [he, Result.andThen]
          exact (ih _ q (by have := hlt hE; omega)).1
      · rw [if_neg hE]
        simp
    · intro k
      have hk : n + 1 + k = (n + k) + 1 := by omega
      rw [hk, remainingInputN_succ, remainingInputN_succ]
      by_cases hE : p.currentToken.type ≠ .End
      · rw [if_pos hE, if_pos hE]
        rcases eat_result p.currentToken.type p with ⟨e, q, he, -⟩ | ⟨q, he, -, -, hlt⟩
        · simp [he, Result.andThen]
        · simp only [he, Result.andThen]
          exact (ih _ q (by have := hlt hE; omega)).2 k
      · rw [if_neg hE, if_neg hE]

/-- The function `remainingInput` returns or throws; when it returns, the current
token is `End`. -/
theorem remainingInputN_end (n : Nat) (rest text : List Char) (p q : Parser)
    (h : remainingInputN n rest p = .ok text q) : q.currentToken.type = .End := by
  induction n generalizing rest p with
  | zero => simp [remainingInputN] at h
  | succ n ih =>
    rw [remainingInputN_succ] at h
    by_cases hE : p.currentToken.type ≠ .End
    · rw [if_pos hE] at h
      rcases eat_result p.currentToken.type p with ⟨e, q', he, -⟩ | ⟨q', he, -, -, -⟩
      · simp [he, Result.andThen] at h
      · simp only [he, Result.andThen] at h
        exact ih _ q' h
    · rw [if_neg hE] at h
      simp only [Result.ok.injEq] at h
      rw [← h.2]
      simpa using hE

theorem remainingInput_ne_outOfBudget (p : Parser) : remainingInput p ≠ .outOfBudget :=
  (remainingInputN_stable _ [] p (Nat.lt_succ_self _)).1

theorem remainingInput_keepsVars (p : Parser) : KeepsVars p (remainingInput p) :=
  remainingInputN_keepsVars _ _ _

/-! ## C18 -/

theorem assignment_ne_outOfBudget (m : Libm) (p : Parser) :
    assignment m p ≠ .outOfBudget := by
  unfold assignment
  split_ifs with hid
  · rcases eat_result .Identifier p with ⟨e, p1, he, -⟩ | ⟨p1, he, -, -, -⟩
    · simp [he, Result.andThen]
    · simp only [he, Result.andThen]
      split_ifs with has
      · rcases eat_result .Assign p1 with ⟨e, p2, he2, -⟩ | ⟨p2, he2, -, -, -⟩
        · simp [he2]
        · simp only [he2]
          cases hx : expression m p2 with
          | outOfBudget => exact absurd hx (expression_shrinks m p2).1
          | throw e q => simp
          | ok v q => simp
      · cases hr : remainingInput p1 with
        | outOfBudget => exact absurd hr (remainingInput_ne_outOfBudget p1)
        | throw e q => simp
        | ok text q =>
          simp only
          split
          · exact (expression_shrinks m _).1
          · simp
  · exact (expression_shrinks m p).1

/-- The construction of the parser followed by `parse` ends with a value or with an
error. -/
theorem parseLine_value_or_error (m : Libm) (vars : Env) (line : List Char) :
    (∃ v vars', parseLine m vars line = (.value v, vars')) ∨
      (∃ e vars', parseLine m vars line = (.error e, vars')) := by
  unfold parseLine runLine
  cases hnew : Parser.new vars line with
  | error e => exact Or.inr ⟨e, vars, rfl⟩
  | ok p =>
    simp only
    have ha := assignment_ne_outOfBudget m p
    unfold Parser.parse
    cases hx : assignment m p with
    | outOfBudget => exact absurd hx ha
    | throw e q => exact Or.inr ⟨e, q.vars, rfl⟩
    | ok v q =>
      simp only [Result.andThen]
      split_ifs
      · exact Or.inr ⟨_, _, rfl⟩
      · exact Or.inl ⟨_, _, rfl⟩

/-- C18: for every line and every initial variable map, the construction of the
parser followed by `parse` ends with a value or with an error, never by exhausting
the recursion budget. The budget is immaterial: each of `factor`, `term`,
`expression` and their loops gives the same result for every budget from the
default one on, and so does the loop of `remainingInput` (also on the re-lexed
input, whose parser state is one of the `p` below); and the recursion is
well-founded because `eat` leaves less input unread, so that `factor`, `term` and
`expression` return with less input unread than they were called with. -/
theorem parse_terminates (m : Libm) (vars : Env) (line : List Char) :
    ((∃ v vars', parseLine m vars line = (.value v, vars')) ∨
      (∃ e vars', parseLine m vars line = (.error e, vars'))) ∧
    (∀ p : Parser, Settled m p) ∧
    (∀ (p : Parser) (rest : List Char) (k : Nat),
      remainingInputN (p.unread + 1 + k) rest p = remainingInputN (p.unread + 1) rest p ∧
      remainingInputN (p.unread + 1) rest p ≠ .outOfBudget) ∧
    (∀ (p q : Parser) (type : TokenType), type ≠ .End → p.eat type = .ok () q →
      q.unread < p.unread) := by
  refine ⟨parseLine_value_or_error m vars line, settled m, ?_, ?_⟩
  · intro p rest k
    have := remainingInputN_stable (p.unread + 1) rest p (Nat.lt_succ_self _)
    exact ⟨this.2 k, this.1⟩
  · intro p q type hne he
    rcases eat_result type p with ⟨e, q', he', -⟩ | ⟨q', he', -, -, hlt⟩
    · rw [he] at he'
      simp at he'
    · rw [he] at he'
      simp only [Result.ok.injEq, true_and] at he'
      subst he'
      exact hlt hne

/-! ## C16 -/

/-- What `assignment` does to the variable map: nothing when it throws; when it
returns, nothing, unless the line starts with an identifier and `=`, the
right-hand `expression` has returned `v`, and the map is the old one with the
identifier bound to `v`. -/
theorem assignment_vars (m : Libm) (p : Parser) :
    (∀ e q, assignment m p = .throw e q → q.vars = p.vars) ∧
    (∀ v q, assignment m p = .ok v q →
      q.vars = p.vars ∨
      ∃ p1 p2 p3, p.currentToken.type = .Identifier ∧ p.eat .Identifier = .ok () p1 ∧
        p1.currentToken.type = .Assign ∧ p1.eat .Assign = .ok () p2 ∧
        expression m p2 = .ok v p3 ∧ q.vars = p.vars.set p.currentToken.name v) := by
  unfold assignment
  split_ifs with hid
  · rcases eat_result .Identifier p with ⟨e, p1, he, hv⟩ | ⟨p1, he, -, hv1, -⟩
    · simp only [he, Result.andThen]
      constructor
      · intro e' q h
        simp only [Result.throw.injEq] at h
        rw [← h.2, hv]
      · intro v q h
        simp at h
    · simp only [he, Result.andThen]
      split_ifs with has
      · rcases eat_result .Assign p1 with ⟨e, p2, he2, hv⟩ | ⟨p2, he2, -, hv2, -⟩
        · simp only [he2]
          constructor
          · intro e' q h
            simp only [Result.throw.injEq] at h
            rw [← h.2, hv, hv1]
          · intro v q h
            simp at h
        · simp only [he2]
          have hk := expression_keepsVars m p2
          cases hx : expression m p2 with
          | outOfBudget => simp
          | throw e q =>
            rw [hx] at hk
            simp only [Result.throw.injEq, reduceCtorEq, false_implies, implies_true, and_true]
            intro e' q' h
            rw [← h.2, show q.vars = p2.vars from hk, hv2, hv1]
          | ok v q =>
            rw [hx] at hk
            simp only [Result.ok.injEq, reduceCtorEq, false_implies, implies_true, true_and]
            intro v' q' h
            right
            refine ⟨p1, p2, q, hid, rfl, has, he2, ?_, ?_⟩
            · rw [← h.1]
              exact hx
            · rw [← h.2, ← h.1]
              simp only
              rw [show q.vars = p2.vars from hk, hv2, hv1]
      · have hr := remainingInput_keepsVars p1
        cases hx : remainingInput p1 with
        | outOfBudget => simp
        | throw e q =>
          rw [hx] at hr
          simp only [Result.throw.injEq, reduceCtorEq, false_implies, implies_true, and_true]
          intro e' q' h
          rw [← h.2, show q.vars = p1.vars from hr, hv1]
        | ok text q =>
          rw [hx] at hr
          have hq : q.vars = p.vars := by rw [show q.vars = p1.vars from hr, hv1]
          simp only
          rcases hg : (Lexer.new (p.currentToken.name ++ text)).getNextToken with ⟨r, lx⟩
          cases r with
          | error e =>
            simp only [Result.throw.injEq, reduceCtorEq, false_implies, implies_true, and_true]
            intro e' q' h
            rw [← h.2]
            exact hq
          | ok t =>
            simp only
            have hk := expression_keepsVars m { q with lexer := lx, currentToken := t }
            constructor
            · intro e' q' h
              rw [h] at hk
              exact (show q'.vars = q.vars from hk).trans hq
            · intro v q' h
              rw [h] at hk
              exact Or.inl ((show q'.vars = q.vars from hk).trans hq)
  · have hk := expression_keepsVars m p
    constructor
    · intro e q h
      rw [h] at hk
      exact hk
    · intro v q h
      rw [h] at hk
      exact Or.inl hk

theorem new_vars (vars : Env) (line : List Char) (p : Parser)
    (h : Parser.new vars line = .ok p) : p.vars = vars := by
  unfold Parser.new at h
  split at h
  · simp only [Except.ok.injEq] at h
    subst h
    rfl
  · simp at h

/-- After `parse` the variable map is the one before, or the one before with the
leading identifier bound to the value the right-hand `expression` returned. -/
theorem parseLine_vars_cases (m : Libm) (vars : Env) (line : List Char) :
    (parseLine m vars line).2 = vars ∨
      ∃ p0 p1 p2 p3 v, Parser.new vars line = .ok p0 ∧
        p0.currentToken.type = .Identifier ∧ p0.eat .Identifier = .ok () p1 ∧
        p1.currentToken.type = .Assign ∧ p1.eat .Assign = .ok () p2 ∧
        expression m p2 = .ok v p3 ∧
        (parseLine m vars line).2 = vars.set p0.currentToken.name v := by
  unfold parseLine runLine
  cases hnew : Parser.new vars line with
  | error e => exact Or.inl rfl
  | ok p =>
    simp only
    have hp := new_vars vars line p hnew
    obtain ⟨hthrow, hok⟩ := assignment_vars m p
    unfold Parser.parse
    cases hx : assignment m p with
    | outOfBudget => exact Or.inl rfl
    | throw e q =>
      left
      simp only [Result.andThen]
      rw [hthrow e q hx, hp]
    | ok v q =>
      rcases hok v q hx with h | ⟨p1, p2, p3, h1, h2, h3, h4, h5, h6⟩
      · left
        simp only [Result.andThen]
        split_ifs <;> simp only [h, hp]
      · right
        refine ⟨p, p1, p2, p3, v, rfl, h1, h2, h3, h4, h5, ?_⟩
        simp only [Result.andThen]
        split_ifs <;> simp only [h6, hp]

/-- C16: after `parse`, whether it returns or throws, the variable map is the one
before, unless the line starts with an identifier followed by `=`, both are read
without error, and the right-hand `expression` has returned a value `v`; then the
map is the old one with the identifier bound to `v`. Evaluating a factor, a term
or an expression (reading a variable included) and rebuilding the rest of the line
leave the map as it is, return or throw. -/
theorem vars_changed_only_by_assignment (m : Libm) (vars : Env) (line : List Char) :
    ((parseLine m vars line).2 = vars ∨
      ∃ p0 p1 p2 p3 v, Parser.new vars line = .ok p0 ∧
        p0.currentToken.type = .Identifier ∧ p0.eat .Identifier = .ok () p1 ∧
        p1.currentToken.type = .Assign ∧ p1.eat .Assign = .ok () p2 ∧
        expression m p2 = .ok v p3 ∧
        (parseLine m vars line).2 = vars.set p0.currentToken.name v) ∧
    (∀ p : Parser, KeepsVars p (factor m p) ∧ KeepsVars p (term m p) ∧
      KeepsVars p (expression m p) ∧ KeepsVars p (remainingInput p)) :=
  ⟨parseLine_vars_cases m vars line, fun p => ⟨factor_keepsVars m p, term_keepsVars m p,
    expression_keepsVars m p, remainingInput_keepsVars p⟩⟩

/-! ## Balanced parentheses -/

theorem balanced_nil : Balanced [] := by
  constructor
  · rfl
  · intro k
    simp

theorem balanced_append (a b : List Char) (ha : Balanced a) (hb : Balanced b) :
    Balanced (a ++ b) := by
  obtain ⟨ha1, ha2⟩ := ha
  obtain ⟨hb1, hb2⟩ := hb
  constructor
  · rw [List.count_append, List.count_append, ha1, hb1]
  · intro k
    rw [List.take_append_eq_append_take, List.count_append, List.count_append]
    by_cases hk : k ≤ a.length
    · have h0 : k - a.length = 0 := by omega
      rw [h0]
      simp only [List.take_zero, List.count_nil, Nat.add_zero]
      exact ha2 k
    · have hta : a.take k = a := List.take_of_length_le (by omega)
      rw [hta, ha1]
      have := hb2 (k - a.length)
      omega

theorem balanced_wrap (a : List Char) (ha : Balanced a) : Balanced ('(' :: (a ++ [')'])) := by
  obtain ⟨ha1, ha2⟩ := ha
  constructor
  · simp [List.count_cons, List.count_append, ha1]
  · intro k
    cases k with
    | zero => simp
    | succ j =>
      rw [List.take_succ_cons, List.take_append_eq_append_take]
      simp only [List.count_cons, List.count_append]
      have h1 := ha2 j
      have h2 : ((([')'] : List Char).take (j - a.length)).count ')') ≤ 1 := by
        have := List.count_le_length ')' (([')'] : List Char).take (j - a.length))
        have hl : (([')'] : List Char).take (j - a.length)).length ≤ 1 := by
          rw [List.length_take]
          exact Nat.min_le_right _ _
        omega
      have h3 : ((([')'] : List Char).take (j - a.length)).count '(') = 0 := by
        apply List.count_eq_zero_of_not_mem
        intro hm
        have := List.mem_of_mem_take hm
        simp at this
      simp only [h3]
      have e1 : (('(' : Char) == ')') = false := by decide
      have e2 : (('(' : Char) == '(') = true := by decide
      simp only [e1, e2]
      simp only [Bool.false_eq_true, if_false, if_true]
      omega

theorem filter_take_prefix (q : Char → Bool) (s : List Char) (k : Nat) :
    ∃ j, (s.take k).filter q = (s.filter q).take j := by
  induction s generalizing k with
  | nil => exact ⟨0, by simp⟩
  | cons a s ih =>
    cases k with
    | zero => exact ⟨0, by simp⟩
    | succ k =>
      obtain ⟨j, hj⟩ := ih k
      by_cases ha : q a = true
      · exact ⟨j + 1, by simp [List.filter_cons, ha, hj]⟩
      · exact ⟨j, by simp [List.filter_cons, ha, hj]⟩

/-- A text is balanced when its parentheses are. -/
theorem balanced_of_parenChars (s : List Char) (h : Balanced (parenChars s)) : Balanced s := by
  obtain ⟨h1, h2⟩ := h
  have hc : ∀ (c : Char) (l : List Char), (c = '(' ∨ c = ')') →
      (l.filter (fun c => c = '(' || c = ')')).count c = l.count c := by
    intro c l hcp
    apply List.count_filter
    rcases hcp with rfl | rfl <;> decide
  unfold parenChars at h1 h2
  constructor
  · rw [← hc '(' s (Or.inl rfl), ← hc ')' s (Or.inr rfl)]
    exact h1
  · intro k
    obtain ⟨j, hj⟩ := filter_take_prefix (fun c => c = '(' || c = ')') s k
    rw [← hc '(' _ (Or.inl rfl), ← hc ')' _ (Or.inr rfl), hj]
    exact h2 j

theorem parenTokens_append (a b : List Token) :
    parenTokens (a ++ b) = parenTokens a ++ parenTokens b := by
  induction a with
  | nil => rfl
  | cons t a ih => simp [parenTokens, ih]

theorem parenOf_other (t : Token) (h1 : t.type ≠ .LeftParen) (h2 : t.type ≠ .RightParen) :
    parenOf t = [] := by
  simp [parenOf, h1, h2]

theorem parenOf_left (t : Token) (h : t.type = .LeftParen) : parenOf t = ['('] := by
  simp [parenOf, h]

theorem parenOf_right (t : Token) (h : t.type = .RightParen) : parenOf t = [')'] := by
  simp [parenOf, h]

/-- The tokens pending before an `eat` that returns are the current token followed
by the tokens pending after it. -/
theorem pending_of_eat (type : TokenType) (p q : Parser) (rest : List Token)
    (he : p.eat type = .ok () q) (hne : type ≠ .End) (hq : Pending q rest) :
    Pending p (p.currentToken :: rest) ∧ p.currentToken.type = type := by
  unfold Parser.eat at he
  by_cases h : p.currentToken.type = type
  · simp only [h, if_true] at he
    rcases hg : p.lexer.getNextToken with ⟨r, lx⟩
    rw [hg] at he
    cases r with
    | error e => simp at he
    | ok t =>
      simp only [Result.ok.injEq, true_and] at he
      subst he
      refine ⟨⟨rfl, by rw [h]; exact hne, ?_⟩, h⟩
      cases rest with
      | nil =>
        have hE : t.type = .End := hq
        exact Lexes.done _ t (by rw [hg]) hE
      | cons t' rest' =>
        obtain ⟨h1, h2, h3⟩ := hq
        simp only at h1 h3
        subst h1
        exact Lexes.step _ t rest' (by rw [hg]) h2 (by rw [hg]; exact h3)
  · simp [h] at he

/-- A token that is not a parenthesis, consumed before a balanced sequence. -/
theorem consumes_cons (p p1 : Parser) (type : TokenType) (ts rest : List Token)
    (he : p.eat type = .ok () p1) (hne : type ≠ .End) (h1 : type ≠ .LeftParen)
    (h2 : type ≠ .RightParen) (hp : Pending p1 (ts ++ rest))
    (hb : Balanced (parenTokens ts)) :
    ∃ ts', Pending p (ts' ++ rest) ∧ Balanced (parenTokens ts') := by
  obtain ⟨hpend, hty⟩ := pending_of_eat type p p1 _ he hne hp
  refine ⟨p.currentToken :: ts, hpend, ?_⟩
  simp only [parenTokens]
  rw [parenOf_other _ (by rw [hty]; exact h1) (by rw [hty]; exact h2)]
  exact hb

/-- A parenthesized balanced sequence: `(`, the sequence, `)`. -/
theorem consumes_parens (p p1 p2 q : Parser) (ts rest : List Token)
    (he : p.eat .LeftParen = .ok () p1) (he2 : p2.eat .RightParen = .ok () q)
    (hq : Pending q rest)
    (hin : Pending p2 (p2.currentToken :: rest) → Pending p1 (ts ++ p2.currentToken :: rest))
    (hb : Balanced (parenTokens ts)) :
    ∃ ts', Pending p (ts' ++ rest) ∧ Balanced (parenTokens ts') := by
  obtain ⟨hp2, hty2⟩ := pending_of_eat .RightParen p2 q _ he2 (by decide) hq
  obtain ⟨hp, hty⟩ := pending_of_eat .LeftParen p p1 _ he (by decide) (hin hp2)
  refine ⟨p.currentToken :: (ts ++ [p2.currentToken]), by simpa using hp, ?_⟩
  simp only [parenTokens, parenTokens_append, parenOf_left _ hty, parenOf_right _ hty2,
    List.append_nil]
  exact balanced_wrap _ hb

theorem factorBody_consumes (m : Libm) (f g : Parser → Result Val)
    (hf : ConsumesBalanced f) (hg : ConsumesBalanced g) :
    ConsumesBalanced (factorBody m f g) := by
  intro p v q rest h hq
  unfold factorBody at h
  simp only at h
  split_ifs at h with h1 h2 h3 h4 h5 h6
  · rcases eat_result .Plus p with ⟨e, p1, he, -⟩ | ⟨p1, he, -, -, -⟩
    · simp [he, Result.andThen] at h
    · simp only [he, Result.andThen] at h
      obtain ⟨ts, hp1, hb⟩ := hf p1 v q rest h hq
      exact consumes_cons p p1 .Plus ts rest he (by decide) (by decide) (by decide) hp1 hb
  · rcases eat_result .Minus p with ⟨e, p1, he, -⟩ | ⟨p1, he, -, -, -⟩
    · simp [he, Result.andThen] at h
    · simp only [he, Result.andThen] at h
      cases hx : f p1 with
      | outOfBudget => simp [hx] at h
      | throw e q' => simp [hx] at h
      | ok v' q' =>
        simp only [hx, Result.ok.injEq] at h
        obtain ⟨ts, hp1, hb⟩ := hf p1 v' q' rest hx (h.2 ▸ hq)
        exact consumes_cons p p1 .Minus ts rest he (by decide) (by decide) (by decide) hp1 hb
  · rcases eat_result .Number p with ⟨e, p1, he, -⟩ | ⟨p1, he, -, -, -⟩
    · simp [he, Result.andThen] at h
    · simp only [he, Result.andThen, Result.ok.injEq] at h
      exact consumes_cons p p1 .Number [] rest he (by decide) (by decide) (by decide)
        (by simpa using h.2 ▸ hq) balanced_nil
  · rcases eat_result .Identifier p with ⟨e, p1, he, -⟩ | ⟨p1, he, -, -, -⟩
    · simp [he, Result.andThen] at h
    · simp only [he, Result.andThen] at h
      split_ifs at h
      cases hfind : p1.vars.find p.currentToken.name with
      | none => simp [hfind] at h
      | some w =>
        simp only [hfind, Result.ok.injEq] at h
        exact consumes_cons p p1 .Identifier [] rest he (by decide) (by decide) (by decide)
          (by simpa using h.2 ▸ hq) balanced_nil
  · rcases eat_result .Function p with ⟨e, p1, he, -⟩ | ⟨p1, he, -, -, -⟩
    · simp [he, Result.andThen] at h
    · simp only [he, Result.andThen] at h
      rcases eat_result .LeftParen p1 with ⟨e, p2, he2, -⟩ | ⟨p2, he2, -, -, -⟩
      · simp [he2] at h
      · simp only [he2] at h
        cases hx : g p2 with
        | outOfBudget => simp [hx] at h
        | throw e q' => simp [hx] at h
        | ok arg p3 =>
          simp only [hx] at h
          rcases eat_result .RightParen p3 with ⟨e, p4, he4, -⟩ | ⟨p4, he4, -, -, -⟩
          · simp [he4] at h
          · simp only [he4] at h
            cases hap : applyFunction m p.currentToken.name arg with
            | error e => simp [hap] at h
            | ok w =>
              simp only [hap, Result.ok.injEq] at h
              have hq4 : Pending p4 rest := h.2 ▸ hq
              obtain ⟨hp3, -⟩ := pending_of_eat .RightParen p3 p4 _ he4 (by decide) hq4
              obtain ⟨ts, hp2, hb⟩ := hg p2 arg p3 _ hx hp3
              obtain ⟨ts', hp1, hb'⟩ :=
                consumes_parens p1 p2 p3 p4 ts rest he2 he4 hq4 (fun _ => hp2) hb
              exact consumes_cons p p1 .Function ts' rest he (by decide) (by decide)
                (by decide) hp1 hb'
  · rcases eat_result .LeftParen p with ⟨e, p1, he, -⟩ | ⟨p1, he, -, -, -⟩
    · simp [he, Result.andThen] at h
    · simp only [he, Result.andThen] at h
      cases hx : g p1 with
      | outOfBudget => simp [hx] at h
      | throw e q' => simp [hx] at h
      | ok result p2 =>
        simp only [hx] at h
        rcases eat_result .RightParen p2 with ⟨e, p3, he3, -⟩ | ⟨p3, he3, -, -, -⟩
        · simp [he3] at h
        · simp only [he3, Result.ok.injEq] at h
          have hq3 : Pending p3 rest := h.2 ▸ hq
          obtain ⟨hp2, -⟩ := pending_of_eat .RightParen p2 p3 _ he3 (by decide) hq3
          obtain ⟨ts, hp1, hb⟩ := hg p1 result p2 _ hx hp2
          exact consumes_parens p p1 p2 p3 ts rest he he3 hq3 (fun _ => hp1) hb

/-- One more operand in a loop: the operator, then a balanced sequence, then what
the rest of the loop consumes. -/
theorem loop_step_consumes (p p1 : Parser) (type : TokenType)
    (f : Parser → Result Val) (l : Val → Parser → Result Val) (op : Val → Val → Val)
    (result v : Val) (q : Parser) (rest : List Token)
    (hf : ConsumesBalanced f) (hl : ∀ r, ConsumesBalanced (l r))
    (he : p.eat type = .ok () p1) (hne : type ≠ .End) (h1 : type ≠ .LeftParen)
    (h2 : type ≠ .RightParen)
    (h : ((f p1).andThen fun w p2 => l (op result w) p2) = .ok v q) (hq : Pending q rest) :
    ∃ ts, Pending p (ts ++ rest) ∧ Balanced (parenTokens ts) := by
  cases hx : f p1 with
  | outOfBudget => simp [hx, Result.andThen] at h
  | throw e q' => simp [hx, Result.andThen] at h
  | ok w p2 =>
    simp only [hx, Result.andThen] at h
    obtain ⟨ts2, hp2, hb2⟩ := hl _ p2 v q rest h hq
    obtain ⟨ts1, hp1, hb1⟩ := hf p1 w p2 _ hx hp2
    refine consumes_cons p p1 type (ts1 ++ ts2) rest he hne h1 h2 (by simpa using hp1) ?_
    rw [parenTokens_append]
    exact balanced_append _ _ hb1 hb2

theorem termLoopBody_consumes (f : Parser → Result Val) (l : Val → Parser → Result Val)
    (hf : ConsumesBalanced f) (hl : ∀ r, ConsumesBalanced (l r)) (result : Val) :
    ConsumesBalanced (termLoopBody f l result) := by
  intro p v q rest h hq
  unfold termLoopBody at h
  simp only at h
  by_cases hc : p.currentToken.type = .Multiply ∨ p.currentToken.type = .Divide
  · rw [if_pos hc] at h
    by_cases hm : p.currentToken.type = .Multiply
    · rw [if_pos hm] at h
      rcases eat_result .Multiply p with ⟨e, p1, he, -⟩ | ⟨p1, he, -, -, -⟩
      · simp [he, Result.andThen] at h
      · rw [he] at h
        exact loop_step_consumes p p1 .Multiply f l (fun a b => a * b) result v q rest hf hl he
          (by decide) (by decide) (by decide) h hq
    · have hd : p.currentToken.type = .Divide := hc.resolve_left hm
      rw [if_neg hm, if_pos hd] at h
      rcases eat_result .Divide p with ⟨e, p1, he, -⟩ | ⟨p1, he, -, -, -⟩
      · simp [he, Result.andThen] at h
      · rw [he] at h
        simp only [Result.andThen] at h
        cases hx : f p1 with
        | outOfBudget => simp [hx] at h
        | throw e q' => simp [hx] at h
        | ok w p2 =>
          simp only [hx] at h
          by_cases hz : w = 0
          · simp [hz] at h
          · rw [if_neg hz] at h
            obtain ⟨ts2, hp2, hb2⟩ := hl _ p2 v q rest h hq
            obtain ⟨ts1, hp1, hb1⟩ := hf p1 w p2 _ hx hp2
            refine consumes_cons p p1 .Divide (ts1 ++ ts2) rest he (by decide) (by decide)
              (by decide) (by simpa using hp1) ?_
            rw [parenTokens_append]
            exact balanced_append _ _ hb1 hb2
  · rw [if_neg hc] at h
    simp only [Result.ok.injEq] at h
    exact ⟨[], by simpa using h.2 ▸ hq, balanced_nil⟩

theorem exprLoopBody_consumes (f : Parser → Result Val) (l : Val → Parser → Result Val)
    (hf : ConsumesBalanced f) (hl : ∀ r, ConsumesBalanced (l r)) (result : Val) :
    ConsumesBalanced (exprLoopBody f l result) := by
  intro p v q rest h hq
  unfold exprLoopBody at h
  simp only at h
  by_cases hc : p.currentToken.type = .Plus ∨ p.currentToken.type = .Minus
  · rw [if_pos hc] at h
    by_cases hm : p.currentToken.type = .Plus
    · rw [if_pos hm] at h
      rcases eat_result .Plus p with ⟨e, p1, he, -⟩ | ⟨p1, he, -, -, -⟩
      · simp [he, Result.andThen] at h
      · rw [he] at h
        exact loop_step_consumes p p1 .Plus f l (fun a b => a + b) result v q rest hf hl he
          (by decide) (by decide) (by decide) h hq
    · have hd : p.currentToken.type = .Minus := hc.resolve_left hm
      rw [if_neg hm, if_pos hd] at h
      rcases eat_result .Minus p with ⟨e, p1, he, -⟩ | ⟨p1, he, -, -, -⟩
      · simp [he, Result.andThen] at h
      · rw [he] at h
        exact loop_step_consumes p p1 .Minus f l (fun a b => a - b) result v q rest hf hl he
          (by decide) (by decide) (by decide) h hq
  · rw [if_neg hc] at h
    simp only [Result.ok.injEq] at h
    exact ⟨[], by simpa using h.2 ▸ hq, balanced_nil⟩

theorem ruleBody_consumes (f : Parser → Result Val) (l : Val → Parser → Result Val)
    (hf : ConsumesBalanced f) (hl : ∀ r, ConsumesBalanced (l r)) :
    ConsumesBalanced (fun p => (f p).andThen fun result q => l result q) := by
  intro p v q rest h hq
  simp only at h
  cases hx : f p with
  | outOfBudget => simp [hx, Result.andThen] at h
  | throw e q' => simp [hx, Result.andThen] at h
  | ok w p2 =>
    simp only [hx, Result.andThen] at h
    obtain ⟨ts2, hp2, hb2⟩ := hl _ p2 v q rest h hq
    obtain ⟨ts1, hp1, hb1⟩ := hf p w p2 _ hx hp2
    refine ⟨ts1 ++ ts2, by simpa using hp1, ?_⟩
    rw [parenTokens_append]
    exact balanced_append _ _ hb1 hb2

theorem rulesN_consume (m : Libm) (n : Nat) :
    ConsumesBalanced (factorN m n) ∧ (∀ r, ConsumesBalanced (termLoopN m n r)) ∧
    ConsumesBalanced (termN m n) ∧ (∀ r, ConsumesBalanced (exprLoopN m n r)) ∧
    ConsumesBalanced (expressionN m n) := by
  induction n with
  | zero =>
    refine ⟨?_, fun r => ?_, ?_, fun r => ?_, ?_⟩ <;> intro p v q rest h
    · simp [factorN] at h
    · simp [termLoopN] at h
    · simp [termN] at h
    · simp [exprLoopN] at h
    · simp [expressionN] at h
  | succ n ih =>
    obtain ⟨h1, h2, h3, h4, h5⟩ := ih
    refine ⟨?_, fun r => ?_, ?_, fun r => ?_, ?_⟩
    · intro p v q rest h
      rw [factorN] at h
      exact factorBody_consumes m _ _ h1 h5 p v q rest h
    · intro p v q rest h
      rw [termLoopN] at h
      exact termLoopBody_consumes _ _ h1 h2 r p v q rest h
    · intro p v q rest h
      rw [termN] at h
      exact ruleBody_consumes _ _ h1 h2 p v q rest h
    · intro p v q rest h
      rw [exprLoopN] at h
      exact exprLoopBody_consumes _ _ h3 h4 r p v q rest h
    · intro p v q rest h
      rw [expressionN] at h
      exact ruleBody_consumes _ _ h3 h4 p v q rest h

/-- When `expression` returns, it has consumed a token sequence with balanced
parentheses. -/
theorem expression_consumes (m : Libm) : ConsumesBalanced (expression m) := by
  intro p v q rest h
  exact (rulesN_consume m _).2.2.2.2 p v q rest h

/-! ## The parentheses of a text and of its tokens -/

theorem space_not_paren (c : Char) (h : isspace c = true) : (c = '(' || c = ')') = false := by
  by_contra hc
  simp only [Bool.not_eq_false, Bool.or_eq_true, decide_eq_true_eq] at hc
  rcases hc with rfl | rfl <;> revert h <;> decide

theorem numberChar_not_paren (c : Char) (h : (isdigit c || c = '.') = true) :
    (c = '(' || c = ')') = false := by
  by_contra hc
  simp only [Bool.not_eq_false, Bool.or_eq_true, decide_eq_true_eq] at hc
  rcases hc with rfl | rfl <;> revert h <;> decide

theorem nameChar_not_paren (c : Char) (h : isalnum c = true ∨ c = '_') :
    (c = '(' || c = ')') = false := by
  by_contra hc
  simp only [Bool.not_eq_false, Bool.or_eq_true, decide_eq_true_eq] at hc
  rcases hc with rfl | rfl <;> revert h <;> decide

theorem parenChars_eq_nil (s : List Char) (h : ∀ c ∈ s, (c = '(' || c = ')') = false) :
    parenChars s = [] := by
  unfold parenChars
  rw [List.filter_eq_nil_iff]
  intro c hc
  simp [h c hc]

theorem parenChars_append (a b : List Char) :
    parenChars (a ++ b) = parenChars a ++ parenChars b := by
  simp [parenChars]

theorem parenChars_takeWhile (q : Char → Bool) (s : List Char)
    (h : ∀ c, q c = true → (c = '(' || c = ')') = false) :
    parenChars (s.takeWhile q) = [] :=
  parenChars_eq_nil _ fun c hc => h c (List.mem_takeWhile_imp hc)

theorem singleCharToken_paren (c : Char) (type : TokenType)
    (h : singleCharToken c = some type) : parenChars [c] = parenOf (Token.ofType type) := by
  unfold singleCharToken at h
  split_ifs at h with h1 h2 h3 h4 h5 h6 h7 h8 <;> simp only [Option.some.injEq] at h <;>
    subst h <;> subst_vars <;> decide

theorem take_blanks_add (s : List Char) (current : Char) (rest : List Char) (k : Nat)
    (hs : s.dropWhile isspace = current :: rest) :
    s.take ((s.takeWhile isspace).length + k) =
      s.takeWhile isspace ++ (current :: rest).take k := by
  have hsplit := List.takeWhile_append_dropWhile isspace (l := s)
  rw [hs] at hsplit
  have e : s.take ((s.takeWhile isspace).length + k) =
      (s.takeWhile isspace ++ current :: rest).take ((s.takeWhile isspace).length + k) := by
    rw [hsplit]
  rw [e, List.take_append]

/-- The parentheses among the characters `lexAt` consumes are the parenthesis of the
token it returns. -/
theorem lexAt_parens (s : List Char) (t : Token) (h : (lexAt s).1 = .ok t) :
    parenChars (s.take (lexAt s).2) = parenOf t := by
  have hblank : parenChars (s.takeWhile isspace) = [] :=
    parenChars_takeWhile _ _ space_not_paren
  unfold lexAt at h ⊢
  simp only at h ⊢
  cases hs : s.dropWhile isspace with
  | nil =>
    rw [hs] at h
    simp only [Except.ok.injEq] at h ⊢
    subst h
    rw [take_length_takeWhile, hblank]
    rfl
  | cons current rest =>
    rw [hs] at h
    simp only at h ⊢
    split_ifs at h ⊢ with h1 h2 h3
    · cases hst : stod ((current :: rest).takeWhile (fun c => isdigit c || c = '.')) with
      | error e => simp [hst] at h
      | ok value =>
        simp only [hst, Except.ok.injEq] at h ⊢
        subst h
        rw [take_blanks_add s current rest _ hs, take_length_takeWhile, parenChars_append,
          hblank, parenChars_takeWhile _ _ numberChar_not_paren]
        rfl
    · simp only [Except.ok.injEq] at h
      subst h
      rw [take_blanks_add s current rest _ hs, take_length_takeWhile, parenChars_append,
        hblank, parenChars_takeWhile _ _ (fun c hc => nameChar_not_paren c (by simpa using hc))]
      rfl
    · simp only [Except.ok.injEq] at h
      subst h
      rw [take_blanks_add s current rest _ hs, take_length_takeWhile, parenChars_append,
        hblank, parenChars_takeWhile _ _ (fun c hc => nameChar_not_paren c (by simpa using hc))]
      rfl
    · cases hsc : singleCharToken current with
      | none => simp [hsc] at h
      | some type =>
        simp only [hsc, Except.ok.injEq] at h ⊢
        subst h
        rw [take_blanks_add s current rest _ hs, parenChars_append, hblank]
        simp only [List.take_succ_cons, List.take_zero, List.nil_append]
        exact singleCharToken_paren current type hsc

/-- The names of the tokens `lexAt` returns: only letters, digits and underscores,
and an `Identifier` has the shape of an identifier name. -/
theorem lexAt_name (s : List Char) (t : Token) (h : (lexAt s).1 = .ok t) :
    (∀ c ∈ t.name, isalnum c = true ∨ c = '_') ∧
      (t.type = .Identifier → IsIdentifierName t.name) := by
  unfold lexAt at h
  simp only at h
  cases hs : s.dropWhile isspace with
  | nil =>
    rw [hs] at h
    simp only [Except.ok.injEq] at h
    subst h
    exact ⟨by simp [Token.ofType], by simp [Token.ofType]⟩
  | cons current rest =>
    rw [hs] at h
    simp only at h
    have hmem : ∀ c ∈ (current :: rest).takeWhile (fun c => isalnum c || c = '_'),
        isalnum c = true ∨ c = '_' := by
      intro c hc
      have := List.mem_takeWhile_imp hc
      simpa using this
    split_ifs at h with h1 h2 h3
    · cases hst : stod ((current :: rest).takeWhile (fun c => isdigit c || c = '.')) with
      | error e => simp [hst] at h
      | ok value =>
        simp only [hst, Except.ok.injEq] at h
        subst h
        exact ⟨by simp [Token.ofValue], by simp [Token.ofValue]⟩
    · simp only [Except.ok.injEq] at h
      subst h
      exact ⟨hmem, by simp [Token.ofName]⟩
    · simp only [Except.ok.injEq] at h
      subst h
      refine ⟨hmem, fun _ => ⟨⟨current, rest.takeWhile (fun c => isalnum c || c = '_'), ?_, h2⟩,
        hmem, by simpa using h3⟩⟩
      have hrun : (current :: rest).takeWhile (fun c => isalnum c || c = '_') =
          current :: rest.takeWhile (fun c => isalnum c || c = '_') :=
        List.takeWhile_cons_of_pos (by simp [isalnum, h2])
      exact hrun
    · cases hsc : singleCharToken current with
      | none => simp [hsc] at h
      | some type =>
        simp only [hsc, Except.ok.injEq] at h
        subst h
        refine ⟨by simp [Token.ofType], ?_⟩
        intro hty
        unfold singleCharToken at hsc
        split_ifs at hsc <;> simp only [Option.some.injEq] at hsc <;> subst hsc <;>
          simp [Token.ofType] at hty

/-- The parentheses of the unread text are those of the tokens the lexer returns,
and the names of these tokens hold only letters, digits and underscores. -/
theorem lexes_parens (lx : Lexer) (ts : List Token) (h : Lexes lx ts) :
    parenChars (lx.input.drop lx.pos) = parenTokens ts ∧
      ∀ t ∈ ts, (∀ c ∈ t.name, isalnum c = true ∨ c = '_') ∧
        (t.type = .Identifier → IsIdentifierName t.name) := by
  induction h with
  | done lx t h1 h2 =>
    rw [getNextToken_eq_lexAt] at h1
    simp only at h1
    have hnil := lexAt_end _ t h1 h2
    refine ⟨?_, by simp⟩
    simp only [parenTokens]
    exact parenChars_eq_nil _ fun c hc =>
      space_not_paren c (List.dropWhile_eq_nil_iff.mp hnil c hc)
  | step lx t ts h1 h2 _ ih =>
    have hlex := getNextToken_eq_lexAt lx
    rw [hlex] at h1 ih
    simp only at h1 ih
    obtain ⟨ih1, ih2⟩ := ih
    constructor
    · have hsplit := List.take_append_drop (lexAt (lx.input.drop lx.pos)).2
        (lx.input.drop lx.pos)
      rw [← hsplit, parenChars_append, lexAt_parens _ t h1, List.drop_drop, ih1]
      rfl
    · intro t' ht'
      rcases List.mem_cons.mp ht' with rfl | hmem
      · exact lexAt_name _ _ h1
      · exact ih2 t' hmem

/-! ## The text rebuilt by `remainingInput` -/

theorem digitChar_not_paren (d : Nat) (h : d < 10) :
    (Nat.digitChar d = '(' || Nat.digitChar d = ')') = false := by
  interval_cases d <;> decide

theorem toDigitsCore_not_paren (fuel n : Nat) (ds : List Char)
    (h : ∀ c ∈ ds, (c = '(' || c = ')') = false) :
    ∀ c ∈ Nat.toDigitsCore 10 fuel n ds, (c = '(' || c = ')') = false := by
  induction fuel generalizing n ds with
  | zero => simpa [Nat.toDigitsCore] using h
  | succ fuel ih =>
    have hds : ∀ c ∈ Nat.digitChar (n % 10) :: ds, (c = '(' || c = ')') = false := by
      intro c hc
      rcases List.mem_cons.mp hc with rfl | hc
      · exact digitChar_not_paren _ (Nat.mod_lt _ (by decide))
      · exact h c hc
    unfold Nat.toDigitsCore
    simp only
    split_ifs
    · exact hds
    · exact ih _ _ hds

theorem toDigits_not_paren (n : Nat) :
    ∀ c ∈ Nat.toDigits 10 n, (c = '(' || c = ')') = false :=
  toDigitsCore_not_paren _ _ [] (by simp)

/-- The text of a number, as `std::to_string` prints it, holds no parenthesis. -/
theorem to_string_not_paren (v : Val) : parenChars (to_string v) = [] := by
  apply parenChars_eq_nil
  intro c hc
  unfold to_string padZeros at hc
  simp only [List.mem_append, List.mem_replicate, List.mem_singleton] at hc
  rcases hc with ((hc | hc) | hc) | (hc | hc)
  · split_ifs at hc
    · simp only [List.mem_singleton] at hc
      subst hc
      decide
    · simp at hc
  · exact toDigits_not_paren _ c hc
  · subst hc
    decide
  · rw [hc.2]
    decide
  · exact toDigits_not_paren _ c hc

theorem tokenToString_parens (t : Token) (h1 : t.type ≠ .Number) (h2 : t.type ≠ .Identifier) :
    parenChars (tokenToString t.type) = parenOf t := by
  unfold parenOf
  cases hty : t.type <;> simp [hty] at h1 h2 ⊢ <;> decide

/-- The parentheses in the text of a token are the parenthesis the token stands
for, when its name holds only letters, digits and underscores. -/
theorem tokenText_parens (t : Token) (h : ∀ c ∈ t.name, isalnum c = true ∨ c = '_') :
    parenChars (tokenText t) = parenOf t := by
  unfold tokenText
  split_ifs with h1 h2
  · rw [to_string_not_paren, parenOf_other t (by rw [h1]; decide) (by rw [h1]; decide)]
  · rw [parenChars_eq_nil _ fun c hc => nameChar_not_paren c (h c hc),
      parenOf_other t (by rw [h2]; decide) (by rw [h2]; decide)]
  · exact tokenToString_parens t h1 h2

theorem serialize_parens (ts : List Token)
    (h : ∀ t ∈ ts, ∀ c ∈ t.name, isalnum c = true ∨ c = '_') :
    parenChars (serialize ts) = parenTokens ts := by
  induction ts with
  | nil => rfl
  | cons t ts ih =>
    simp only [serialize, parenTokens, parenChars_append]
    rw [tokenText_parens t (h t (List.mem_cons_self _ _)),
      ih fun t' ht' => h t' (List.mem_cons_of_mem _ ht')]

/-- When `remainingInput` returns, the text it has built is the text of the pending
tokens. -/
theorem remainingInputN_pending (n : Nat) (rest text : List Char) (p q : Parser)
    (h : remainingInputN n rest p = .ok text q) :
    ∃ ts, Pending p ts ∧ text = rest ++ serialize ts := by
  induction n generalizing rest p with
  | zero => simp [remainingInputN] at h
  | succ n ih =>
    rw [remainingInputN_succ] at h
    by_cases hE : p.currentToken.type ≠ .End
    · rw [if_pos hE] at h
      rcases eat_result p.currentToken.type p with ⟨e, q', he, -⟩ | ⟨q', he, -, -, -⟩
      · simp [he, Result.andThen] at h
      · simp only [he, Result.andThen] at h
        obtain ⟨ts, hp, ht⟩ := ih _ q' h
        obtain ⟨hpend, -⟩ := pending_of_eat _ p q' ts he hE hp
        refine ⟨p.currentToken :: ts, hpend, ?_⟩
        rw [ht]
        simp only [serialize, tokenText]
        split_ifs <;> simp
    · rw [if_neg hE] at h
      simp only [Result.ok.injEq] at h
      refine ⟨[], ?_, by simp [serialize, h.1]⟩
      have : p.currentToken.type = .End := by simpa using hE
      exact this

/-! ## C19 -/

/-- The first token of a line is a token of the lexer: when the constructor leaves
an `Identifier` as current token, its name has the shape of an identifier name. -/
theorem new_identifier (vars : Env) (line : List Char) (p : Parser)
    (h : Parser.new vars line = .ok p) (hid : p.currentToken.type = .Identifier) :
    IsIdentifierName p.currentToken.name := by
  unfold Parser.new at h
  rcases hg : (Lexer.new line).getNextToken with ⟨r, lx⟩
  rw [hg] at h
  cases r with
  | error e => simp at h
  | ok t =>
    simp only [Except.ok.injEq] at h
    subst h
    have hl := getNextToken_eq_lexAt (Lexer.new line)
    rw [hg] at hl
    have h1 : (lexAt ((Lexer.new line).input.drop (Lexer.new line).pos)).1 = .ok t := by
      have := congrArg Prod.fst hl
      exact this.symm
    exact (lexAt_name _ t h1).2 hid

theorem keys_set (env : Env) (name : List Char) (value : Val) (k : List Char)
    (h : k ∈ (env.set name value).map Prod.fst) : k = name ∨ k ∈ env.map Prod.fst := by
  induction env with
  | nil =>
    simp only [Env.set, List.map_cons, List.map_nil, List.mem_singleton] at h
    exact Or.inl h
  | cons kv rest ih =>
    obtain ⟨k', w⟩ := kv
    unfold Env.set at h
    split_ifs at h with hk
    · right
      simpa using h
    · simp only [List.map_cons, List.mem_cons] at h ⊢
      rcases h with h | h
      · exact Or.inr (Or.inl h)
      · rcases ih h with h | h
        · exact Or.inl h
        · exact Or.inr (Or.inr h)

/-- C19: after `parse` the variable map is the one before, or the one before with
one name bound, and that name is an `Identifier` of the lexer: it is not empty,
starts with a letter, holds only letters, digits and underscores, and is none of
`sin`, `cos`, `tan`, `log`, `sqrt`. Hence, if no key of the map is a function name
before `parse`, none is afterwards. -/
theorem bound_names_are_identifiers (m : Libm) (vars : Env) (line : List Char) :
    ((parseLine m vars line).2 = vars ∨
      ∃ name v, IsIdentifierName name ∧ (parseLine m vars line).2 = vars.set name v) ∧
    ((∀ k ∈ vars.map Prod.fst, isFunctionName k = false) →
      ∀ k ∈ (parseLine m vars line).2.map Prod.fst, isFunctionName k = false) := by
  have hcases : (parseLine m vars line).2 = vars ∨
      ∃ name v, IsIdentifierName name ∧ (parseLine m vars line).2 = vars.set name v := by
    rcases parseLine_vars_cases m vars line with h | ⟨p0, p1, p2, p3, v, h0, hid, -, -, -, -, h⟩
    · exact Or.inl h
    · exact Or.inr ⟨p0.currentToken.name, v, new_identifier vars line p0 h0 hid, h⟩
  refine ⟨hcases, ?_⟩
  intro hkeys k hk
  rcases hcases with h | ⟨name, v, hname, h⟩
  · rw [h] at hk
    exact hkeys k hk
  · rw [h] at hk
    rcases keys_set vars name v k hk with rfl | hk'
    · exact hname.2.2
    · exact hkeys k hk'

/-- C19, instances: the line `sin = 3` raises an error and leaves the variable map
unchanged, and so does `sqrt = 1`; the line `sine = 3` binds `sine`; and a map
without function names as keys has none after `sin = 3`. -/
theorem bound_names_are_identifiers_witness :
    parseLine Libm.approx [("x".toList, 1)] "sin = 3".toList =
        (.error .unexpectedToken, [("x".toList, 1)]) ∧
      parseLine Libm.approx [] "sqrt = 1".toList = (.error .unexpectedToken, []) ∧
      parseLine Libm.approx [] "sine = 3".toList = (.value 3, [("sine".toList, 3)]) ∧
      ∀ k ∈ (parseLine Libm.approx [("x".toList, 1)] "sin = 3".toList).2.map Prod.fst,
        isFunctionName k = false :=
  ⟨by decide!, by decide!, by decide!,
    (bound_names_are_identifiers Libm.approx [("x".toList, 1)] "sin = 3".toList).2
      (by decide)⟩

/-! ## C20 -/

theorem lexes_of_first (lx0 lx : Lexer) (t : Token) (p : Parser) (ts : List Token)
    (hg : lx0.getNextToken = (.ok t, lx)) (hl : p.lexer = lx) (hc : p.currentToken = t)
    (hp : Pending p ts) : Lexes lx0 ts := by
  cases ts with
  | nil =>
    have hE : p.currentToken.type = .End := hp
    exact Lexes.done lx0 t (by rw [hg]) (hc ▸ hE)
  | cons t' ts' =>
    obtain ⟨h1, h2, h3⟩ := hp
    rw [hc] at h1
    subst h1
    exact Lexes.step lx0 t ts' (by rw [hg]) h2 (by rw [hg, ← hl]; exact h3)

theorem lexes_of_new (vars : Env) (line : List Char) (p : Parser) (ts : List Token)
    (h : Parser.new vars line = .ok p) (hp : Pending p ts) :
    Lexes (Lexer.new line) ts := by
  unfold Parser.new at h
  rcases hg : (Lexer.new line).getNextToken with ⟨r, lx⟩
  rw [hg] at h
  cases r with
  | error e => simp at h
  | ok t =>
    simp only [Except.ok.injEq] at h
    subst h
    exact lexes_of_first _ lx t _ ts hg rfl rfl hp

/-- When `assignment` returns at the end of the line, the tokens of the line have
balanced parentheses. -/
theorem assignment_balanced (m : Libm) (vars : Env) (line : List Char) (p q : Parser)
    (v : Val) (hnew : Parser.new vars line = .ok p) (h : assignment m p = .ok v q)
    (hend : q.currentToken.type = .End) :
    ∃ ts, Lexes (Lexer.new line) ts ∧ Balanced (parenTokens ts) := by
  have hq : Pending q [] := hend
  unfold assignment at h
  by_cases hid : p.currentToken.type = .Identifier
  · rw [if_pos hid] at h
    rcases eat_result .Identifier p with ⟨e, p1, he, -⟩ | ⟨p1, he, -, -, -⟩
    · simp [he, Result.andThen] at h
    · simp only [he, Result.andThen] at h
      by_cases has : p1.currentToken.type = .Assign
      · rw [if_pos has] at h
        rcases eat_result .Assign p1 with ⟨e, p2, he2, -⟩ | ⟨p2, he2, -, -, -⟩
        · simp [he2] at h
        · simp only [he2] at h
          cases hx : expression m p2 with
          | outOfBudget => simp [hx] at h
          | throw e q' => simp [hx] at h
          | ok v' p3 =>
            simp only [hx, Result.ok.injEq] at h
            have hp3 : Pending p3 [] := by
              have : q.currentToken = p3.currentToken := by rw [← h.2]
              have hE : p3.currentToken.type = .End := by rw [← this]; exact hend
              exact hE
            obtain ⟨ts, hp2, hb⟩ := expression_consumes m p2 v' p3 [] hx hp3
            obtain ⟨ts1, hp1, hb1⟩ := consumes_cons p1 p2 .Assign ts [] he2 (by decide)
              (by decide) (by decide) hp2 hb
            obtain ⟨ts0, hp0, hb0⟩ := consumes_cons p p1 .Identifier ts1 [] he (by decide)
              (by decide) (by decide) hp1 hb1
            exact ⟨ts0, lexes_of_new vars line p ts0 hnew (by simpa using hp0), hb0⟩
      · rw [if_neg has] at h
        cases hr : remainingInput p1 with
        | outOfBudget => simp [hr] at h
        | throw e q' => simp [hr] at h
        | ok text p2 =>
          simp only [hr] at h
          rcases hg : (Lexer.new (p.currentToken.name ++ text)).getNextToken with ⟨r, lx⟩
          rw [hg] at h
          cases r with
          | error e => simp at h
          | ok t =>
            simp only at h
            obtain ⟨ts', hp', hb'⟩ := expression_consumes m _ v q [] h hq
            have hlex' : Lexes (Lexer.new (p.currentToken.name ++ text)) ts' :=
              lexes_of_first _ lx t _ ts' hg rfl rfl (by simpa using hp')
            obtain ⟨ts1, hp1, htext⟩ := remainingInputN_pending _ [] text p1 p2 hr
            obtain ⟨hp0, -⟩ := pending_of_eat .Identifier p p1 ts1 he (by decide) hp1
            have hlex0 := lexes_of_new vars line p _ hnew hp0
            have hnames := (lexes_parens _ _ hlex0).2
            refine ⟨p.currentToken :: ts1, hlex0, ?_⟩
            have e1 : parenTokens (p.currentToken :: ts1) = parenTokens ts1 := by
              simp only [parenTokens]
              rw [parenOf_other _ (by rw [hid]; decide) (by rw [hid]; decide)]
              rfl
            have e2 : parenChars (p.currentToken.name ++ text) = parenTokens ts1 := by
              rw [parenChars_append, htext, List.nil_append,
                serialize_parens ts1 fun t' ht' =>
                  (hnames t' (List.mem_cons_of_mem _ ht')).1,
                parenChars_eq_nil _ fun c hc =>
                  nameChar_not_paren c ((hnames _ (List.mem_cons_self _ _)).1 c hc)]
              rfl
            have e3 := (lexes_parens _ _ hlex').1
            simp only [Lexer.new, List.drop_zero] at e3
            rw [e1, ← e2, e3]
            exact hb'
  · rw [if_neg hid] at h
    obtain ⟨ts, hp, hb⟩ := expression_consumes m p v q [] h hq
    exact ⟨ts, lexes_of_new vars line p ts hnew (by simpa using hp), hb⟩

/-- A line for which `parse` returns a value has balanced parentheses. -/
theorem balanced_of_value (m : Libm) (vars vars' : Env) (line : List Char) (v : Val)
    (h : parseLine m vars line = (.value v, vars')) : Balanced line := by
  unfold parseLine runLine at h
  cases hnew : Parser.new vars line with
  | error e => simp [hnew] at h
  | ok p =>
    simp only [hnew] at h
    unfold Parser.parse at h
    cases hx : assignment m p with
    | outOfBudget => simp [hx, Result.andThen] at h
    | throw e q => simp [hx, Result.andThen] at h
    | ok v' q =>
      simp only [hx, Result.andThen] at h
      by_cases hend : q.currentToken.type = .End
      · obtain ⟨ts, hlex, hb⟩ := assignment_balanced m vars line p q v' hnew hx hend
        apply balanced_of_parenChars
        have e := (lexes_parens _ _ hlex).1
        simp only [Lexer.new, List.drop_zero] at e
        rw [e]
        exact hb
      · simp [hend] at h

/-- C20: whenever `parse` returns a value, the parentheses of the line are balanced:
the line has as many `(` as `)`, and no prefix of it has more `)` than `(`;
this holds also for the lines that start with an identifier and are lexed again.
A line whose parentheses are not balanced therefore raises an error. -/
theorem value_only_if_balanced (m : Libm) (vars : Env) (line : List Char) :
    (∀ v vars', parseLine m vars line = (.value v, vars') → Balanced line) ∧
      (¬ Balanced line → ∃ e vars', parseLine m vars line = (.error e, vars')) := by
  refine ⟨fun v vars' h => balanced_of_value m vars vars' line v h, fun hnb => ?_⟩
  rcases parseLine_value_or_error m vars line with ⟨v, vars', h⟩ | h
  · exact absurd (balanced_of_value m vars vars' line v h) hnb
  · exact h

/-- C20, instances: the lines `(1 + 2`, `1 + 2)` and `)(` are not balanced and raise
an error, and so does `x + (1` with `x` bound, which is lexed again; `(1 + 2) * 3`
has the value 9 and is balanced. -/
theorem value_only_if_balanced_witness :
    (∃ e vars', parseLine Libm.approx [] "(1 + 2".toList = (.error e, vars')) ∧
      parseLine Libm.approx [] "(1 + 2".toList = (.error .unexpectedToken, []) ∧
      (∃ e vars', parseLine Libm.approx [] "1 + 2)".toList = (.error e, vars')) ∧
      parseLine Libm.approx [] "1 + 2)".toList = (.error .trailingCharacters, []) ∧
      (∃ e vars', parseLine Libm.approx [] ")(".toList = (.error e, vars')) ∧
      (∃ e vars', parseLine Libm.approx [("x".toList, 2)] "x + (1".toList = (.error e, vars')) ∧
      parseLine Libm.approx [("x".toList, 2)] "x + (1".toList =
        (.error .unexpectedToken, [("x".toList, 2)]) ∧
      Balanced "(1 + 2) * 3".toList :=
  ⟨(value_only_if_balanced Libm.approx [] "(1 + 2".toList).2 (fun h => absurd h.1 (by decide)),
    by decide!,
    (value_only_if_balanced Libm.approx [] "1 + 2)".toList).2 (fun h => absurd h.1 (by decide)),
    by decide!,
    (value_only_if_balanced Libm.approx [] ")(".toList).2 (fun h => absurd (h.2 1) (by decide)),
    (value_only_if_balanced Libm.approx [("x".toList, 2)] "x + (1".toList).2
      (fun h => absurd h.1 (by decide)),
    by decide!,
    (value_only_if_balanced Libm.approx [] "(1 + 2) * 3".toList).1 9 [] (by decide!)⟩

/-! ## C11 -/

/-- At an identifier followed by `(`, `factor` throws 'Unknown function' with the
name of the identifier, whatever the variable map holds. -/
theorem factor_identifier_paren (m : Libm) (p p1 : Parser)
    (hid : p.currentToken.type = .Identifier) (heat : p.eat .Identifier = .ok () p1)
    (hparen : p1.currentToken.type = .LeftParen) :
    factor m p = .throw (.unknownFunction p.currentToken.name) p1 := by
  rw [factor_eq]
  unfold factorBody
  simp [hid, heat, Result.andThen, hparen]

/-- On pending tokens, which are read without error, `remainingInput` returns their
text. -/
theorem remainingInputN_of_pending (n : Nat) (rest : List Char) (p : Parser)
    (ts : List Token) (hp : Pending p ts) :
    remainingInputN n rest p = .outOfBudget ∨
      ∃ q, remainingInputN n rest p = .ok (rest ++ serialize ts) q := by
  induction n generalizing rest p ts with
  | zero => exact Or.inl (by rw [remainingInputN])
  | succ n ih =>
    rw [remainingInputN_succ]
    cases ts with
    | nil =>
      have hE : p.currentToken.type = .End := hp
      right
      refine ⟨p, ?_⟩
      rw [if_neg (by simp [hE])]
      simp [serialize]
    | cons t ts' =>
      have hcur : p.currentToken = t := hp.1
      have hne : p.currentToken.type ≠ .End := by rw [hcur]; exact hp.2.1
      obtain ⟨q', he, hq', -⟩ := eat_pending p t ts' hp
      rw [if_pos hne, hcur, he]
      simp only [Result.andThen]
      have e : (if t.type = .Number then rest ++ to_string t.value
          else if t.type = .Identifier then rest ++ t.name
          else rest ++ tokenToString t.type) = rest ++ tokenText t := by
        unfold tokenText
        split_ifs <;> rfl
      rw [e]
      rcases ih (rest ++ tokenText t) q' ts' hq' with h | ⟨q, h⟩
      · exact Or.inl h
      · exact Or.inr ⟨q, by rw [h]; simp [serialize]⟩

theorem remainingInput_of_pending (p : Parser) (ts : List Token) (hp : Pending p ts) :
    ∃ q, remainingInput p = .ok (serialize ts) q ∧ q.vars = p.vars := by
  rcases remainingInputN_of_pending (p.unread + 1) [] p ts hp with h | ⟨q, h⟩
  · exact absurd h (remainingInput_ne_outOfBudget p)
  · refine ⟨q, by simpa using h, ?_⟩
    have hk := remainingInput_keepsVars p
    unfold remainingInput at hk
    rw [h] at hk
    exact hk

/-- The lexer on the text of an identifier name followed by `(`: it returns the
identifier, and the next call returns `(`. -/
theorem lex_name_paren (name more : List Char) (h : IsIdentifierName name) :
    (Lexer.new (name ++ '(' :: more)).getNextToken =
        (.ok (Token.ofName .Identifier name), ⟨name ++ '(' :: more, name.length⟩) ∧
      (Lexer.getNextToken ⟨name ++ '(' :: more, name.length⟩).1 =
        .ok (Token.ofType .LeftParen) := by
  obtain ⟨⟨c, cs, hname, halpha⟩, hall, hfn⟩ := h
  have hrun : (name ++ '(' :: more).takeWhile (fun x => isalnum x || x = '_') = name := by
    rw [List.takeWhile_append_of_pos (by
      intro a ha
      simpa using hall a ha)]
    rw [List.takeWhile_cons_of_neg (by decide)]
    simp
  constructor
  · rw [getNextToken_eq_lexAt]
    simp only [Lexer.new, List.drop_zero, Nat.zero_add]
    have hcons : name ++ '(' :: more = c :: (cs ++ '(' :: more) := by rw [hname]; rfl
    have hl := lexAt_letter c (cs ++ '(' :: more) halpha
    rw [← hcons, hrun] at hl
    rw [hl]
    simp [hfn]
  · rw [getNextToken_eq_lexAt]
    simp only
    rw [List.drop_left]
    have : lexAt ('(' :: more) = (.ok (Token.ofType .LeftParen), 1) := by
      unfold lexAt
      have hd : ('(' :: more).dropWhile isspace = '(' :: more :=
        List.dropWhile_cons_of_neg (by decide)
      have ht : ('(' :: more).takeWhile isspace = [] :=
        List.takeWhile_cons_of_neg (by decide)
      simp only [hd, ht]
      rw [if_neg (by decide), if_neg (by decide)]
      have hs : singleCharToken '(' = some .LeftParen := by decide
      simp [hs]
    rw [this]

/-- A line whose first two tokens are an identifier and `(` raises 'Unknown
function' with the name of the identifier: the text rebuilt by `assignment`
starts with the same two tokens. -/
theorem leading_call (m : Libm) (vars : Env) (line : List Char) (t t2 : Token)
    (ts : List Token) (hlex : Lexes (Lexer.new line) (t :: t2 :: ts))
    (ht : t.type = .Identifier) (ht2 : t2.type = .LeftParen) :
    parseLine m vars line = (.error (.unknownFunction t.name), vars) := by
  obtain ⟨p0, hnew, hp0, hv0⟩ := new_pending vars line _ hlex
  have hcur0 : p0.currentToken = t := hp0.1
  obtain ⟨p1, he1, hp1, hv1⟩ := eat_pending p0 t _ hp0
  rw [ht] at he1
  have hcur1 : p1.currentToken = t2 := hp1.1
  obtain ⟨p2, hr, hv2⟩ := remainingInput_of_pending p1 _ hp1
  have hname : IsIdentifierName t.name :=
    ((lexes_parens _ _ hlex).2 t (List.mem_cons_self _ _)).2 ht
  have htext : serialize (t2 :: ts) = '(' :: serialize ts := by
    simp [serialize, tokenText, ht2, tokenToString]
  rw [htext] at hr
  obtain ⟨hg1, hg2⟩ := lex_name_paren t.name (serialize ts) hname
  have hid0 : p0.currentToken.type = .Identifier := by rw [hcur0]; exact ht
  have hna : p1.currentToken.type ≠ .Assign := by rw [hcur1, ht2]; decide
  -- the parser on the rebuilt text
  have hfac : factor m ⟨⟨t.name ++ '(' :: serialize ts, t.name.length⟩,
      Token.ofName .Identifier t.name, p2.vars⟩ =
      .throw (.unknownFunction t.name)
        ⟨(Lexer.getNextToken ⟨t.name ++ '(' :: serialize ts, t.name.length⟩).2,
          Token.ofType .LeftParen, p2.vars⟩ := by
    apply factor_identifier_paren m _ _ rfl
    · unfold Parser.eat
      rcases hg : Lexer.getNextToken ⟨t.name ++ '(' :: serialize ts, t.name.length⟩ with ⟨r, lx⟩
      rw [hg] at hg2
      simp only at hg2
      subst hg2
      simp [Token.ofName, hg]
    · rfl
  have hw : Within m
      (factor m ⟨⟨t.name ++ '(' :: serialize ts, t.name.length⟩,
        Token.ofName .Identifier t.name, p2.vars⟩)
      (Parser.parse m p0) := by
    refine Within.trans _ _ _ (Within.termFirst _) ?_
    refine Within.trans _ _ _ (Within.exprFirst _) ?_
    refine Within.trans _ _ _ ?_ (Within.statement p0)
    have := Within.relexed (m := m) p0 p1 p2 ('(' :: serialize ts)
      (Token.ofName .Identifier t.name) ⟨t.name ++ '(' :: serialize ts, t.name.length⟩
      hid0 he1 hna hr (by rw [hcur0]; exact hg1)
    exact this
  have hparse := throw_propagates m _ _ _ _ hw hfac
  unfold parseLine runLine
  rw [hnew]
  simp only [hparse]
  rw [hv2, hv1, hv0]

/-- C11: when `factor` is entered at an identifier and the next token is `(`, it
throws 'Unknown function' with the name of the identifier, whether or not the name
is bound, and every evaluation that runs it, up to `parse`, throws the same, which
is never an 'Unknown variable' error. In particular every line whose first two
tokens are an identifier and `(` raises 'Unknown function' with that name, for
every variable map. -/
theorem call_of_identifier (m : Libm) (p p1 : Parser)
    (hid : p.currentToken.type = .Identifier) (heat : p.eat .Identifier = .ok () p1)
    (hparen : p1.currentToken.type = .LeftParen) :
    factor m p = .throw (.unknownFunction p.currentToken.name) p1 ∧
      (∀ outer, Within m (factor m p) outer →
        outer = .throw (.unknownFunction p.currentToken.name) p1) ∧
      (∀ name, Error.unknownFunction p.currentToken.name ≠ Error.unknownVariable name) ∧
      (∀ (vars : Env) (line : List Char) (t t2 : Token) (ts : List Token),
        Lexes (Lexer.new line) (t :: t2 :: ts) → t.type = .Identifier →
        t2.type = .LeftParen →
        parseLine m vars line = (.error (.unknownFunction t.name), vars)) := by
  have hthrow := factor_identifier_paren m p p1 hid heat hparen
  exact ⟨hthrow, fun outer hw => throw_propagates m _ outer _ _ hw hthrow,
    fun name => by simp, fun vars line t t2 ts h1 h2 h3 => leading_call m vars line t t2 ts h1 h2 h3⟩

/-- C11, instances: `factor` at the identifier of `2 * foo(1)` throws 'Unknown
function: foo', also when `foo` is bound; the lines `foo(1)` and `2 * foo(1)` raise
'Unknown function: foo', with `foo` bound or not. -/
theorem call_of_identifier_witness :
    factor Libm.approx ⟨⟨"2 * foo(1)".toList, 7⟩, ident "foo", [("foo".toList, 3)]⟩ =
        .throw (.unknownFunction "foo".toList)
          ⟨⟨"2 * foo(1)".toList, 8⟩, sym .LeftParen, [("foo".toList, 3)]⟩ ∧
      parseLine Libm.approx [] "foo(1)".toList = (.error (.unknownFunction "foo".toList), []) ∧
      parseLine Libm.approx [("foo".toList, 3)] "foo(1)".toList =
        (.error (.unknownFunction "foo".toList), [("foo".toList, 3)]) ∧
      parseLine Libm.approx [] "2 * foo(1)".toList =
        (.error (.unknownFunction "foo".toList), []) ∧
      parseLine Libm.approx [("foo".toList, 3)] "2 * foo(1)".toList =
        (.error (.unknownFunction "foo".toList), [("foo".toList, 3)]) :=
  ⟨(call_of_identifier Libm.approx
      ⟨⟨"2 * foo(1)".toList, 7⟩, ident "foo", [("foo".toList, 3)]⟩
      ⟨⟨"2 * foo(1)".toList, 8⟩, sym .LeftParen, [("foo".toList, 3)]⟩
      (by decide) (by decide!) (by decide)).1,
    by decide!, by decide!, by decide!, by decide!⟩

/-! ## Instances for C16, C17 and C18 -/

/-- C16, instances: the failing lines `2 + y` and `x = 1 / 0` leave the variable map
as it was, the line `x + 1` reads `x` and leaves the map as it was, and the line
`y = x + 1` binds `y`; `expression` on the tokens of `x + 1` keeps the map. -/
theorem vars_changed_only_by_assignment_witness :
    parseLine Libm.approx [("x".toList, 1)] "2 + y".toList =
        (.error (.unknownVariable "y".toList), [("x".toList, 1)]) ∧
      parseLine Libm.approx [("x".toList, 1)] "x = 1 / 0".toList =
        (.error .divisionByZero, [("x".toList, 1)]) ∧
      parseLine Libm.approx [("x".toList, 1)] "x + 1".toList =
        (.value 2, [("x".toList, 1)]) ∧
      parseLine Libm.approx [("x".toList, 1)] "y = x + 1".toList =
        (.value 2, [("x".toList, 1), ("y".toList, 2)]) ∧
      KeepsVars ⟨⟨"x + 1".toList, 1⟩, ident "x", [("x".toList, 1)]⟩
        (expression Libm.approx ⟨⟨"x + 1".toList, 1⟩, ident "x", [("x".toList, 1)]⟩) :=
  ⟨by decide!, by decide!, by decide!, by decide!,
    ((vars_changed_only_by_assignment Libm.approx [] []).2
      ⟨⟨"x + 1".toList, 1⟩, ident "x", [("x".toList, 1)]⟩).2.2.1⟩

/-- C17, instances: on `  12 + x` the first call skips two blanks, reads `12` and
leaves the cursor at 4; a call at the end of the input leaves the cursor there. -/
theorem getNextToken_cursor_moves_witness :
    Lexer.getNextToken ⟨"  12 + x".toList, 0⟩ = (.ok (num 12), ⟨"  12 + x".toList, 4⟩) ∧
      (0 : Nat) < (Lexer.getNextToken ⟨"  12 + x".toList, 0⟩).2.pos ∧
      Lexer.getNextToken ⟨"  12 + x".toList, 8⟩ =
        (.ok (Token.ofType .End), ⟨"  12 + x".toList, 8⟩) ∧
      (Lexer.getNextToken ⟨"  12 + x".toList, 8⟩).2.pos ≤ max 8 "  12 + x".toList.length :=
  ⟨by decide!,
    (getNextToken_cursor_moves ⟨"  12 + x".toList, 0⟩).2.2.2.1 (num 12) (by decide!) (by decide),
    by decide,
    (getNextToken_cursor_moves ⟨"  12 + x".toList, 8⟩).2.2.1⟩

/-- C18, instances: the lines `((((1))))` and `x + + + (` end with a value and with an
error. -/
theorem parse_terminates_witness :
    ((∃ v vars', parseLine Libm.approx [] "x + + + (".toList = (.value v, vars')) ∨
        (∃ e vars', parseLine Libm.approx [] "x + + + (".toList = (.error e, vars'))) ∧
      parseLine Libm.approx [] "((((1))))".toList = (.value 1, []) ∧
      parseLine Libm.approx [] "x + + + (".toList =
        (.error (.unknownVariable "x".toList), []) :=
  ⟨(parse_terminates Libm.approx [] "x + + + (".toList).1, by decide!, by decide!⟩

end InfixEval
